import Mathlib

/-!
Verification of the china-land-gui export core against its specification.

The development shallowly embeds the Python source of `src/china_land/export.py`
and `src/china_land/gui.py` into Lean:

* Python scalar values that appear in the records handled by the export
  pipeline are modelled by `PyVal` (`None`, `int`, `str`); Python dicts by
  insertion-ordered association lists (`PyDict`).
* The text sanitizer (`clean_html`, `normalise_whitespace`, `extract_images`)
  is embedded as executable character-list scanners that mirror the regex
  substitutions of the source one by one.  String scanners use an explicit
  fuel argument (always called with `fuel = length`) so that every definition
  is structurally recursive and kernel-evaluable.
* The cache-and-enrichment layer and the export orchestrator are embedded as
  explicit state-passing functions / small-step machines.

Python's `html.unescape` is standard-library code, external to the repository;
it is modelled here by `unescapeGo` for the core named entities and numeric
character references.  Every theorem below either depends on its behaviour
only on '&'-free strings (where any faithful model is the identity), or
relates two functions that apply the very same model.
-/

/-- Python scalar values occurring in the article / magazine records of the
export pipeline: `None`, `int`, `str`.  (Dict-valued fields such as
`magazine_meta` are handled separately and never flow into the functions
embedded here.) -/
inductive PyVal where
  | none'
  | int (n : Int)
  | str (s : String)
deriving DecidableEq, Repr

/-- Python dict with string keys, modelled as an insertion-ordered association
list (first binding of a key is the binding; `dSet` below keeps positions). -/
abbrev PyDict := List (String × PyVal)

/-- Python `d.get(k)` returning `none` when the key is absent.  A key that is
present with value `None` yields `some PyVal.none'`, which is distinct from
absence — exactly as in Python, where `k in d` is true for such a key. -/
def dGet (d : PyDict) (k : String) : Option PyVal :=
  match d with
  | [] => none
  | (k', v) :: rest => if k' = k then some v else dGet rest k

/-- Python `k in d`. -/
def dMem (d : PyDict) (k : String) : Bool :=
  (dGet d k).isSome

/-- Python `d.get(k)` as a `PyVal` (absent keys give `None`, like
`dict.get`'s default). -/
def dGetD (d : PyDict) (k : String) : PyVal :=
  (dGet d k).getD PyVal.none'

/-- Python `d[k] = v`: replaces the value in place if the key is present
(keeping its position), otherwise appends the new binding at the end —
Python dicts are insertion-ordered. -/
def dSet (d : PyDict) (k : String) (v : PyVal) : PyDict :=
  match d with
  | [] => [(k, v)]
  | (k', v') :: rest =>
      if k' = k then (k', v) :: rest else (k', v') :: dSet rest k v

/-- Python `d.setdefault(k, v)`. -/
def dSetdefault (d : PyDict) (k : String) (v : PyVal) : PyDict :=
  if dMem d k then d else dSet d k v

/-- Python truthiness of the modelled scalar values: `None`, `0` and `""` are
falsy, everything else truthy. -/
def pyTruthy : PyVal → Bool
  | PyVal.none' => false
  | PyVal.int n => n ≠ 0
  | PyVal.str s => s ≠ ""

/-- Python `a or b` on values. -/
def pyOr (a b : PyVal) : PyVal :=
  if pyTruthy a then a else b

/-- Python `str(v)` for the modelled values (`str(None) = "None"`). -/
def pyStr : PyVal → String
  | PyVal.none' => "None"
  | PyVal.int n => toString n
  | PyVal.str s => s

theorem dGet_dSet (d : PyDict) (k q : String) (v : PyVal) :
    dGet (dSet d k v) q = if k = q then some v else dGet d q := by
  induction d with
  | nil => by_cases h : k = q <;> simp [dSet, dGet, h]
  | cons p rest ih =>
      obtain ⟨k', v'⟩ := p
      by_cases h1 : k' = k
      · subst h1
        by_cases h2 : k' = q <;> simp [dSet, dGet, h2]
      · by_cases h2 : k' = q
        · subst h2
          have : ¬ k = k' := fun h => h1 h.symm
          simp [dSet, dGet, h1, this]
        · simp [dSet, dGet, h1, h2, ih]

theorem dMem_iff (d : PyDict) (k : String) :
    dMem d k = true ↔ (dGet d k).isSome := by
  simp [dMem]

theorem dGet_dSetdefault (d : PyDict) (k q : String) (v : PyVal) :
    dGet (dSetdefault d k v) q =
      if k = q then (dGet d k).getD v |> some else dGet d q := by
  unfold dSetdefault
  by_cases hm : dMem d k
  · simp only [hm, if_true]
    by_cases h : k = q
    · subst h
      simp [dMem] at hm
      obtain ⟨w, hw⟩ := Option.isSome_iff_exists.mp hm
      simp [hw]
    · simp [h]
  · simp only [hm, Bool.false_eq_true, if_false]
    rw [dGet_dSet]
    by_cases h : k = q
    · subst h
      simp only [if_pos rfl]
      simp [dMem, Option.isSome_iff_exists] at hm
      cases hg : dGet d k with
      | none => simp
      | some w => exact absurd hg (hm w)
    · simp [h]

/-! ## Character classes used by the sanitizer (export.py lines 15-64)

`isWordChar` models Python's regex `\w` on the character ranges exercised by
this program (ASCII alphanumerics, underscore, CJK ideographs); `isPyWs`
models the whitespace set of `str.strip()` / regex `\s`; `isLineBoundary`
models the boundary set of `str.splitlines()`. -/

/-- Python regex `\w` (unicode), restricted to the ranges that occur in this
program's data: ASCII letters/digits, underscore, CJK unified ideographs. -/
def isWordChar (c : Char) : Bool :=
  (('a' ≤ c ∧ c ≤ 'z') ∨ ('A' ≤ c ∧ c ≤ 'Z') ∨ ('0' ≤ c ∧ c ≤ '9') ∨ c = '_'
    ∨ (Char.ofNat 0x4e00 ≤ c ∧ c ≤ Char.ofNat 0x9fff) : Prop) |> decide

/-- Character class of the asset-path patterns (`/batch/...`, `images/...`):
word characters, hyphen, slash, dot, percent. -/
def isPathChar (c : Char) : Bool :=
  isWordChar c || c = '-' || c = '/' || c = '.' || c = '%'

/-- Whitespace stripped by Python `str.strip()` (and matched by regex `\s`). -/
def isPyWs (c : Char) : Bool :=
  c = ' ' || c = '\t' || c = '\n' || c = '\r' ||
  c = Char.ofNat 0x0b || c = Char.ofNat 0x0c ||
  c = Char.ofNat 0x1c || c = Char.ofNat 0x1d || c = Char.ofNat 0x1e ||
  c = Char.ofNat 0x1f || c = Char.ofNat 0x85 || c = Char.ofNat 0xa0 ||
  c = Char.ofNat 0x1680 ||
  (decide ((Char.ofNat 0x2000 ≤ c ∧ c ≤ Char.ofNat 0x200a) : Prop)) ||
  c = Char.ofNat 0x2028 || c = Char.ofNat 0x2029 ||
  c = Char.ofNat 0x202f || c = Char.ofNat 0x205f || c = Char.ofNat 0x3000

/-- Line-boundary characters of Python `str.splitlines()`. -/
def isLineBoundary (c : Char) : Bool :=
  c = '\n' || c = '\r' ||
  c = Char.ofNat 0x0b || c = Char.ofNat 0x0c ||
  c = Char.ofNat 0x1c || c = Char.ofNat 0x1d || c = Char.ofNat 0x1e ||
  c = Char.ofNat 0x85 || c = Char.ofNat 0x2028 || c = Char.ofNat 0x2029

/-- Characters stripped from each line by `line.strip(" \t　")`
(export.py line 43). -/
def isTrimChar (c : Char) : Bool :=
  c = ' ' || c = '\t' || c = Char.ofNat 0x3000

/-- Matches the literal `pat` at the head of `cs` (case-insensitively when
`ci` is true, as under `re.IGNORECASE`); returns the rest on success. -/
def matchLit (ci : Bool) (pat cs : List Char) : Option (List Char) :=
  match pat, cs with
  | [], rest => some rest
  | _ :: _, [] => none
  | p :: ps, c :: cs' =>
      if (if ci then p.toLower = c.toLower else p = c) then matchLit ci ps cs'
      else none

/-- Strips characters satisfying `p` from both ends (Python `str.strip`). -/
def stripSet (p : Char → Bool) (cs : List Char) : List Char :=
  ((cs.dropWhile p).reverse.dropWhile p).reverse

/-! ## Python `str.replace` (used for `<br>` variants, the basepath
placeholder, and the stray `">` sequence — export.py lines 24-30, 38, 41).

The fuel argument makes the recursion structural; all wrappers call with
`fuel = cs.length`, which suffices because every step consumes at least one
character (patterns used are nonempty). -/

def replaceGo (pat repl : List Char) : Nat → List Char → List Char
  | 0, cs => cs
  | _ + 1, [] => []
  | fuel + 1, c :: cs =>
      match matchLit false pat (c :: cs) with
      | some rest => repl ++ replaceGo pat repl fuel rest
      | none => c :: replaceGo pat repl fuel cs

/-- Python `s.replace(pat, repl)` on character lists. -/
def pyReplace (pat repl cs : List Char) : List Char :=
  replaceGo pat repl cs.length cs

/-! ## The tag matchers behind each regex substitution of `clean_html`.

Each matcher receives the characters following a `'<'` and returns the rest
of the input after the full regex match, or `none`.  The scanners that use
them (`scanSub`) emit the replacement on a match and otherwise copy one
character — exactly `re.sub`'s leftmost, non-overlapping scan. -/

/-- Boundary test for regex `\b` placed after an ASCII-letter tag name:
succeeds when the next character is not a word character (or at end). -/
def boundaryOK : List Char → Bool
  | [] => true
  | c :: _ => !isWordChar c

/-- Drops characters up to and including the first `'>'`; `none` if there is
no `'>'` (so `[^>]*>` cannot complete). -/
def dropThrough (cs : List Char) : Option (List Char) :=
  match cs.dropWhile (fun c => c ≠ '>') with
  | '>' :: r => some r
  | _ => none

/-- Matcher for `<name\b[^>]*>` (case-insensitive); `cs` starts after `'<'`. -/
def openTagTry (name : List Char) (cs : List Char) : Option (List Char) :=
  match matchLit true name cs with
  | some rest => if boundaryOK rest then dropThrough rest else none
  | none => none

/-- Matcher for `</name\s*>` (case-insensitive); `cs` starts after `'<'`. -/
def closeTagTry (name : List Char) (cs : List Char) : Option (List Char) :=
  match cs with
  | '/' :: rest =>
      match matchLit true name rest with
      | some rest2 =>
          match rest2.dropWhile isPyWs with
          | '>' :: r => some r
          | _ => none
      | none => none
  | _ => none

/-- Scans for the literal `</name>` (case-insensitive, as the backreference
`</\1>` under `re.IGNORECASE`), returning the rest after it. -/
def findCloseTag (name : List Char) : List Char → Option (List Char)
  | [] => none
  | c :: cs =>
      if c = '<' then
        match cs with
        | '/' :: r =>
            match matchLit true name r with
            | some ('>' :: r2) => some r2
            | _ => findCloseTag name cs
        | _ => findCloseTag name cs
      else findCloseTag name cs

/-- Matcher for one alternative of `<(script|style)\b.*?>.*?</\1>` (lazy,
DOTALL): after the name and `\b`, the lazy `.*?>` reaches the first `'>'`,
then the lazy `.*?</\1>` reaches the first matching close tag.  (If no close
tag follows the first `'>'`, none follows any later `'>'` either, so the
whole alternative fails — the lazy backtracking search is equivalent to this
two-step scan.) -/
def blockTagTry (name : List Char) (cs : List Char) : Option (List Char) :=
  match matchLit true name cs with
  | some rest =>
      if boundaryOK rest then
        match dropThrough rest with
        | some rest2 => findCloseTag name rest2
        | none => none
      else none
  | none => none

/-- Matcher for `<(script|style)\b.*?>.*?</\1>`: tries `script`, then
`style` (alternation order of the regex). -/
def scriptStyleTry (cs : List Char) : Option (List Char) :=
  match blockTagTry "script".data cs with
  | some r => some r
  | none => blockTagTry "style".data cs

/-- Matcher for the generic tag pattern `<[^>]+>`; `cs` starts after `'<'`.
The character run must be nonempty, so `<>` is not a match. -/
def anyTagTry (cs : List Char) : Option (List Char) :=
  match cs with
  | [] => none
  | c :: _ => if c = '>' then none else dropThrough cs

/-- Generic `re.sub` scanner for the `'<'`-anchored patterns: at each `'<'`
the matcher is tried; on success the replacement is emitted and scanning
resumes after the match, otherwise the character is copied. -/
def scanSub (try' : List Char → Option (List Char)) (repl : List Char) :
    Nat → List Char → List Char
  | 0, cs => cs
  | _ + 1, [] => []
  | fuel + 1, c :: cs =>
      if c = '<' then
        match try' cs with
        | some rest => repl ++ scanSub try' repl fuel rest
        | none => c :: scanSub try' repl fuel cs
      else c :: scanSub try' repl fuel cs

/-- `re.sub` scanner for the literal `pat` followed by a nonempty greedy run
of path characters, with empty replacement, used for
`/batch/...` and `images/...` (export.py lines 39-40): the literal must be
followed by at least one path character; the greedy run is removed. -/
def scanPath (pat : List Char) : Nat → List Char → List Char
  | 0, cs => cs
  | _ + 1, [] => []
  | fuel + 1, c :: cs =>
      match matchLit false pat (c :: cs) with
      | some rest =>
          match rest.dropWhile isPathChar with
          | r => if r.length = rest.length then c :: scanPath pat fuel cs
                 else scanPath pat fuel r
      | none => c :: scanPath pat fuel cs

/-! ## HTML entity decoding.

`html.unescape` is Python standard-library code (outside this repository).
It is modelled for the core named entities and numeric character references,
each requiring the terminating `';'`.  Every theorem in this file relies on
its behaviour only for inputs without `'&'` (where any faithful model is the
identity map). -/

/-- Named-entity table (subset of `html.entities`). -/
def namedEntity : List (List Char × Char) :=
  [("lt".data, '<'), ("gt".data, '>'), ("amp".data, '&'),
   ("quot".data, '"'), ("apos".data, '\''), ("nbsp".data, Char.ofNat 0xa0)]

/-- Parses the part after `'&'`: `#DDDD;`, `#xHHHH;` or a named entity with
`';'`.  Returns the decoded character and the rest. -/
def entityTry (cs : List Char) : Option (Char × List Char) :=
  match cs with
  | '#' :: rest =>
      match rest with
      | 'x' :: rest2 =>
          match rest2.takeWhile (fun c => c.isDigit ∨ ('a' ≤ c ∧ c ≤ 'f') ∨ ('A' ≤ c ∧ c ≤ 'F')) with
        | [] => none
        | ds =>
            match rest2.drop ds.length with
            | ';' :: r =>
                some (Char.ofNat (ds.foldl (fun a c => a * 16 +
                  (if c.isDigit then c.toNat - 48
                   else if 'a' ≤ c ∧ c ≤ 'f' then c.toNat - 87 else c.toNat - 55)) 0), r)
            | _ => none
      | _ =>
          match rest.takeWhile Char.isDigit with
          | [] => none
          | ds =>
              match rest.drop ds.length with
              | ';' :: r =>
                  some (Char.ofNat (ds.foldl (fun a c => a * 10 + (c.toNat - 48)) 0), r)
              | _ => none
  | _ =>
      namedEntity.foldl
        (fun acc (p : List Char × Char) =>
          match acc with
          | some r => some r
          | none =>
              match matchLit false p.1 cs with
              | some (';' :: r) => some (p.2, r)
              | _ => none)
        none

/-- Scanner applying `html.unescape` (modelled): decodes entities at each
`'&'`. -/
def unescapeGo : Nat → List Char → List Char
  | 0, cs => cs
  | _ + 1, [] => []
  | fuel + 1, c :: cs =>
      if c = '&' then
        match entityTry cs with
        | some (d, rest) => d :: unescapeGo fuel rest
        | none => c :: unescapeGo fuel cs
      else c :: unescapeGo fuel cs

/-! ## Line normalisation (export.py lines 43-51) and the final newline
collapse of `normalise_whitespace` (lines 15-17). -/

/-- Python `str.splitlines()`: accumulates the current line (reversed) and
splits at each boundary character, treating `"\r\n"` as one boundary; a
trailing segment without a final boundary still forms a line. -/
def slGo : List Char → List Char → List (List Char)
  | [], acc => if acc.isEmpty then [] else [acc.reverse]
  | c :: cs, acc =>
      if c = '\r' then
        match cs with
        | [] => acc.reverse :: slGo [] []
        | d :: cs2 =>
            if d = '\n' then acc.reverse :: slGo cs2 []
            else acc.reverse :: slGo (d :: cs2) []
      else if isLineBoundary c then acc.reverse :: slGo cs []
      else slGo cs (c :: acc)

/-- Python `value.splitlines()`. -/
def splitlinesPy (cs : List Char) : List (List Char) :=
  slGo cs []

/-- The blank-line collapsing loop of `clean_html` (export.py lines 44-50):
a blank line is kept only when something was already emitted and the last
emitted line was not blank.  The state is `none` when nothing was emitted
yet, otherwise `some b` with `b` true when the last emitted line was blank. -/
def collapseGo : Option Bool → List (List Char) → List (List Char)
  | _, [] => []
  | st, l :: ls =>
      if l.isEmpty then
        match st with
        | none => collapseGo none ls
        | some true => collapseGo (some true) ls
        | some false => [] :: collapseGo (some true) ls
      else l :: collapseGo (some false) ls

/-- Python `"\n".join(...)` on character-list lines. -/
def joinNl : List (List Char) → List Char
  | [] => []
  | [l] => l
  | l :: ls => l ++ '\n' :: joinNl ls

/-- Lines 43-51 of export.py: per-line strip, blank collapse, join, final
`strip()`. -/
def cleanLinesPart (cs : List Char) : List Char :=
  stripSet isPyWs
    (joinNl (collapseGo none ((splitlinesPy cs).map (stripSet isTrimChar))))

/-- `re.sub` for the pattern of three or more newlines replaced by two
(export.py line 17): each maximal newline run of length at least 3 becomes
two newlines, shorter runs are kept. -/
def collapse3Go : Nat → List Char → List Char
  | 0, cs => cs
  | _ + 1, [] => []
  | fuel + 1, c :: cs =>
      if c = '\n' then
        (if 3 ≤ ((c :: cs).takeWhile (fun x => x = '\n')).length
         then ['\n', '\n']
         else (c :: cs).takeWhile (fun x => x = '\n')) ++
          collapse3Go fuel ((c :: cs).dropWhile (fun x => x = '\n'))
      else c :: collapse3Go fuel cs

/-- The newline collapse applied by `normalise_whitespace`. -/
def runCollapse3 (cs : List Char) : List Char :=
  collapse3Go cs.length cs

/-- The full substitution pipeline of `clean_html` (export.py lines 23-51),
step for step in source order. -/
def cleanHtmlSteps (cs : List Char) : List Char :=
  let v1 := pyReplace "<br>".data "\n".data cs
  let v2 := pyReplace "<br/>".data "\n".data v1
  let v3 := pyReplace "<br />".data "\n".data v2
  let v4 := scanSub (closeTagTry "p".data) "\n\n".data v3.length v3
  let v5 := scanSub (openTagTry "p".data) [] v4.length v4
  let v6 := scanSub (openTagTry "li".data) "- ".data v5.length v5
  let v7 := scanSub (closeTagTry "li".data) "\n".data v6.length v6
  let v8 := scanSub scriptStyleTry [] v7.length v7
  let v9 := scanSub (openTagTry "img".data) [] v8.length v8
  let v10 := scanSub anyTagTry [] v9.length v9
  let v11 := pyReplace "<%basePath%>".data [] v10
  let v12 := scanPath "/batch/".data v11.length v11
  let v13 := scanPath "images/".data v12.length v12
  let v14 := pyReplace "\">".data [] v13
  let v15 := unescapeGo v14.length v14
  cleanLinesPart v15

/-- `clean_html` (export.py lines 20-51).  The argument is `Option String` so
that Python `None` is representable; `if not text: return ""` covers both
`None` and the empty string. -/
def clean_html (t : Option String) : String :=
  match t with
  | none => ""
  | some s => if s = "" then "" else String.mk (cleanHtmlSteps s.data)

/-- `normalise_whitespace` (export.py lines 15-17): `clean_html` followed by
the 3+-newline collapse. -/
def normalise_whitespace (s : String) : String :=
  String.mk (runCollapse3 (clean_html (some s)).data)

/-! ## `extract_images` (export.py lines 54-64). -/

/-- Base URL substituted for the basepath placeholder. -/
def BASE_DATA_URL : String := "http://szb.iziran.net/dataFile"

/-- Either quote character accepted by the image regex. -/
def isQuote (c : Char) : Bool :=
  c = '"' || c = '\''

/-- Matches `src=` (case-insensitive), an opening quote, a nonempty run of
non-quote characters (the url group), and a closing quote; returns the url
and the rest after the closing quote. -/
def imgSrcTailTry (cs : List Char) : Option (List Char × List Char) :=
  match matchLit true "src=".data cs with
  | some (q :: r2) =>
      if isQuote q then
        match r2.takeWhile (fun c => !isQuote c) with
        | [] => none
        | url =>
            match r2.drop url.length with
            | q2 :: r3 => if isQuote q2 then some (url, r3) else none
            | [] => none
      else none
  | _ => none

/-- One full candidate for the part of the image regex after the leading
run: the `src` attribute followed by any non-`'>'` characters and the
closing `'>'`; returns the url and the rest after the `'>'`. -/
def imgSrcFullTry (cs : List Char) : Option (List Char × List Char) :=
  match imgSrcTailTry cs with
  | some (url, r3) =>
      match dropThrough r3 with
      | some rest => some (url, rest)
      | none => none
  | none => none

/-- The backtracking search of the greedy leading run of non-`'>'`
characters: among the positions reachable without crossing a `'>'`, the
deepest one whose remainder completes the match wins (greedy `.*`-style
preference of `re`). -/
def findSrcGreedy : List Char → Option (List Char × List Char)
  | [] => none
  | c :: cs =>
      if c = '>' then imgSrcFullTry (c :: cs)
      else
        match findSrcGreedy cs with
        | some r => some r
        | none => imgSrcFullTry (c :: cs)

/-- Matches `alt=` (case-insensitive), a quote, a possibly-empty run of
non-quote characters (the alt group), and a closing quote. -/
def altTailTry (cs : List Char) : Option (List Char) :=
  match matchLit true "alt=".data cs with
  | some (q :: r2) =>
      if isQuote q then
        match r2.drop (r2.takeWhile (fun c => !isQuote c)).length with
        | q2 :: _ =>
            if isQuote q2 then some (r2.takeWhile (fun c => !isQuote c))
            else none
        | [] => none
      else none
  | _ => none

/-- `re.search` of the alt pattern inside the matched tag text: leftmost
position wins. -/
def searchAlt : List Char → Option (List Char)
  | [] => none
  | c :: cs =>
      match altTailTry (c :: cs) with
      | some a => some a
      | none => searchAlt cs

/-- Attempts the image regex at a position whose head is `'<'`: `<img`,
`\b`, then the greedy search.  Returns the raw url group, the raw alt group
(if the alt search inside the whole match succeeds) and the rest of the
input after the match. -/
def imgMatchAt (cs : List Char) : Option (List Char × Option (List Char) × List Char) :=
  match cs with
  | '<' :: r1 =>
      match matchLit true "img".data r1 with
      | some r2 =>
          if boundaryOK r2 then
            match findSrcGreedy r2 with
            | some (url, rest) =>
                some (url, searchAlt (cs.take (cs.length - rest.length)), rest)
            | none => none
          else none
      | none => none
  | _ => none

/-- Builds one image entry (export.py lines 59-63): rewrite the placeholder
in the url, entity-decode the alt if present (else empty), and strip both. -/
def mkImageEntry (url : List Char) (alt : Option (List Char)) : String × String :=
  let src := pyReplace "<%basePath%>".data BASE_DATA_URL.data url
  let altText :=
    match alt with
    | some a => unescapeGo a.length a
    | none => []
  (String.mk (stripSet isPyWs src), String.mk (stripSet isPyWs altText))

/-- `re.finditer` scan of the image pattern: try at each `'<'`, continue
after each match. -/
def extractGo : Nat → List Char → List (String × String)
  | 0, _ => []
  | _ + 1, [] => []
  | fuel + 1, c :: cs =>
      if c = '<' then
        match imgMatchAt (c :: cs) with
        | some (url, alt, rest) => mkImageEntry url alt :: extractGo fuel rest
        | none => extractGo fuel cs
      else extractGo fuel cs

/-- `extract_images` (export.py lines 54-64). -/
def extract_images (h : Option String) : List (String × String) :=
  match h with
  | none => []
  | some s => if s = "" then [] else extractGo s.data.length s.data

/-! ## Rendering (export.py lines 67-134) and the article sort
(gui.py line 668, export.py line 260). -/

/-- Python `str.strip()` on strings. -/
def pyStripStr (s : String) : String :=
  String.mk (stripSet isPyWs s.data)

/-- Decimal-numeral parse used by Python `int(str)`: optional sign,
digits, surrounding whitespace allowed.  (Python also accepts underscore
digit grouping, which never occurs in this program's data.) -/
def parseDigits (ds : List Char) : Option Nat :=
  if ds.isEmpty then none
  else if ds.all Char.isDigit then
    some (ds.foldl (fun a c => a * 10 + (c.toNat - 48)) 0)
  else none

/-- Python `int(v)` for the modelled values: `none` encodes the
`TypeError` / `ValueError` caught by the callers' `try`/`except`. -/
def pyIntOf : PyVal → Option Int
  | PyVal.int n => some n
  | PyVal.none' => none
  | PyVal.str s =>
      match stripSet isPyWs s.data with
      | '-' :: ds => (parseDigits ds).map (fun n => -(n : Int))
      | '+' :: ds => (parseDigits ds).map (fun n => (n : Int))
      | ds => (parseDigits ds).map (fun n => (n : Int))

/-- Python `f"{n:03d}"`: total width 3, zero-padded, sign included in the
width. -/
def fmt03d (n : Int) : String :=
  if n < 0 then
    "-" ++ String.mk (List.replicate (2 - (toString n.natAbs).length) '0') ++
      toString n.natAbs
  else
    String.mk (List.replicate (3 - (toString n.natAbs).length) '0') ++
      toString n.natAbs

/-- The index formatting of `render_article` / `write_article_separately`
(export.py lines 68-72): `f"{int(index_raw):03d}"`, falling back to
`str(index_raw)` on `TypeError` / `ValueError`. -/
def formatIndex (v : PyVal) : String :=
  match pyIntOf v with
  | some n => fmt03d n
  | none => pyStr v

/-- Applies `normalise_whitespace` to a field value.  `None` flows through
`clean_html`'s falsy check to `""`; a non-string truthy value would raise
`TypeError` inside Python's `str.replace` and is never exercised by the
theorems below. -/
def nwVal : PyVal → String
  | PyVal.str s => normalise_whitespace s
  | PyVal.none' => ""
  | PyVal.int _ => ""

/-- Converts a field value to the `str | None` argument of
`extract_images`; non-string truthy values would raise and are unexercised. -/
def pyValToOptStr : PyVal → Option String
  | PyVal.str s => some s
  | PyVal.none' => none
  | PyVal.int _ => none

/-- Image markdown lines of `render_article` (export.py lines 96-98),
enumerating from 1: `![alt or 图片N](url)`. -/
def imageLinesGo : Nat → List (String × String) → List String
  | _, [] => []
  | idx, (url, alt) :: rest =>
      (if alt ≠ "" then s!"![{alt}]({url})" else "![图片" ++ toString idx ++ s!"]({url})") ::
        imageLinesGo (idx + 1) rest

/-- `render_article` (export.py lines 67-101). -/
def render_article (article : PyDict) : String :=
  let index_str := formatIndex (dGetD article "index")
  let title := nwVal (pyOr (dGetD article "titleHtml") (pyOr (dGetD article "title") (PyVal.str "")))
  let author := nwVal (pyOr (dGetD article "authorHtml") (pyOr (dGetD article "author") (PyVal.str "")))
  let column := nwVal (pyOr (dGetD article "column") (PyVal.str ""))
  let page_number := dGetD article "pageNumber"
  let body_html := pyOr (dGetD article "html") (PyVal.str "")
  let body_text0 := nwVal body_html
  let body_text :=
    if body_text0 = "" then nwVal (pyOr (dGetD article "text") (PyVal.str ""))
    else body_text0
  let meta_lines :=
    (if column ≠ "" then [s!"栏目：{column}"] else []) ++
    (if author ≠ "" then [s!"作者：{author}"] else []) ++
    (if pyTruthy page_number then [s!"页码：{pyStr page_number}"] else [])
  let images := extract_images (pyValToOptStr (dGetD article "html"))
  let lines :=
    [s!"## {index_str} {title}"] ++
    (if meta_lines ≠ [] then meta_lines.map (fun m => s!"- {m}") ++ [""] else []) ++
    (if images ≠ [] then imageLinesGo 1 images ++ [""] else []) ++
    [body_text]
  pyStripStr (String.intercalate "\n" lines)

/-- Filename-safe character class of `write_issue_markdown` (export.py
line 117): ASCII alphanumerics, CJK ideographs, hyphen and a fixed
punctuation allow-list; everything else becomes `'_'`. -/
def isIssueSafeChar (c : Char) : Bool :=
  (decide (('0' ≤ c ∧ c ≤ '9') ∨ ('A' ≤ c ∧ c ≤ 'Z') ∨ ('a' ≤ c ∧ c ≤ 'z') ∨
    (Char.ofNat 0x4e00 ≤ c ∧ c ≤ Char.ofNat 0x9fff) : Prop)) ||
  c = '-' || c = '（' || c = '）' || c = '(' || c = ')' ||
  c = '第' || c = '期' || c = '年' || c = '月' || c = '日'

/-- Gets the string content of a value passed to a `re` operation; a
non-string value would raise `TypeError` in Python and is unexercised. -/
def asStr : PyVal → String
  | PyVal.str s => s
  | _ => ""

/-- The per-article line block of the issue-document loop (export.py
lines 126-130). -/
def issueArticleLines (articles : List PyDict) : List String :=
  articles.flatMap (fun a => ["", render_article a, "", "---"])

/-- The trailing-rule pop (export.py lines 131-132). -/
def popTrailingRule (lines : List String) : List String :=
  match lines.getLast? with
  | some l => if l = "---" then lines.dropLast else lines
  | none => lines

/-- Header lines of the issue document (export.py lines 112-125): the `#`
heading (full title or composed fallback) and the optional publish-date
block. -/
def issueHeaderLines (magazine_meta : PyDict) (pfx : String) : List String :=
  let year := pyOr (dGetD magazine_meta "year") (PyVal.str "")
  let page_name := pyOr (dGetD magazine_meta "pageName") (PyVal.str "")
  let date := pyOr (dGetD magazine_meta "date") (PyVal.str "")
  let full_title := nwVal (pyOr (dGetD magazine_meta "title") (PyVal.str ""))
  let header_title :=
    if full_title ≠ "" then full_title else s!"{pfx}{pyStr year}{pyStr page_name}"
  [s!"# {pyStripStr header_title}"] ++
    (if pyTruthy date then ["", s!"- 出版日期：{pyStr date}"] else [])

/-- Line list of the issue document before joining (export.py
lines 121-132). -/
def issueLines (magazine_meta : PyDict) (articles : List PyDict)
    (pfx : String) : List String :=
  popTrailingRule (issueHeaderLines magazine_meta pfx ++ issueArticleLines articles)

/-- `write_issue_markdown` (export.py lines 104-134) without the filesystem
write: returns the filename and the written content (the content is the
joined, stripped line list plus one trailing newline). -/
def write_issue_markdown (magazine_meta : PyDict) (articles : List PyDict)
    (pfx : String) (fallback_name : PyVal) : String × String :=
  let year := pyOr (dGetD magazine_meta "year") (PyVal.str "")
  let page_name := pyOr (dGetD magazine_meta "pageName") (PyVal.str "")
  let safe_page := String.mk ((asStr page_name).data.map
    (fun c => if isIssueSafeChar c then c else '_'))
  let identifier := pyOr fallback_name (pyOr (dGetD magazine_meta "id") (PyVal.str "magazine"))
  let fname_mid := if safe_page ≠ "" then safe_page else pyStr identifier
  let filename := s!"{pyStr year}_{fname_mid}.md"
  (filename,
   pyStripStr (String.intercalate "\n" (issueLines magazine_meta articles pfx)) ++ "\n")

/-- The sort key `lambda x: x.get("index") or 0` (gui.py lines 363, 668,
768, 914; export.py lines 189, 224, 260). -/
def indexOrKey (a : PyDict) : PyVal :=
  pyOr (dGetD a "index") (PyVal.int 0)

/-- Lexicographic strict order on character lists — Python's `<` on `str`
compares code points lexicographically. -/
def charListLt : List Char → List Char → Bool
  | [], [] => false
  | [], _ :: _ => true
  | _ :: _, [] => false
  | a :: as, b :: bs => if a < b then true else if b < a then false else charListLt as bs

/-- Python `a <= b` on strings. -/
def charListLe (x y : List Char) : Bool :=
  !charListLt y x

/-- Python `a <= b` on sort-key values.  Comparing `int` with `str` raises
`TypeError` in Python; those cases are unreachable behind the homogeneity
guard of `pySortByKey` and return `false` here. -/
def pyLeB : PyVal → PyVal → Bool
  | PyVal.int m, PyVal.int n => decide (m ≤ n)
  | PyVal.str s, PyVal.str t => charListLe s.data t.data
  | _, _ => false

/-- True when every key is an `int`. -/
def allIntKeys (key : PyDict → PyVal) (l : List PyDict) : Bool :=
  l.all (fun a => match key a with | PyVal.int _ => true | _ => false)

/-- True when every key is a `str`. -/
def allStrKeys (key : PyDict → PyVal) (l : List PyDict) : Bool :=
  l.all (fun a => match key a with | PyVal.str _ => true | _ => false)

/-- Python `sorted(l, key=key)`: a stable ascending sort by the key.  Stable
sorts under a total key order are extensionally unique, so insertion sort
coincides with Python's Timsort.  A list of two or more elements with mixed
`int` / `str` keys makes Python raise `TypeError` before returning; that is
modelled as `none`. -/
def pySortByKey (key : PyDict → PyVal) (l : List PyDict) : Option (List PyDict) :=
  if l.length ≤ 1 ∨ allIntKeys key l = true ∨ allStrKeys key l = true then
    some (List.insertionSort (fun a b => pyLeB (key a) (key b) = true) l)
  else none

/-- The sort applied to collected detail records before an issue document is
written (gui.py line 668): `sorted(issue_articles, key=lambda x:
x.get("index") or 0)`. -/
def sortArticlesByIndex (articles : List PyDict) : Option (List PyDict) :=
  pySortByKey indexOrKey articles

/-! ## Bulk ingestion (export.py lines 238-262).

The NDJSON decoding (`json.loads` per line, blank lines skipped) is standard
library code; the records resulting from it are modelled directly.  Missing
`magazine["id"]` would raise `KeyError`; theorems instantiate it with a
string. -/

/-- One decoded NDJSON line: `{"magazine": {...}, "article": {...},
"year": ...}`. -/
structure IngestRecord where
  magazine : PyDict
  article : PyDict
  year : PyVal
deriving DecidableEq, Repr

/-- The magazine-meta dict built for a first-seen magazine id (export.py
lines 250-256). -/
def ingestMagMeta (r : IngestRecord) : PyDict :=
  [("id", dGetD r.magazine "id"),
   ("year", r.year),
   ("pageName", dGetD r.magazine "pageName"),
   ("date", dGetD r.magazine "date"),
   ("title", pyOr (dGetD r.magazine "title")
       (pyOr (dGetD r.magazine "subject") (PyVal.str "")))]

/-- `articles_by_mag.setdefault(mid, []).append(article)`. -/
def appendAt (l : List (PyVal × List PyDict)) (k : PyVal) (a : PyDict) :
    List (PyVal × List PyDict) :=
  match l with
  | [] => [(k, [a])]
  | (k', v) :: rest =>
      if k' = k then (k', v ++ [a]) :: rest else (k', v) :: appendAt rest k a

/-- The accumulation loop of `generate_markdown` (export.py lines 242-257):
insertion-ordered magazine-meta map (first record for an id wins) and
per-magazine article lists in line order. -/
def ingestGo (recs : List IngestRecord) :
    List (PyVal × PyDict) × List (PyVal × List PyDict) :=
  recs.foldl
    (fun acc r =>
      let mid := dGetD r.magazine "id"
      ((if (List.lookup mid acc.1).isSome then acc.1
        else acc.1 ++ [(mid, ingestMagMeta r)]),
       appendAt acc.2 mid r.article))
    ([], [])

/-- `generate_markdown` (export.py lines 238-262) without the filesystem:
one issue document per distinct magazine id, articles sorted by the index
key.  `none` models the `TypeError` a mixed-key sort would raise. -/
def generate_markdown (recs : List IngestRecord) (pfx : String) :
    Option (List (String × String)) :=
  let acc := ingestGo recs
  acc.1.foldr
    (fun p rest =>
      match rest with
      | none => none
      | some files =>
          match pySortByKey indexOrKey ((List.lookup p.1 acc.2).getD []) with
          | some sortedArts =>
              some (write_issue_markdown p.2 sortedArts pfx PyVal.none' :: files)
          | none => none)
    (some [])

/-! ## Cache and enrichment layer (gui.py lines 421-455, 503-508). -/

/-- The seven-field key tuple of the cache-hit enrichment branch
(gui.py line 433). -/
def hitKeys : List String :=
  ["title", "titleHtml", "author", "authorHtml", "column", "text", "pageNumber"]

/-- The eight-field key tuple of the fresh-fetch enrichment branch
(gui.py lines 441-450). -/
def fetchKeys : List String :=
  hitKeys ++ ["coverImgPath"]

/-- The per-key gap-fill loop: `if key not in detail and key in base:
detail[key] = base[key]`. -/
def enrichKeys (ks : List String) (b : PyDict) (d : PyDict) : PyDict :=
  ks.foldl
    (fun acc k => if !dMem acc k && dMem b k then dSet acc k (dGetD b k) else acc)
    d

/-- Python `if base:` — both `None` and an empty dict are falsy. -/
def baseActive : Option PyDict → Option PyDict
  | some b => if b.isEmpty then none else some b
  | none => none

/-- The enrichment of the cache-hit branch of `get_article_detail`
(gui.py lines 430-436): the returned value is a copy; `setdefault("index",
base.get("index"))`, then the seven-key gap fill. -/
def enrichHit (d : PyDict) (ob : Option PyDict) : PyDict :=
  match baseActive ob with
  | some b => enrichKeys hitKeys b (dSetdefault d "index" (dGetD b "index"))
  | none => d

/-- The enrichment of the fresh-fetch branch of `get_article_detail`
(gui.py lines 438-453): `setdefault("index", ...)`, then the eight-key gap
fill (including `coverImgPath`). -/
def enrichFetch (d : PyDict) (ob : Option PyDict) : PyDict :=
  match baseActive ob with
  | some b => enrichKeys fetchKeys b (dSetdefault d "index" (dGetD b "index"))
  | none => d

/-- The in-memory caches of `ChinaLandGUI` (gui.py lines 37-39), plus logs
of the remote calls issued, newest last.  The log fields are ghost state
recording each `self.crawler.fetch_*` call. -/
structure Session where
  magazines_by_year : List (String × List PyDict)
  articles_by_mag : List (String × List PyDict)
  article_details : List (String × PyDict)
  magFetchLog : List String
  artFetchLog : List String
  detailFetchLog : List String
deriving DecidableEq, Repr

/-- The caches right after login (gui.py lines 268-270 clear all three). -/
def emptySession : Session :=
  ⟨[], [], [], [], [], []⟩

/-- The remote data client (`self.crawler`), an external collaborator
specified only by what each fetch returns. -/
structure Crawler where
  fetch_magazines : String → List PyDict
  fetch_articles : String → List PyDict
  fetch_article_detail : String → PyDict

/-- `get_magazines_for_year` (gui.py lines 503-508): get-or-fetch-then-store. -/
def get_magazines_for_year (c : Crawler) (s : Session) (year : String) :
    List PyDict × Session :=
  match List.lookup year s.magazines_by_year with
  | some v => (v, s)
  | none =>
      let v := c.fetch_magazines year
      (v, { s with
              magazines_by_year := s.magazines_by_year ++ [(year, v)],
              magFetchLog := s.magFetchLog ++ [year] })

/-- `get_articles_for_magazine` (gui.py lines 421-426). -/
def get_articles_for_magazine (c : Crawler) (s : Session) (mid : String) :
    List PyDict × Session :=
  match List.lookup mid s.articles_by_mag with
  | some v => (v, s)
  | none =>
      let v := c.fetch_articles mid
      (v, { s with
              articles_by_mag := s.articles_by_mag ++ [(mid, v)],
              artFetchLog := s.artFetchLog ++ [mid] })

/-- `get_article_detail` (gui.py lines 428-455).  Cache hit: the stored
record is copied, enriched from the base, and returned — the cache is not
written.  Miss: the fetched detail is enriched (eight keys) and stored. -/
def get_article_detail (c : Crawler) (s : Session) (aid : String)
    (base : Option PyDict) : PyDict × Session :=
  match List.lookup aid s.article_details with
  | some d => (enrichHit d base, s)
  | none =>
      let detail := enrichFetch (c.fetch_article_detail aid) base
      (detail, { s with
                   article_details := s.article_details ++ [(aid, detail)],
                   detailFetchLog := s.detailFetchLog ++ [aid] })

/-- One call to a cache accessor. -/
inductive CacheOp where
  | getMags (year : String)
  | getArts (mid : String)
  | getDetail (aid : String) (base : Option PyDict)
deriving Repr

/-- State effect of one accessor call. -/
def runOp (c : Crawler) (s : Session) : CacheOp → Session
  | CacheOp.getMags y => (get_magazines_for_year c s y).2
  | CacheOp.getArts m => (get_articles_for_magazine c s m).2
  | CacheOp.getDetail i b => (get_article_detail c s i b).2

/-- State effect of a sequence of accessor calls. -/
def runOps (c : Crawler) (s : Session) (ops : List CacheOp) : Session :=
  ops.foldl (runOp c) s

/-! ## Progress accounting (gui.py lines 201-226). -/

/-- The numeric progress state (`self.progress_total`,
`self.progress_current`); Python ints. -/
structure Progress where
  total : Int
  current : Int
deriving DecidableEq, Repr

/-- `reset_progress` (gui.py lines 201-207). -/
def reset_progress : Progress :=
  ⟨1, 0⟩

/-- `start_progress` (gui.py lines 209-217): `total = max(total, 1)`,
current reset to 0. -/
def start_progress (_p : Progress) (total : Int) : Progress :=
  ⟨max total 1, 0⟩

/-- `update_progress` (gui.py lines 219-226): no-op when `total <= 0`, else
`current = min(total, current + step)`.  The `step` parameter is a Python
int with default 1. -/
def update_progress (p : Progress) (step : Int) : Progress :=
  if p.total ≤ 0 then p
  else { p with current := min p.total (p.current + step) }

/-! ## The per-year export worker and cancellation (gui.py lines 179-191,
547-558, 704-784; per-issue mode of `export_selected_year`).

`worker_func` reads `self.cancel_flag` once into the local variable
`cancel_flag` (gui.py line 707); every later check (`if cancel_flag`,
lines 762 and 774) reads that local snapshot.  `cancel_export` (lines
179-184) sets `self.cancel_flag`, sets the pause event so waiting workers
resume, and schedules `_finish_cancel` on the UI after one second.  The
machine below makes the snapshot explicit so the interaction is provable. -/

/-- Terminal report of the worker (gui.py lines 774-777). -/
inductive ExportOutcome where
  | success
  | cancelled
deriving DecidableEq, Repr

/-- Joint state of the UI flags and the per-year worker. -/
structure YearExportState where
  selfCancelFlag : Bool
  pauseSet : Bool
  snapshot : Option Bool
  remaining : Nat
  written : Nat
  outcome : Option ExportOutcome
  uiCancelNotice : Bool
deriving DecidableEq, Repr

/-- Events: the worker taking its snapshot (line 707), one loop iteration
writing one magazine's issue document (lines 761-773), the final outcome
check (lines 774-777), and the user pressing cancel (lines 179-184). -/
inductive ExportEvent where
  | workerStart
  | workerStep
  | workerFinish
  | userCancel
deriving DecidableEq, Repr

/-- Small-step semantics of the per-issue branch of
`export_selected_year.worker_func` interleaved with `cancel_export`. -/
def exportStep (st : YearExportState) (e : ExportEvent) : YearExportState :=
  match e with
  | ExportEvent.workerStart => { st with snapshot := some st.selfCancelFlag }
  | ExportEvent.workerStep =>
      match st.snapshot with
      | none => st
      | some flag =>
          if flag then st
          else if !st.pauseSet then st
          else
            match st.remaining with
            | 0 => st
            | n + 1 => { st with remaining := n, written := st.written + 1 }
  | ExportEvent.workerFinish =>
      match st.snapshot with
      | none => st
      | some flag =>
          let o := if flag then ExportOutcome.cancelled else ExportOutcome.success
          { st with outcome := some o }
  | ExportEvent.userCancel =>
      { st with selfCancelFlag := true, pauseSet := true, uiCancelNotice := true }

/-- Initial state produced by `_start_export` (gui.py lines 551-554):
cancel flag cleared, pause event set, `mags` magazines to process. -/
def initYearExport (mags : Nat) : YearExportState :=
  ⟨false, true, none, mags, 0, none, false⟩

/-- Runs the machine over an event interleaving. -/
def runExport (mags : Nat) (evs : List ExportEvent) : YearExportState :=
  evs.foldl exportStep (initYearExport mags)

/-! ## Claim C1 -/

/-- C1: the claim says that a per-year export over 5 magazines with cancel
set after the first magazine writes exactly one document and ends Cancelled,
every cancellation check after the flag is set observing it.  The code reads
`self.cancel_flag` once into a local (gui.py line 707); every later check
reads that stale snapshot, so after `userCancel` the remaining four
magazines are still written and the worker reports success (gui.py lines
774-775) — the cancel dialog fired by `cancel_export`'s timer shows
alongside.  This theorem evaluates the code at the claim's scenario: all 5
documents written, worker outcome success. -/
theorem C1_cancel_flag_snapshot_never_observed :
    runExport 5
      [ExportEvent.workerStart, ExportEvent.workerStep, ExportEvent.userCancel,
       ExportEvent.workerStep, ExportEvent.workerStep, ExportEvent.workerStep,
       ExportEvent.workerStep, ExportEvent.workerFinish] =
    { selfCancelFlag := true, pauseSet := true, snapshot := some false,
      remaining := 0, written := 5, outcome := some ExportOutcome.success,
      uiCancelNotice := true } := by
  decide

/-! ## Claim C9 -/

/-- A crawler whose fetches return fixed trivial records, used to
instantiate witnesses. -/
def witnessCrawler : Crawler :=
  ⟨fun _ => [], fun _ => [], fun _ => []⟩

/-- C9: looking up an already-cached article detail may enrich the returned
object but never modifies the cache: when the id is in `article_details`,
`get_article_detail` leaves the whole session (in particular the stored
record for that id) unchanged — the hit branch copies before enriching and
never stores. -/
theorem C9_cached_detail_lookup_preserves_cache (c : Crawler) (s : Session)
    (aid : String) (base : Option PyDict)
    (h : (List.lookup aid s.article_details).isSome = true) :
    (get_article_detail c s aid base).2 = s := by
  unfold get_article_detail
  cases hl : List.lookup aid s.article_details with
  | none => rw [hl] at h; simp at h
  | some d => simp

/-- Session with one cached detail record, used by the C9 witness. -/
def c9Session : Session :=
  { emptySession with article_details := [("a1", [("html", PyVal.str "x")])] }

/-- C9 witness: concrete cached id, concrete base that would enrich the
returned object; the cache is untouched. -/
theorem C9_cached_detail_lookup_preserves_cache_witness :
    (List.lookup "a1" c9Session.article_details).isSome = true ∧
    (get_article_detail witnessCrawler c9Session "a1"
        (some [("author", PyVal.str "A")])).2 = c9Session :=
  ⟨by decide,
   C9_cached_detail_lookup_preserves_cache witnessCrawler c9Session "a1"
     (some [("author", PyVal.str "A")]) (by decide)⟩

/-! ## Claim C10 -/

/-- C10 counterexample: the claim says that after `start_progress` any
sequence of `update_progress` calls keeps `0 <= current <= total`.
`update_progress` takes an arbitrary Python int step; a negative step drives
`current` below zero (`min(total, 0 + (-1)) = -1`), so the displayed pair
violates `0 <= current`. -/
theorem C10_counterexample_negative_step :
    (update_progress (start_progress reset_progress 5) (-1)).current = -1 ∧
    ¬ (0 ≤ (update_progress (start_progress reset_progress 5) (-1)).current) := by
  decide

/-- C10 amended: after `start_progress` the stored total is `max(total, 1)`,
hence at least 1; any sequence of `update_progress` calls keeps
`current <= total` and leaves the total unchanged; and when every step is
nonnegative (all call sites in gui.py pass 1), `0 <= current` also holds. -/
theorem C10_progress_clamped (t : Int) (p : Progress) (steps : List Int) :
    1 ≤ (start_progress p t).total ∧
    (steps.foldl update_progress (start_progress p t)).total = max t 1 ∧
    (steps.foldl update_progress (start_progress p t)).current ≤
      (steps.foldl update_progress (start_progress p t)).total ∧
    ((∀ s ∈ steps, 0 ≤ s) →
      0 ≤ (steps.foldl update_progress (start_progress p t)).current) := by
  have key : ∀ (l : List Int) (q : Progress), 1 ≤ q.total → q.current ≤ q.total →
      (l.foldl update_progress q).total = q.total ∧
      (l.foldl update_progress q).current ≤ (l.foldl update_progress q).total ∧
      (0 ≤ q.current → (∀ s ∈ l, 0 ≤ s) → 0 ≤ (l.foldl update_progress q).current) := by
    intro l
    induction l with
    | nil => intro q h1 h2; exact ⟨rfl, h2, fun h _ => h⟩
    | cons a l ih =>
        intro q h1 h2
        have hne : ¬ q.total ≤ 0 := by omega
        have hstep : update_progress q a =
            { q with current := min q.total (q.current + a) } := by
          unfold update_progress; rw [if_neg hne]
        have h1' : 1 ≤ (update_progress q a).total := by rw [hstep]; exact h1
        have h2' : (update_progress q a).current ≤ (update_progress q a).total := by
          rw [hstep]; exact min_le_left _ _
        obtain ⟨ha, hb, hc⟩ := ih (update_progress q a) h1' h2'
        refine ⟨by simpa [hstep] using ha, hb, ?_⟩
        intro hq hall
        refine hc ?_ (fun s hs => hall s (List.mem_cons_of_mem a hs))
        rw [hstep]
        have haa := hall a (List.mem_cons_self a l)
        exact le_min (by omega) (by omega)
  have h0 : 1 ≤ (start_progress p t).total := by
    simp [start_progress]
  have h0' : (start_progress p t).current ≤ (start_progress p t).total := by
    simp [start_progress]
  obtain ⟨ha, hb, hc⟩ := key steps (start_progress p t) h0 h0'
  refine ⟨h0, ?_, hb, ?_⟩
  · rw [ha]; simp [start_progress]
  · intro hsteps
    exact hc (by simp [start_progress]) hsteps

/-- C10 witness: concrete total 5 and two unit steps. -/
theorem C10_progress_clamped_witness :
    0 ≤ (([1, 1] : List Int).foldl update_progress
          (start_progress reset_progress 5)).current :=
  (C10_progress_clamped 5 reset_progress [1, 1]).2.2.2 (by decide)

/-! ## Claim C2 -/

theorem dGet_none_of_not_mem (d : PyDict) (q : String) (h : dMem d q = false) :
    dGet d q = none := by
  unfold dMem at h
  cases hg : dGet d q with
  | none => rfl
  | some v => rw [hg] at h; simp at h

theorem dGet_some_getD_of_mem (d : PyDict) (q : String) (h : dMem d q = true) :
    dGet d q = some (dGetD d q) := by
  unfold dMem at h
  cases hg : dGet d q with
  | none => rw [hg] at h; simp at h
  | some v => unfold dGetD; rw [hg]; rfl

theorem dMem_dSet (d : PyDict) (k q : String) (v : PyVal) :
    dMem (dSet d k v) q = if k = q then true else dMem d q := by
  unfold dMem
  rw [dGet_dSet]
  by_cases h : k = q <;> simp [h]

theorem dGet_dSetdefault_ne (d : PyDict) (k q : String) (v : PyVal)
    (h : k ≠ q) : dGet (dSetdefault d k v) q = dGet d q := by
  rw [dGet_dSetdefault, if_neg h]

theorem dMem_dSetdefault_ne (d : PyDict) (k q : String) (v : PyVal)
    (h : k ≠ q) : dMem (dSetdefault d k v) q = dMem d q := by
  unfold dMem
  rw [dGet_dSetdefault_ne d k q v h]

/-- What the gap-fill loop does to each lookup: a key in the tuple that the
detail lacks and the base has receives the base's value; every other lookup
is untouched. -/
theorem dGet_enrichKeys (ks : List String) (b d : PyDict) (q : String) :
    dGet (enrichKeys ks b d) q =
      if q ∈ ks ∧ dMem d q = false ∧ dMem b q = true then dGet b q
      else dGet d q := by
  induction ks generalizing d with
  | nil => simp [enrichKeys]
  | cons k ks ih =>
      have hstep : enrichKeys (k :: ks) b d =
          enrichKeys ks b (if !dMem d k && dMem b k then dSet d k (dGetD b k) else d) := by
        simp [enrichKeys]
      rw [hstep]
      by_cases hkq : k = q
      · subst hkq
        by_cases hfill : !dMem d k && dMem b k
        · rw [if_pos hfill]
          simp only [Bool.and_eq_true, Bool.not_eq_true'] at hfill
          rw [ih]
          have hm : dMem (dSet d k (dGetD b k)) k = true := by
            rw [dMem_dSet]; simp
          rw [if_neg (by simp [hm])]
          rw [dGet_dSet, if_pos rfl]
          rw [if_pos ⟨List.mem_cons_self k ks, hfill.1, hfill.2⟩]
          exact (dGet_some_getD_of_mem b k hfill.2).symm
        · rw [if_neg hfill]
          simp only [Bool.and_eq_true, Bool.not_eq_true'] at hfill
          rw [ih]
          by_cases hc : dMem d k = false ∧ dMem b k = true
          · exact absurd hc (by tauto)
          · rw [if_neg (by tauto), if_neg (by tauto)]
      · have hd' : dGet (if (!dMem d k && dMem b k) = true then dSet d k (dGetD b k) else d) q
            = dGet d q := by
          by_cases hf : (!dMem d k && dMem b k) = true
          · rw [if_pos hf, dGet_dSet, if_neg hkq]
          · rw [if_neg hf]
        have hm' : dMem (if (!dMem d k && dMem b k) = true then dSet d k (dGetD b k) else d) q
            = dMem d q := by
          by_cases hf : (!dMem d k && dMem b k) = true
          · rw [if_pos hf, dMem_dSet, if_neg hkq]
          · rw [if_neg hf]
        rw [ih, hd', hm']
        have hmem : q ∈ k :: ks ↔ q ∈ ks := by
          constructor
          · intro h
            rcases List.mem_cons.mp h with h1 | h1
            · exact absurd h1.symm hkq
            · exact h1
          · exact fun h => List.mem_cons_of_mem _ h
        by_cases hc : q ∈ ks ∧ dMem d q = false ∧ dMem b q = true
        · rw [if_pos hc, if_pos ⟨hmem.mpr hc.1, hc.2⟩]
        · rw [if_neg hc, if_neg (by rw [hmem] at *; tauto)]

theorem hitKeys_not_index : ∀ k ∈ hitKeys, k ≠ "index" := by decide

theorem fetchKeys_not_index : ∀ k ∈ fetchKeys, k ≠ "index" := by decide

/-- C2 amended: enrichment never clobbers and fills only gaps, but the two
branches use different field tuples — the cache-hit branch omits
`coverImgPath` (gui.py line 433) while the fresh-fetch branch includes it
(lines 441-450).  For a truthy base: (1) any key present in the detail keeps
its value in both branches; (2) a key of the seven-field hit tuple that the
detail lacks gets the base's binding in the hit branch; (3) a key of the
eight-field fetch tuple that the detail lacks gets the base's binding in
the fetch branch; (4) keys outside the tuples (other than `index`) are
never filled. -/
theorem C2_enrichment_non_clobber_fill_gaps (d b : PyDict)
    (hb : b.isEmpty = false) :
    (∀ k, dMem d k = true →
        dGet (enrichHit d (some b)) k = dGet d k ∧
        dGet (enrichFetch d (some b)) k = dGet d k) ∧
    (∀ k, k ∈ hitKeys → dMem d k = false →
        dGet (enrichHit d (some b)) k = dGet b k) ∧
    (∀ k, k ∈ fetchKeys → dMem d k = false →
        dGet (enrichFetch d (some b)) k = dGet b k) ∧
    (∀ k, k ∉ fetchKeys → k ≠ "index" →
        dGet (enrichHit d (some b)) k = dGet d k ∧
        dGet (enrichFetch d (some b)) k = dGet d k) := by
  have hba : baseActive (some b) = some b := by
    simp [baseActive, hb]
  have hhit : enrichHit d (some b) =
      enrichKeys hitKeys b (dSetdefault d "index" (dGetD b "index")) := by
    unfold enrichHit; rw [hba]
  have hfetch : enrichFetch d (some b) =
      enrichKeys fetchKeys b (dSetdefault d "index" (dGetD b "index")) := by
    unfold enrichFetch; rw [hba]
  set d1 := dSetdefault d "index" (dGetD b "index") with hd1
  have hGet1 : ∀ k, k ≠ "index" → dGet d1 k = dGet d k := by
    intro k hk
    exact dGet_dSetdefault_ne d "index" k _ (fun h => hk h.symm)
  have hMem1 : ∀ k, k ≠ "index" → dMem d1 k = dMem d k := by
    intro k hk
    exact dMem_dSetdefault_ne d "index" k _ (fun h => hk h.symm)
  refine ⟨?_, ?_, ?_, ?_⟩
  · intro k hk
    by_cases hki : k = "index"
    · subst hki
      have hidx : d1 = d := by
        rw [hd1]; unfold dSetdefault; rw [if_pos hk]
      constructor
      · rw [hhit, dGet_enrichKeys, hidx,
          if_neg (by intro hcon; exact hitKeys_not_index _ hcon.1 rfl)]
      · rw [hfetch, dGet_enrichKeys, hidx,
          if_neg (by intro hcon; exact fetchKeys_not_index _ hcon.1 rfl)]
    · have hm : dMem d1 k = true := by rw [hMem1 k hki]; exact hk
      constructor
      · rw [hhit, dGet_enrichKeys, if_neg (by simp [hm]), hGet1 k hki]
      · rw [hfetch, dGet_enrichKeys, if_neg (by simp [hm]), hGet1 k hki]
  · intro k hks hk
    have hki : k ≠ "index" := hitKeys_not_index k hks
    have hm : dMem d1 k = false := by rw [hMem1 k hki]; exact hk
    rw [hhit, dGet_enrichKeys]
    by_cases hbk : dMem b k = true
    · rw [if_pos ⟨hks, hm, hbk⟩]
    · rw [if_neg (by tauto), hGet1 k hki, dGet_none_of_not_mem d k hk,
        dGet_none_of_not_mem b k (by simpa using hbk)]
  · intro k hks hk
    have hki : k ≠ "index" := fetchKeys_not_index k hks
    have hm : dMem d1 k = false := by rw [hMem1 k hki]; exact hk
    rw [hfetch, dGet_enrichKeys]
    by_cases hbk : dMem b k = true
    · rw [if_pos ⟨hks, hm, hbk⟩]
    · rw [if_neg (by tauto), hGet1 k hki, dGet_none_of_not_mem d k hk,
        dGet_none_of_not_mem b k (by simpa using hbk)]
  · intro k hkf hki
    have hkh : k ∉ hitKeys := fun h => hkf (by unfold fetchKeys; exact List.mem_append_left _ h)
    constructor
    · rw [hhit, dGet_enrichKeys, if_neg (by tauto), hGet1 k hki]
    · rw [hfetch, dGet_enrichKeys, if_neg (by tauto), hGet1 k hki]

/-- C2 witness: the spec's own example — a detail whose `author` is set
keeps it against a different base `author`; a missing `pageNumber` is
filled from the base. -/
theorem C2_enrichment_non_clobber_fill_gaps_witness :
    dGet (enrichHit [("author", PyVal.str "X")]
        (some [("author", PyVal.str "Y"), ("pageNumber", PyVal.int 7)])) "author" =
      dGet [("author", PyVal.str "X")] "author" ∧
    dGet (enrichHit [("author", PyVal.str "X")]
        (some [("author", PyVal.str "Y"), ("pageNumber", PyVal.int 7)])) "pageNumber" =
      dGet [("author", PyVal.str "Y"), ("pageNumber", PyVal.int 7)] "pageNumber" :=
  ⟨((C2_enrichment_non_clobber_fill_gaps [("author", PyVal.str "X")]
      [("author", PyVal.str "Y"), ("pageNumber", PyVal.int 7)] (by decide)).1
      "author" (by decide)).1,
   (C2_enrichment_non_clobber_fill_gaps [("author", PyVal.str "X")]
      [("author", PyVal.str "Y"), ("pageNumber", PyVal.int 7)] (by decide)).2.1
      "pageNumber" (by decide) (by decide)⟩

/-- Cached session for the C2 counterexample. -/
def c2Session : Session :=
  { emptySession with article_details := [("a1", [("html", PyVal.str "x")])] }

/-- Base record for the C2 counterexample: has both `coverImgPath` and
`pageNumber`, neither present in the cached detail. -/
def c2Base : PyDict :=
  [("coverImgPath", PyVal.str "c"), ("pageNumber", PyVal.int 3)]

/-- C2 counterexample: the claim says the fixed eight-field set including
`coverImgPath` is filled from the base in both branches.  In the cache-hit
branch the detail lacks `coverImgPath`, the base has it, yet the returned
record still lacks it (`pageNumber`, in the seven-field tuple, is filled) —
the hit branch's tuple stops at `pageNumber` (gui.py line 433). -/
theorem C2_counterexample_coverImgPath_cache_hit :
    (get_article_detail witnessCrawler c2Session "a1" (some c2Base)).1 =
      [("html", PyVal.str "x"), ("index", PyVal.none'), ("pageNumber", PyVal.int 3)] ∧
    dMem (get_article_detail witnessCrawler c2Session "a1" (some c2Base)).1
      "coverImgPath" = false ∧
    dMem c2Base "coverImgPath" = true := by
  decide

/-! ## Claim C6 -/

theorem lookup_append_some {β : Type} (l t : List (String × β)) (k : String)
    (v : β) (h : List.lookup k l = some v) : List.lookup k (l ++ t) = some v := by
  induction l with
  | nil => simp [List.lookup] at h
  | cons p l ih =>
      obtain ⟨a, b⟩ := p
      simp only [List.cons_append, List.lookup]
      simp only [List.lookup] at h
      cases hk : (k == a) with
      | true => rw [hk] at h; simpa using h
      | false => rw [hk] at h; exact ih h

theorem lookup_append_of_none {β : Type} (l t : List (String × β)) (k : String)
    (h : List.lookup k l = none) : List.lookup k (l ++ t) = List.lookup k t := by
  induction l with
  | nil => simp
  | cons p l ih =>
      obtain ⟨a, b⟩ := p
      simp only [List.cons_append, List.lookup]
      simp only [List.lookup] at h
      cases hk : (k == a) with
      | true => rw [hk] at h; simp at h
      | false => rw [hk] at h; exact ih h

theorem count_append_ne (l : List String) (a k : String) (h : a ≠ k) :
    (l ++ [a]).count k = l.count k := by
  have h0 : ([a] : List String).count k = 0 := by
    simp [List.count_cons, h]
  rw [List.count_append, h0]
  omega

/-- Cache hit of the magazine accessor: the stored list itself is returned
and the session is untouched. -/
theorem get_magazines_for_year_hit (c : Crawler) (s : Session) (y : String)
    (v : List PyDict) (h : List.lookup y s.magazines_by_year = some v) :
    get_magazines_for_year c s y = (v, s) := by
  unfold get_magazines_for_year
  rw [h]

/-- Cache miss of the magazine accessor: fetch, store, log. -/
theorem get_magazines_for_year_miss (c : Crawler) (s : Session) (y : String)
    (h : List.lookup y s.magazines_by_year = none) :
    get_magazines_for_year c s y =
      (c.fetch_magazines y,
       { s with
           magazines_by_year := s.magazines_by_year ++ [(y, c.fetch_magazines y)],
           magFetchLog := s.magFetchLog ++ [y] }) := by
  unfold get_magazines_for_year
  rw [h]

/-- Cache hit of the article-list accessor. -/
theorem get_articles_for_magazine_hit (c : Crawler) (s : Session) (m : String)
    (v : List PyDict) (h : List.lookup m s.articles_by_mag = some v) :
    get_articles_for_magazine c s m = (v, s) := by
  unfold get_articles_for_magazine
  rw [h]

/-- Cache miss of the article-list accessor. -/
theorem get_articles_for_magazine_miss (c : Crawler) (s : Session) (m : String)
    (h : List.lookup m s.articles_by_mag = none) :
    get_articles_for_magazine c s m =
      (c.fetch_articles m,
       { s with
           articles_by_mag := s.articles_by_mag ++ [(m, c.fetch_articles m)],
           artFetchLog := s.artFetchLog ++ [m] }) := by
  unfold get_articles_for_magazine
  rw [h]

/-- Cache hit of the detail accessor: the enriched copy is returned, the
session is untouched. -/
theorem get_article_detail_hit (c : Crawler) (s : Session) (aid : String)
    (d : PyDict) (b : Option PyDict)
    (h : List.lookup aid s.article_details = some d) :
    get_article_detail c s aid b = (enrichHit d b, s) := by
  unfold get_article_detail
  rw [h]

/-- Cache miss of the detail accessor: fetch, enrich, store, log. -/
theorem get_article_detail_miss (c : Crawler) (s : Session) (aid : String)
    (b : Option PyDict)
    (h : List.lookup aid s.article_details = none) :
    get_article_detail c s aid b =
      (enrichFetch (c.fetch_article_detail aid) b,
       { s with
           article_details :=
             s.article_details ++ [(aid, enrichFetch (c.fetch_article_detail aid) b)],
           detailFetchLog := s.detailFetchLog ++ [aid] }) := by
  unfold get_article_detail
  rw [h]

/-- One accessor call preserves a populated magazine-list entry and issues
no magazine fetch for its key. -/
theorem runOp_preserves_mags (c : Crawler) (s : Session) (op : CacheOp)
    (y : String) (v : List PyDict)
    (h : List.lookup y s.magazines_by_year = some v) :
    List.lookup y (runOp c s op).magazines_by_year = some v ∧
    (runOp c s op).magFetchLog.count y = s.magFetchLog.count y := by
  cases op with
  | getMags y2 =>
      cases hy2 : List.lookup y2 s.magazines_by_year with
      | some w =>
          have hr : runOp c s (CacheOp.getMags y2) = s := by
            show (get_magazines_for_year c s y2).2 = s
            rw [get_magazines_for_year_hit c s y2 w hy2]
          rw [hr]; exact ⟨h, rfl⟩
      | none =>
          have hne : y2 ≠ y := by
            intro he; subst he; rw [h] at hy2; cases hy2
          have hr : runOp c s (CacheOp.getMags y2) =
              { s with
                  magazines_by_year := s.magazines_by_year ++ [(y2, c.fetch_magazines y2)],
                  magFetchLog := s.magFetchLog ++ [y2] } := by
            show (get_magazines_for_year c s y2).2 = _
            rw [get_magazines_for_year_miss c s y2 hy2]
          rw [hr]
          exact ⟨lookup_append_some _ _ _ _ h, count_append_ne _ _ _ hne⟩
  | getArts m2 =>
      cases hm2 : List.lookup m2 s.articles_by_mag with
      | some w =>
          have hr : runOp c s (CacheOp.getArts m2) = s := by
            show (get_articles_for_magazine c s m2).2 = s
            rw [get_articles_for_magazine_hit c s m2 w hm2]
          rw [hr]; exact ⟨h, rfl⟩
      | none =>
          have hr : runOp c s (CacheOp.getArts m2) =
              { s with
                  articles_by_mag := s.articles_by_mag ++ [(m2, c.fetch_articles m2)],
                  artFetchLog := s.artFetchLog ++ [m2] } := by
            show (get_articles_for_magazine c s m2).2 = _
            rw [get_articles_for_magazine_miss c s m2 hm2]
          rw [hr]; exact ⟨h, rfl⟩
  | getDetail i2 b =>
      cases hi2 : List.lookup i2 s.article_details with
      | some w =>
          have hr : runOp c s (CacheOp.getDetail i2 b) = s := by
            show (get_article_detail c s i2 b).2 = s
            rw [get_article_detail_hit c s i2 w b hi2]
          rw [hr]; exact ⟨h, rfl⟩
      | none =>
          have hr : runOp c s (CacheOp.getDetail i2 b) =
              { s with
                  article_details := s.article_details ++
                    [(i2, enrichFetch (c.fetch_article_detail i2) b)],
                  detailFetchLog := s.detailFetchLog ++ [i2] } := by
            show (get_article_detail c s i2 b).2 = _
            rw [get_article_detail_miss c s i2 b hi2]
          rw [hr]; exact ⟨h, rfl⟩

/-- One accessor call preserves a populated article-list entry and issues
no article fetch for its key. -/
theorem runOp_preserves_arts (c : Crawler) (s : Session) (op : CacheOp)
    (m : String) (v : List PyDict)
    (h : List.lookup m s.articles_by_mag = some v) :
    List.lookup m (runOp c s op).articles_by_mag = some v ∧
    (runOp c s op).artFetchLog.count m = s.artFetchLog.count m := by
  cases op with
  | getMags y2 =>
      cases hy2 : List.lookup y2 s.magazines_by_year with
      | some w =>
          have hr : runOp c s (CacheOp.getMags y2) = s := by
            show (get_magazines_for_year c s y2).2 = s
            rw [get_magazines_for_year_hit c s y2 w hy2]
          rw [hr]; exact ⟨h, rfl⟩
      | none =>
          have hr : runOp c s (CacheOp.getMags y2) =
              { s with
                  magazines_by_year := s.magazines_by_year ++ [(y2, c.fetch_magazines y2)],
                  magFetchLog := s.magFetchLog ++ [y2] } := by
            show (get_magazines_for_year c s y2).2 = _
            rw [get_magazines_for_year_miss c s y2 hy2]
          rw [hr]; exact ⟨h, rfl⟩
  | getArts m2 =>
      cases hm2 : List.lookup m2 s.articles_by_mag with
      | some w =>
          have hr : runOp c s (CacheOp.getArts m2) = s := by
            show (get_articles_for_magazine c s m2).2 = s
            rw [get_articles_for_magazine_hit c s m2 w hm2]
          rw [hr]; exact ⟨h, rfl⟩
      | none =>
          have hne : m2 ≠ m := by
            intro he; subst he; rw [h] at hm2; cases hm2
          have hr : runOp c s (CacheOp.getArts m2) =
              { s with
                  articles_by_mag := s.articles_by_mag ++ [(m2, c.fetch_articles m2)],
                  artFetchLog := s.artFetchLog ++ [m2] } := by
            show (get_articles_for_magazine c s m2).2 = _
            rw [get_articles_for_magazine_miss c s m2 hm2]
          rw [hr]
          exact ⟨lookup_append_some _ _ _ _ h, count_append_ne _ _ _ hne⟩
  | getDetail i2 b =>
      cases hi2 : List.lookup i2 s.article_details with
      | some w =>
          have hr : runOp c s (CacheOp.getDetail i2 b) = s := by
            show (get_article_detail c s i2 b).2 = s
            rw [get_article_detail_hit c s i2 w b hi2]
          rw [hr]; exact ⟨h, rfl⟩
      | none =>
          have hr : runOp c s (CacheOp.getDetail i2 b) =
              { s with
                  article_details := s.article_details ++
                    [(i2, enrichFetch (c.fetch_article_detail i2) b)],
                  detailFetchLog := s.detailFetchLog ++ [i2] } := by
            show (get_article_detail c s i2 b).2 = _
            rw [get_article_detail_miss c s i2 b hi2]
          rw [hr]; exact ⟨h, rfl⟩

/-- One accessor call preserves a populated detail entry and issues no
detail fetch for its key. -/
theorem runOp_preserves_details (c : Crawler) (s : Session) (op : CacheOp)
    (i : String) (d : PyDict)
    (h : List.lookup i s.article_details = some d) :
    List.lookup i (runOp c s op).article_details = some d ∧
    (runOp c s op).detailFetchLog.count i = s.detailFetchLog.count i := by
  cases op with
  | getMags y2 =>
      cases hy2 : List.lookup y2 s.magazines_by_year with
      | some w =>
          have hr : runOp c s (CacheOp.getMags y2) = s := by
            show (get_magazines_for_year c s y2).2 = s
            rw [get_magazines_for_year_hit c s y2 w hy2]
          rw [hr]; exact ⟨h, rfl⟩
      | none =>
          have hr : runOp c s (CacheOp.getMags y2) =
              { s with
                  magazines_by_year := s.magazines_by_year ++ [(y2, c.fetch_magazines y2)],
                  magFetchLog := s.magFetchLog ++ [y2] } := by
            show (get_magazines_for_year c s y2).2 = _
            rw [get_magazines_for_year_miss c s y2 hy2]
          rw [hr]; exact ⟨h, rfl⟩
  | getArts m2 =>
      cases hm2 : List.lookup m2 s.articles_by_mag with
      | some w =>
          have hr : runOp c s (CacheOp.getArts m2) = s := by
            show (get_articles_for_magazine c s m2).2 = s
            rw [get_articles_for_magazine_hit c s m2 w hm2]
          rw [hr]; exact ⟨h, rfl⟩
      | none =>
          have hr : runOp c s (CacheOp.getArts m2) =
              { s with
                  articles_by_mag := s.articles_by_mag ++ [(m2, c.fetch_articles m2)],
                  artFetchLog := s.artFetchLog ++ [m2] } := by
            show (get_articles_for_magazine c s m2).2 = _
            rw [get_articles_for_magazine_miss c s m2 hm2]
          rw [hr]; exact ⟨h, rfl⟩
  | getDetail i2 b =>
      cases hi2 : List.lookup i2 s.article_details with
      | some w =>
          have hr : runOp c s (CacheOp.getDetail i2 b) = s := by
            show (get_article_detail c s i2 b).2 = s
            rw [get_article_detail_hit c s i2 w b hi2]
          rw [hr]; exact ⟨h, rfl⟩
      | none =>
          have hne : i2 ≠ i := by
            intro he; subst he; rw [h] at hi2; cases hi2
          have hr : runOp c s (CacheOp.getDetail i2 b) =
              { s with
                  article_details := s.article_details ++
                    [(i2, enrichFetch (c.fetch_article_detail i2) b)],
                  detailFetchLog := s.detailFetchLog ++ [i2] } := by
            show (get_article_detail c s i2 b).2 = _
            rw [get_article_detail_miss c s i2 b hi2]
          rw [hr]
          exact ⟨lookup_append_some _ _ _ _ h, count_append_ne _ _ _ hne⟩

/-- Populated entries survive any sequence of accessor calls with no new
remote call for their keys. -/
theorem runOps_preserve (c : Crawler) (ops : List CacheOp) :
    ∀ s : Session,
    (∀ y v, List.lookup y s.magazines_by_year = some v →
        List.lookup y (runOps c s ops).magazines_by_year = some v ∧
        (runOps c s ops).magFetchLog.count y = s.magFetchLog.count y) ∧
    (∀ m v, List.lookup m s.articles_by_mag = some v →
        List.lookup m (runOps c s ops).articles_by_mag = some v ∧
        (runOps c s ops).artFetchLog.count m = s.artFetchLog.count m) ∧
    (∀ i d, List.lookup i s.article_details = some d →
        List.lookup i (runOps c s ops).article_details = some d ∧
        (runOps c s ops).detailFetchLog.count i = s.detailFetchLog.count i) := by
  induction ops with
  | nil => intro s; exact ⟨fun y v h => ⟨h, rfl⟩, fun m v h => ⟨h, rfl⟩, fun i d h => ⟨h, rfl⟩⟩
  | cons op ops ih =>
      intro s
      have hstep : runOps c s (op :: ops) = runOps c (runOp c s op) ops := rfl
      obtain ⟨ihm, iha, ihd⟩ := ih (runOp c s op)
      refine ⟨fun y v h => ?_, fun m v h => ?_, fun i d h => ?_⟩
      · obtain ⟨h1, h2⟩ := runOp_preserves_mags c s op y v h
        obtain ⟨h3, h4⟩ := ihm y v h1
        exact ⟨by rw [hstep]; exact h3, by rw [hstep]; rw [h4, h2]⟩
      · obtain ⟨h1, h2⟩ := runOp_preserves_arts c s op m v h
        obtain ⟨h3, h4⟩ := iha m v h1
        exact ⟨by rw [hstep]; exact h3, by rw [hstep]; rw [h4, h2]⟩
      · obtain ⟨h1, h2⟩ := runOp_preserves_details c s op i d h
        obtain ⟨h3, h4⟩ := ihd i d h1
        exact ⟨by rw [hstep]; exact h3, by rw [hstep]; rw [h4, h2]⟩

/-- C6 amended: each accessor is get-or-fetch-then-store, and stored entries
are never refreshed.  Calling the magazine-list accessor twice for an
uncached year issues exactly one remote fetch, the second call being served
from the cache with the same value and no state change.  Once an entry is
populated for a key, any sequence of accessor calls preserves the stored
entry and issues no further remote call for that key; the magazine-list and
article-list accessors return the stored entry itself unchanged, while the
detail accessor returns an enriched copy of the stored entry (`enrichHit`)
— which differs from the stored entry when the supplied base fills a gap —
and likewise triggers no remote call. -/
theorem C6_cache_get_or_fetch_no_refresh (c : Crawler) (s : Session)
    (y : String) (ops : List CacheOp)
    (hy : List.lookup y s.magazines_by_year = none) :
    ((get_magazines_for_year c s y).2.magFetchLog = s.magFetchLog ++ [y] ∧
     get_magazines_for_year c ((get_magazines_for_year c s y).2) y =
       ((get_magazines_for_year c s y).1, (get_magazines_for_year c s y).2)) ∧
    (∀ y2 v, List.lookup y2 s.magazines_by_year = some v →
        get_magazines_for_year c s y2 = (v, s) ∧
        List.lookup y2 (runOps c s ops).magazines_by_year = some v ∧
        (runOps c s ops).magFetchLog.count y2 = s.magFetchLog.count y2) ∧
    (∀ m v, List.lookup m s.articles_by_mag = some v →
        get_articles_for_magazine c s m = (v, s) ∧
        List.lookup m (runOps c s ops).articles_by_mag = some v ∧
        (runOps c s ops).artFetchLog.count m = s.artFetchLog.count m) ∧
    (∀ i d b, List.lookup i s.article_details = some d →
        get_article_detail c s i b = (enrichHit d b, s) ∧
        List.lookup i (runOps c s ops).article_details = some d ∧
        (runOps c s ops).detailFetchLog.count i = s.detailFetchLog.count i) := by
  obtain ⟨pm, pa, pd⟩ := runOps_preserve c ops s
  refine ⟨?_, ?_, ?_, ?_⟩
  · have h1 : get_magazines_for_year c s y =
        (c.fetch_magazines y,
         { s with
             magazines_by_year := s.magazines_by_year ++ [(y, c.fetch_magazines y)],
             magFetchLog := s.magFetchLog ++ [y] }) := by
      unfold get_magazines_for_year
      rw [hy]
    have h2 : List.lookup y (s.magazines_by_year ++ [(y, c.fetch_magazines y)]) =
        some (c.fetch_magazines y) := by
      rw [lookup_append_of_none _ _ _ hy]
      simp [List.lookup]
    constructor
    · rw [h1]
    · rw [h1]
      exact get_magazines_for_year_hit c _ y (c.fetch_magazines y) h2
  · intro y2 v h
    exact ⟨get_magazines_for_year_hit c s y2 v h, pm y2 v h⟩
  · intro m v h
    exact ⟨get_articles_for_magazine_hit c s m v h, pa m v h⟩
  · intro i d b h
    exact ⟨get_article_detail_hit c s i d b h, pd i d h⟩

/-- C6 witness: an empty session, an uncached year, one populated detail
entry checked through a sample op sequence. -/
theorem C6_cache_get_or_fetch_no_refresh_witness :
    ((get_magazines_for_year witnessCrawler c9Session "2003").2.magFetchLog =
       c9Session.magFetchLog ++ ["2003"]) ∧
    List.lookup "a1" (runOps witnessCrawler c9Session
        [CacheOp.getMags "2004", CacheOp.getDetail "a1" none]).article_details =
      some [("html", PyVal.str "x")] :=
  ⟨((C6_cache_get_or_fetch_no_refresh witnessCrawler c9Session "2003"
      [CacheOp.getMags "2004", CacheOp.getDetail "a1" none] (by decide)).1).1,
   (((C6_cache_get_or_fetch_no_refresh witnessCrawler c9Session "2003"
      [CacheOp.getMags "2004", CacheOp.getDetail "a1" none] (by decide)).2.2.2)
      "a1" [("html", PyVal.str "x")] none (by decide)).2.1⟩

/-- C6 counterexample: the claim says a populated entry "is returned
unchanged for every later lookup".  With a cached detail lacking `author`
and a later lookup passing a base that has one, the returned object gains
the `author` key (and an `index` key from `setdefault`), so it is not the
stored entry unchanged — only the stored entry itself stays untouched. -/
theorem C6_counterexample_enriched_return_differs :
    List.lookup "a1" c9Session.article_details = some [("html", PyVal.str "x")] ∧
    (get_article_detail witnessCrawler c9Session "a1"
        (some [("author", PyVal.str "A")])).1 =
      [("html", PyVal.str "x"), ("index", PyVal.none'), ("author", PyVal.str "A")] ∧
    dMem [("html", PyVal.str "x")] "author" = false := by
  decide

/-! ## Claim C5 -/

/-- Python `a < b` on sort-key values (strict counterpart of `pyLeB`). -/
def pyLtB : PyVal → PyVal → Bool
  | PyVal.int m, PyVal.int n => decide (m < n)
  | PyVal.str s, PyVal.str t => charListLt s.data t.data
  | _, _ => false

theorem charListLt_asymm : ∀ x y : List Char,
    charListLt x y = true → charListLt y x = true → False := by
  intro x
  induction x with
  | nil => intro y h1 h2; cases y <;> simp [charListLt] at h1 h2
  | cons a as ih =>
      intro y h1 h2
      cases y with
      | nil => simp [charListLt] at h1
      | cons b bs =>
          simp only [charListLt] at h1 h2
          by_cases hab : a < b
          · rw [if_pos hab] at h1
            rw [if_neg (lt_asymm hab), if_pos hab] at h2
            simp at h2
          · rw [if_neg hab] at h1
            by_cases hba : b < a
            · rw [if_pos hba] at h1; simp at h1
            · rw [if_neg hba] at h1 h2
              rw [if_neg hab] at h2
              exact ih bs h1 h2

theorem pyLtB_asymm (x y : PyVal) (h1 : pyLtB x y = true)
    (h2 : pyLtB y x = true) : False := by
  cases x <;> cases y <;> simp [pyLtB] at h1 h2
  · omega
  · exact charListLt_asymm _ _ h1 h2

/-- Predicate: this article's sort key is a Python int. -/
def hasIntKey (a : PyDict) : Prop :=
  ∃ n, indexOrKey a = PyVal.int n

theorem allIntKeys_iff (l : List PyDict) :
    allIntKeys indexOrKey l = true ↔ ∀ a ∈ l, hasIntKey a := by
  unfold allIntKeys hasIntKey
  rw [List.all_eq_true]
  constructor
  · intro h a ha
    have := h a ha
    cases hk : indexOrKey a with
    | int n => exact ⟨n, rfl⟩
    | none' => rw [hk] at this; simp at this
    | str s => rw [hk] at this; simp at this
  · intro h a ha
    obtain ⟨n, hn⟩ := h a ha
    rw [hn]

theorem pyLeB_int_total (a b : PyDict) (ha : hasIntKey a) (hb : hasIntKey b) :
    pyLeB (indexOrKey a) (indexOrKey b) = true ∨
    pyLeB (indexOrKey b) (indexOrKey a) = true := by
  obtain ⟨m, hm⟩ := ha
  obtain ⟨n, hn⟩ := hb
  rw [hm, hn]
  simp [pyLeB]
  omega

theorem pyLeB_int_trans (a b c : PyDict) (ha : hasIntKey a) (hb : hasIntKey b)
    (hc : hasIntKey c) (h1 : pyLeB (indexOrKey a) (indexOrKey b) = true)
    (h2 : pyLeB (indexOrKey b) (indexOrKey c) = true) :
    pyLeB (indexOrKey a) (indexOrKey c) = true := by
  obtain ⟨m, hm⟩ := ha
  obtain ⟨n, hn⟩ := hb
  obtain ⟨p, hp⟩ := hc
  rw [hm, hn] at h1
  rw [hn, hp] at h2
  rw [hm, hp]
  simp [pyLeB] at h1 h2 ⊢
  omega

theorem sorted_orderedInsert_int (a : PyDict) :
    ∀ l : List PyDict, hasIntKey a → (∀ x ∈ l, hasIntKey x) →
    List.Sorted (fun x y => pyLeB (indexOrKey x) (indexOrKey y) = true) l →
    List.Sorted (fun x y => pyLeB (indexOrKey x) (indexOrKey y) = true)
      (List.orderedInsert (fun x y => pyLeB (indexOrKey x) (indexOrKey y) = true) a l) := by
  intro l
  induction l with
  | nil => intro _ _ _; simp [List.orderedInsert, List.Sorted]
  | cons b t ih =>
      intro ha hall hs
      have hb : hasIntKey b := hall b (List.mem_cons_self b t)
      have htall : ∀ x ∈ t, hasIntKey x := fun x hx => hall x (List.mem_cons_of_mem b hx)
      rw [List.sorted_cons] at hs
      obtain ⟨hbt, hst⟩ := hs
      by_cases hab : pyLeB (indexOrKey a) (indexOrKey b) = true
      · rw [List.orderedInsert, if_pos hab]
        rw [List.sorted_cons]
        refine ⟨?_, ?_⟩
        · intro x hx
          rcases List.mem_cons.mp hx with h | h
          · subst h; exact hab
          · exact pyLeB_int_trans a b x ha hb (htall x h) hab (hbt x h)
        · rw [List.sorted_cons]; exact ⟨hbt, hst⟩
      · rw [List.orderedInsert, if_neg hab]
        have hba : pyLeB (indexOrKey b) (indexOrKey a) = true := by
          rcases pyLeB_int_total a b ha hb with h | h
          · exact absurd h hab
          · exact h
        rw [List.sorted_cons]
        refine ⟨?_, ih ha htall hst⟩
        intro x hx
        rcases (List.mem_orderedInsert _).mp hx with h | h
        · subst h; exact hba
        · exact hbt x h

theorem sorted_insertionSort_int :
    ∀ l : List PyDict, (∀ x ∈ l, hasIntKey x) →
    List.Sorted (fun x y => pyLeB (indexOrKey x) (indexOrKey y) = true)
      (List.insertionSort (fun x y => pyLeB (indexOrKey x) (indexOrKey y) = true) l) := by
  intro l
  induction l with
  | nil => intro _; simp [List.insertionSort, List.Sorted]
  | cons a t ih =>
      intro hall
      rw [List.insertionSort]
      have hperm := List.perm_insertionSort
        (fun x y => pyLeB (indexOrKey x) (indexOrKey y) = true) t
      exact sorted_orderedInsert_int a _
        (hall a (List.mem_cons_self a t))
        (fun x hx => hall x (List.mem_cons_of_mem a (hperm.mem_iff.mp hx)))
        (ih (fun x hx => hall x (List.mem_cons_of_mem a hx)))

theorem pyLe_ne_lt (a b : PyDict) (ha : hasIntKey a) (hb : hasIntKey b)
    (hle : pyLeB (indexOrKey a) (indexOrKey b) = true)
    (hne : indexOrKey a ≠ indexOrKey b) :
    pyLtB (indexOrKey a) (indexOrKey b) = true := by
  obtain ⟨m, hm⟩ := ha
  obtain ⟨n, hn⟩ := hb
  rw [hm, hn] at hle hne ⊢
  simp [pyLeB] at hle
  simp [pyLtB]
  rcases lt_or_eq_of_le hle with h | h
  · exact h
  · exact absurd (by rw [h]) hne

/-- C5 amended: the sort key is `x.get("index") or 0`, so a missing or falsy
index (None, 0, "") sorts as int 0; for articles whose keys are all ints
the sort succeeds and the rendered order is ascending by key, strictly so
when the keys are distinct, and then independent of the order in which
details were collected (any permutation of the input sorts to the same
list).  A non-numeric truthy index keeps its raw value as key instead of 0,
and mixing such a key with int keys makes Python's sort raise TypeError
(`pySortByKey` returns `none`) — see the counterexample. -/
theorem C5_issue_articles_sorted_by_index (l : List PyDict)
    (h : allIntKeys indexOrKey l = true) :
    (∀ a, dMem a "index" = false → indexOrKey a = PyVal.int 0) ∧
    sortArticlesByIndex l =
      some (List.insertionSort
        (fun x y => pyLeB (indexOrKey x) (indexOrKey y) = true) l) ∧
    (List.insertionSort
        (fun x y => pyLeB (indexOrKey x) (indexOrKey y) = true) l).Perm l ∧
    List.Sorted (fun x y => pyLeB (indexOrKey x) (indexOrKey y) = true)
      (List.insertionSort
        (fun x y => pyLeB (indexOrKey x) (indexOrKey y) = true) l) ∧
    ((l.map indexOrKey).Nodup →
      List.Sorted (fun x y => pyLtB (indexOrKey x) (indexOrKey y) = true)
        (List.insertionSort
          (fun x y => pyLeB (indexOrKey x) (indexOrKey y) = true) l) ∧
      ∀ l2, l2.Perm l → sortArticlesByIndex l2 =
        some (List.insertionSort
          (fun x y => pyLeB (indexOrKey x) (indexOrKey y) = true) l)) := by
  have hik := (allIntKeys_iff l).mp h
  have hsome : ∀ l' : List PyDict, allIntKeys indexOrKey l' = true →
      sortArticlesByIndex l' = some (List.insertionSort
        (fun x y => pyLeB (indexOrKey x) (indexOrKey y) = true) l') := by
    intro l' h'
    unfold sortArticlesByIndex pySortByKey
    rw [if_pos (Or.inr (Or.inl h'))]
  have hperm := List.perm_insertionSort
    (fun x y => pyLeB (indexOrKey x) (indexOrKey y) = true) l
  have hsorted := sorted_insertionSort_int l hik
  have hstrict : ∀ out : List PyDict, out.Perm l →
      List.Sorted (fun x y => pyLeB (indexOrKey x) (indexOrKey y) = true) out →
      (l.map indexOrKey).Nodup →
      List.Sorted (fun x y => pyLtB (indexOrKey x) (indexOrKey y) = true) out := by
    intro out hp hs hnd
    have hnd2 : (out.map indexOrKey).Nodup := ((hp.map indexOrKey).nodup_iff).mpr hnd
    have hne : List.Pairwise (fun a b => indexOrKey a ≠ indexOrKey b) out :=
      (List.pairwise_map).mp hnd2
    have hboth := hs.and hne
    refine List.Pairwise.imp_of_mem ?_ hboth
    intro a b hma hmb hab
    exact pyLe_ne_lt a b (hik a (hp.mem_iff.mp hma)) (hik b (hp.mem_iff.mp hmb))
      hab.1 hab.2
  refine ⟨?_, hsome l h, hperm, hsorted, ?_⟩
  · intro a hma
    unfold indexOrKey dGetD
    rw [dGet_none_of_not_mem a "index" hma]
    rfl
  · intro hnd
    refine ⟨hstrict _ hperm hsorted hnd, ?_⟩
    intro l2 hp2
    have h2 : allIntKeys indexOrKey l2 = true := by
      rw [allIntKeys_iff]
      intro a ha
      exact hik a (hp2.mem_iff.mp ha)
    rw [hsome l2 h2]
    have hperm2 := List.perm_insertionSort
      (fun x y => pyLeB (indexOrKey x) (indexOrKey y) = true) l2
    have hs2 := sorted_insertionSort_int l2 ((allIntKeys_iff l2).mp h2)
    have hpc : (List.insertionSort
        (fun x y => pyLeB (indexOrKey x) (indexOrKey y) = true) l2).Perm
        (List.insertionSort
          (fun x y => pyLeB (indexOrKey x) (indexOrKey y) = true) l) :=
      hperm2.trans (hp2.trans hperm.symm)
    have hstrict2 := hstrict _ (hperm2.trans hp2) hs2 hnd
    have hstrict1 := hstrict _ hperm hsorted hnd
    haveI : IsAntisymm PyDict (fun a b => pyLtB (indexOrKey a) (indexOrKey b) = true) :=
      ⟨fun a b h1 h2 => (pyLtB_asymm _ _ h1 h2).elim⟩
    rw [List.eq_of_perm_of_sorted hpc hstrict2 hstrict1]

/-- Articles with distinct int indices for the C5 witness. -/
def c5W1 : PyDict := [("id", PyVal.str "x1"), ("index", PyVal.int 2)]

/-- Second witness article. -/
def c5W2 : PyDict := [("id", PyVal.str "x2"), ("index", PyVal.int 1)]

/-- C5 witness: two completion orders of the same two articles sort to the
same list. -/
theorem C5_issue_articles_sorted_by_index_witness :
    sortArticlesByIndex [c5W1, c5W2] =
      some (List.insertionSort
        (fun x y => pyLeB (indexOrKey x) (indexOrKey y) = true) [c5W2, c5W1]) :=
  ((C5_issue_articles_sorted_by_index [c5W2, c5W1] (by decide)).2.2.2.2
    (by decide)).2 [c5W1, c5W2] (by decide)

/-- C5 counterexample: the claim says an article with a non-numeric index
sorts as 0.  The key `x.get("index") or 0` keeps a truthy non-numeric value
as-is, and sorting it together with an int key makes Python raise TypeError
(int and str are not comparable) — modelled as `none`: no document is
rendered at all, rather than the str-keyed article sorting as 0. -/
theorem C5_counterexample_nonnumeric_index :
    indexOrKey [("index", PyVal.str "x")] = PyVal.str "x" ∧
    sortArticlesByIndex [[("index", PyVal.str "x")], [("index", PyVal.int 5)]] =
      none := by
  decide

/-! ## Claim C7 -/

/-- Article blocks joined with a horizontal-rule line between consecutive
blocks and no trailing rule. -/
def ruleJoin : List (List String) → List String
  | [] => []
  | [b] => b
  | b :: bs => b ++ ["---"] ++ ruleJoin bs

theorem dropLast_append_ne {α : Type} (l1 l2 : List α) (h : l2 ≠ []) :
    (l1 ++ l2).dropLast = l1 ++ l2.dropLast := by
  induction l1 with
  | nil => simp
  | cons a l1 ih =>
      cases hl : l1 ++ l2 with
      | nil =>
          exact absurd (List.append_eq_nil.mp hl).2 h
      | cons b t =>
          simp only [List.cons_append, hl, List.dropLast_cons₂]
          rw [← hl, ih]

theorem issueArticleLines_cons (a : PyDict) (arts : List PyDict) :
    issueArticleLines (a :: arts) =
      ["", render_article a, "", "---"] ++ issueArticleLines arts := by
  simp [issueArticleLines]

theorem issueArticleLines_ne_nil (a : PyDict) (arts : List PyDict) :
    issueArticleLines (a :: arts) ≠ [] := by
  rw [issueArticleLines_cons]
  simp

theorem issueArticleLines_getLast (arts : List PyDict) (h : arts ≠ []) :
    (issueArticleLines arts).getLast? = some "---" := by
  induction arts with
  | nil => exact absurd rfl h
  | cons a rest ih =>
      rw [issueArticleLines_cons]
      cases rest with
      | nil => rfl
      | cons b t =>
          rw [List.getLast?_append_of_ne_nil _ (issueArticleLines_ne_nil b t)]
          exact ih (by simp)

theorem issueArticleLines_dropLast (arts : List PyDict) (h : arts ≠ []) :
    (issueArticleLines arts).dropLast =
      ruleJoin (arts.map (fun a => ["", render_article a, ""])) := by
  induction arts with
  | nil => exact absurd rfl h
  | cons a rest ih =>
      rw [issueArticleLines_cons]
      cases rest with
      | nil => rfl
      | cons b t =>
          rw [dropLast_append_ne _ _ (issueArticleLines_ne_nil b t)]
          rw [ih (by simp)]
          rfl

/-- Structure of every issue document's line list: the header block, then
the rendered articles in list order separated by a single `"---"` line,
with no rule after the last article. -/
theorem issueLines_structure (meta : PyDict) (pfx : String)
    (arts : List PyDict) (h : arts ≠ []) :
    issueLines meta arts pfx =
      issueHeaderLines meta pfx ++
        ruleJoin (arts.map (fun a => ["", render_article a, ""])) := by
  unfold issueLines popTrailingRule
  cases arts with
  | nil => exact absurd rfl h
  | cons a rest =>
      rw [List.getLast?_append_of_ne_nil _ (issueArticleLines_ne_nil a rest)]
      rw [issueArticleLines_getLast (a :: rest) (by simp)]
      simp only [if_pos rfl]
      rw [dropLast_append_ne _ _ (issueArticleLines_ne_nil a rest)]
      rw [issueArticleLines_dropLast (a :: rest) (by simp)]
      simp

theorem pyOr_int_zero (n : Int) : pyOr (PyVal.int n) (PyVal.int 0) = PyVal.int n := by
  unfold pyOr
  by_cases h : n = 0
  · subst h; rfl
  · rw [if_pos (by simp [pyTruthy, h])]

/-- C7: bulk-ingesting two NDJSON records that share one magazine id (with
two articles carrying distinct int indices, given here in descending order)
produces exactly one output document whose articles are sorted ascending by
index; in the document's line list the two rendered articles are separated
by a single horizontal-rule line `"---"` with no rule after the last
article. -/
theorem C7_bulk_ingest_one_file_rule_separated (r1 r2 : IngestRecord)
    (pfx : String) (mid : PyVal) (i1 i2 : Int)
    (hm1 : dGetD r1.magazine "id" = mid)
    (hm2 : dGetD r2.magazine "id" = mid)
    (hi1 : dGetD r1.article "index" = PyVal.int i1)
    (hi2 : dGetD r2.article "index" = PyVal.int i2)
    (hlt : i2 < i1) :
    generate_markdown [r1, r2] pfx =
      some [write_issue_markdown (ingestMagMeta r1) [r2.article, r1.article]
        pfx PyVal.none'] ∧
    issueLines (ingestMagMeta r1) [r2.article, r1.article] pfx =
      issueHeaderLines (ingestMagMeta r1) pfx ++
        (["", render_article r2.article, ""] ++ ["---"] ++
         ["", render_article r1.article, ""]) := by
  have hk1 : indexOrKey r1.article = PyVal.int i1 := by
    unfold indexOrKey; rw [hi1, pyOr_int_zero]
  have hk2 : indexOrKey r2.article = PyVal.int i2 := by
    unfold indexOrKey; rw [hi2, pyOr_int_zero]
  have hGo : ingestGo [r1, r2] =
      ([(mid, ingestMagMeta r1)], [(mid, [r1.article, r2.article])]) := by
    unfold ingestGo
    simp [hm1, hm2, appendAt, List.lookup]
  have hall : allIntKeys indexOrKey [r1.article, r2.article] = true := by
    simp [allIntKeys, hk1, hk2]
  have hle : ¬ (pyLeB (indexOrKey r1.article) (indexOrKey r2.article) = true) := by
    rw [hk1, hk2]
    simp [pyLeB]
    omega
  have hsort : pySortByKey indexOrKey [r1.article, r2.article] =
      some [r2.article, r1.article] := by
    unfold pySortByKey
    rw [if_pos (Or.inr (Or.inl hall))]
    simp [List.insertionSort, List.orderedInsert, hle]
  constructor
  · unfold generate_markdown
    rw [hGo]
    simp [List.lookup, hsort]
  · rw [issueLines_structure _ _ _ (by simp)]
    rfl

/-- First NDJSON record of the C7 witness (article index 2). -/
def c7r1 : IngestRecord :=
  ⟨[("id", PyVal.str "M1"), ("pageName", PyVal.str "第1期"),
    ("date", PyVal.str "2003-01-01"), ("title", PyVal.str "")],
   [("id", PyVal.str "a1"), ("index", PyVal.int 2), ("title", PyVal.str "T1")],
   PyVal.str "2003"⟩

/-- Second NDJSON record of the C7 witness (same magazine, index 1). -/
def c7r2 : IngestRecord :=
  ⟨[("id", PyVal.str "M1"), ("pageName", PyVal.str "第1期"),
    ("date", PyVal.str "2003-01-01"), ("title", PyVal.str "")],
   [("id", PyVal.str "a2"), ("index", PyVal.int 1), ("title", PyVal.str "T2")],
   PyVal.str "2003"⟩

/-- C7 witness: the two concrete records produce exactly one document with
the articles reordered ascending by index. -/
theorem C7_bulk_ingest_one_file_rule_separated_witness :
    generate_markdown [c7r1, c7r2] "中国土地" =
      some [write_issue_markdown (ingestMagMeta c7r1) [c7r2.article, c7r1.article]
        "中国土地" PyVal.none'] :=
  (C7_bulk_ingest_one_file_rule_separated c7r1 c7r2 "中国土地" (PyVal.str "M1")
    2 1 (by decide) (by decide) (by decide) (by decide) (by decide)).1

/-! ## Claim C4 -/

theorem matchLit_suffix (ci : Bool) (pat : List Char) :
    ∀ cs rest : List Char, matchLit ci pat cs = some rest → rest <:+ cs := by
  induction pat with
  | nil =>
      intro cs rest h
      simp [matchLit] at h
      subst h
      exact List.suffix_refl cs
  | cons p ps ih =>
      intro cs rest h
      cases cs with
      | nil => simp [matchLit] at h
      | cons c cs' =>
          simp only [matchLit] at h
          by_cases hc : (if ci then p.toLower = c.toLower else p = c)
          · rw [if_pos hc] at h
            exact (ih cs' rest h).trans (List.suffix_cons c cs')
          · rw [if_neg hc] at h
            cases h

theorem matchLit_mem (pat : List Char) :
    ∀ cs rest : List Char, matchLit false pat cs = some rest →
      ∀ p ∈ pat, p ∈ cs := by
  induction pat with
  | nil => intro cs rest h p hp; cases hp
  | cons q ps ih =>
      intro cs rest h p hp
      cases cs with
      | nil => simp [matchLit] at h
      | cons c cs' =>
          simp only [matchLit, Bool.false_eq_true, if_false] at h
          by_cases hc : q = c
          · rw [if_pos hc] at h
            rcases List.mem_cons.mp hp with h1 | h1
            · subst h1; rw [hc]; exact List.mem_cons_self c cs'
            · exact List.mem_cons_of_mem c (ih cs' rest h p h1)
          · rw [if_neg hc] at h
            cases h

/-- A `str.replace` with a pattern containing a character absent from the
input is the identity, for any fuel. -/
theorem replaceGo_id (pat repl : List Char) (p : Char) (hp : p ∈ pat) :
    ∀ (fuel : Nat) (cs : List Char), p ∉ cs → replaceGo pat repl fuel cs = cs := by
  intro fuel
  induction fuel with
  | zero => intro cs _; rfl
  | succ n ih =>
      intro cs hcs
      cases cs with
      | nil => rfl
      | cons c cs' =>
          simp only [replaceGo]
          cases hm : matchLit false pat (c :: cs') with
          | some rest => exact absurd (matchLit_mem pat _ rest hm p hp) hcs
          | none =>
              rw [ih cs' (fun h => hcs (List.mem_cons_of_mem c h))]

/-- A `'<'`-anchored substitution on a `'<'`-free input is the identity. -/
theorem scanSub_id (try' : List Char → Option (List Char)) (repl : List Char) :
    ∀ (fuel : Nat) (cs : List Char), '<' ∉ cs → scanSub try' repl fuel cs = cs := by
  intro fuel
  induction fuel with
  | zero => intro cs _; rfl
  | succ n ih =>
      intro cs hcs
      cases cs with
      | nil => rfl
      | cons c cs' =>
          have hc : ¬ c = '<' := fun h => hcs (h ▸ List.mem_cons_self c cs')
          simp only [scanSub, if_neg hc]
          rw [ih cs' (fun h => hcs (List.mem_cons_of_mem c h))]

/-- Entity decoding of an `'&'`-free input is the identity. -/
theorem unescapeGo_id :
    ∀ (fuel : Nat) (cs : List Char), '&' ∉ cs → unescapeGo fuel cs = cs := by
  intro fuel
  induction fuel with
  | zero => intro cs _; rfl
  | succ n ih =>
      intro cs hcs
      cases cs with
      | nil => rfl
      | cons c cs' =>
          have hc : ¬ c = '&' := fun h => hcs (h ▸ List.mem_cons_self c cs')
          simp only [unescapeGo, if_neg hc]
          rw [ih cs' (fun h => hcs (List.mem_cons_of_mem c h))]

/-- A path substitution whose pattern contains a character absent from the
input is the identity. -/
theorem scanPath_id (pat : List Char) (p : Char) (hp : p ∈ pat) :
    ∀ (fuel : Nat) (cs : List Char), p ∉ cs → scanPath pat fuel cs = cs := by
  intro fuel
  induction fuel with
  | zero => intro cs _; rfl
  | succ n ih =>
      intro cs hcs
      cases cs with
      | nil => rfl
      | cons c cs' =>
          simp only [scanPath]
          cases hm : matchLit false pat (c :: cs') with
          | some rest => exact absurd (matchLit_mem pat _ rest hm p hp) hcs
          | none =>
              rw [ih cs' (fun h => hcs (List.mem_cons_of_mem c h))]

/-- Path substitutions only delete characters. -/
theorem scanPath_subset (pat : List Char) :
    ∀ (fuel : Nat) (cs : List Char) (c : Char),
      c ∈ scanPath pat fuel cs → c ∈ cs := by
  intro fuel
  induction fuel with
  | zero => intro cs c h; exact h
  | succ n ih =>
      intro cs c h
      cases cs with
      | nil => exact h
      | cons d cs' =>
          simp only [scanPath] at h
          cases hm : matchLit false pat (d :: cs') with
          | none =>
              simp only [hm] at h
              rcases List.mem_cons.mp h with h1 | h1
              · exact h1 ▸ List.mem_cons_self d cs'
              · exact List.mem_cons_of_mem d (ih cs' c h1)
          | some rest =>
              simp only [hm] at h
              by_cases hl : (rest.dropWhile isPathChar).length = rest.length
              · rw [if_pos hl] at h
                rcases List.mem_cons.mp h with h1 | h1
                · exact h1 ▸ List.mem_cons_self d cs'
                · exact List.mem_cons_of_mem d (ih cs' c h1)
              · rw [if_neg hl] at h
                have h2 : c ∈ rest.dropWhile isPathChar := ih _ c h
                have h3 : c ∈ rest := (List.dropWhile_suffix isPathChar).mem h2
                exact (matchLit_suffix false pat _ rest hm).mem h3

theorem stripSet_subset (p : Char → Bool) (l : List Char) (c : Char)
    (h : c ∈ stripSet p l) : c ∈ l := by
  unfold stripSet at h
  rw [List.mem_reverse] at h
  have h2 := (List.dropWhile_suffix p).mem h
  rw [List.mem_reverse] at h2
  exact (List.dropWhile_suffix p).mem h2

theorem slGo_nil (acc : List Char) :
    slGo [] acc = if acc.isEmpty then [] else [acc.reverse] := rfl

theorem slGo_cr_nil (acc : List Char) : slGo ['\r'] acc = [acc.reverse] := by
  simp [slGo]

theorem slGo_crlf (cs acc : List Char) :
    slGo ('\r' :: '\n' :: cs) acc = acc.reverse :: slGo cs [] := by
  simp [slGo]

theorem slGo_cr_other (d : Char) (cs acc : List Char) (hd : ¬ d = '\n') :
    slGo ('\r' :: d :: cs) acc = acc.reverse :: slGo (d :: cs) [] := by
  conv_lhs => unfold slGo
  simp [hd]

theorem slGo_boundary (c : Char) (cs acc : List Char) (hc : ¬ c = '\r')
    (hb : isLineBoundary c = true) :
    slGo (c :: cs) acc = acc.reverse :: slGo cs [] := by
  conv_lhs => unfold slGo
  rw [if_neg hc, if_pos hb]

theorem slGo_plain (c : Char) (cs acc : List Char) (hc : ¬ c = '\r')
    (hb : ¬ isLineBoundary c = true) :
    slGo (c :: cs) acc = slGo cs (c :: acc) := by
  conv_lhs => unfold slGo
  rw [if_neg hc, if_neg hb]

theorem slGo_mem : ∀ (cs acc l : List Char), l ∈ slGo cs acc →
    ∀ c ∈ l, c ∈ cs ∨ c ∈ acc := by
  intro cs acc
  induction cs, acc using slGo.induct with
  | case1 acc ha =>
      intro l hl c hc
      rw [slGo_nil] at hl
      simp [ha] at hl
  | case2 acc ha =>
      intro l hl c hc
      rw [slGo_nil] at hl
      simp [ha] at hl
      subst hl
      right
      rwa [← List.mem_reverse]
  | case3 acc ih =>
      intro l hl c hc
      rw [slGo_cr_nil] at hl
      simp at hl
      subst hl
      right
      rwa [← List.mem_reverse]
  | case4 acc cs2 ih =>
      intro l hl c hc
      rw [slGo_crlf] at hl
      rcases List.mem_cons.mp hl with h1 | h1
      · subst h1
        right
        rwa [← List.mem_reverse]
      · rcases ih l h1 c hc with h | h
        · left
          exact List.mem_cons_of_mem _ (List.mem_cons_of_mem _ h)
        · cases h
  | case5 acc d cs2 hd ih =>
      intro l hl c hc
      rw [slGo_cr_other d cs2 acc hd] at hl
      rcases List.mem_cons.mp hl with h1 | h1
      · subst h1
        right
        rwa [← List.mem_reverse]
      · rcases ih l h1 c hc with h | h
        · left
          exact List.mem_cons_of_mem _ h
        · cases h
  | case6 c0 cs0 acc hc0 hb ih =>
      intro l hl c hc
      rw [slGo_boundary c0 cs0 acc hc0 hb] at hl
      rcases List.mem_cons.mp hl with h1 | h1
      · subst h1
        right
        rwa [← List.mem_reverse]
      · rcases ih l h1 c hc with h | h
        · left
          exact List.mem_cons_of_mem _ h
        · cases h
  | case7 c0 cs0 acc hc0 hb ih =>
      intro l hl c hc
      rw [slGo_plain c0 cs0 acc hc0 hb] at hl
      rcases ih l hl c hc with h | h
      · left
        exact List.mem_cons_of_mem _ h
      · rcases List.mem_cons.mp h with h2 | h2
        · left
          exact h2 ▸ List.mem_cons_self c0 cs0
        · right
          exact h2

theorem collapseGo_mem : ∀ (M : List (List Char)) (st : Option Bool)
    (l : List Char), l ∈ collapseGo st M → l ∈ M ∨ l = [] := by
  intro M
  induction M with
  | nil => intro st l hl; cases hl
  | cons m M ih =>
      intro st l hl
      simp only [collapseGo] at hl
      by_cases hm : m.isEmpty
      · rw [if_pos hm] at hl
        cases st with
        | none =>
            rcases ih none l hl with h | h
            · exact Or.inl (List.mem_cons_of_mem m h)
            · exact Or.inr h
        | some b =>
            cases b with
            | true =>
                rcases ih (some true) l hl with h | h
                · exact Or.inl (List.mem_cons_of_mem m h)
                · exact Or.inr h
            | false =>
                rcases List.mem_cons.mp hl with h1 | h1
                · exact Or.inr h1
                · rcases ih (some true) l h1 with h | h
                  · exact Or.inl (List.mem_cons_of_mem m h)
                  · exact Or.inr h
      · rw [if_neg hm] at hl
        rcases List.mem_cons.mp hl with h1 | h1
        · exact Or.inl (h1 ▸ List.mem_cons_self m M)
        · rcases ih (some false) l h1 with h | h
          · exact Or.inl (List.mem_cons_of_mem m h)
          · exact Or.inr h

theorem joinNl_cons2 (l m : List Char) (t : List (List Char)) :
    joinNl (l :: m :: t) = l ++ '\n' :: joinNl (m :: t) := rfl

theorem joinNl_mem : ∀ (M : List (List Char)) (c : Char), c ∈ joinNl M →
    (∃ l ∈ M, c ∈ l) ∨ c = '\n' := by
  intro M
  induction M with
  | nil => intro c hc; cases hc
  | cons l M ih =>
      intro c hc
      cases M with
      | nil =>
          exact Or.inl ⟨l, List.mem_cons_self l [], hc⟩
      | cons m t =>
          rw [joinNl_cons2] at hc
          rcases List.mem_append.mp hc with h | h
          · exact Or.inl ⟨l, List.mem_cons_self l _, h⟩
          · rcases List.mem_cons.mp h with h1 | h1
            · exact Or.inr h1
            · rcases ih c h1 with ⟨l2, hl2, hc2⟩ | h2
              · exact Or.inl ⟨l2, List.mem_cons_of_mem l hl2, hc2⟩
              · exact Or.inr h2

theorem cleanLinesPart_mem (cs : List Char) (c : Char)
    (h : c ∈ cleanLinesPart cs) : c ∈ cs ∨ c = '\n' := by
  unfold cleanLinesPart at h
  have h1 := stripSet_subset isPyWs _ c h
  rcases joinNl_mem _ c h1 with ⟨l, hl, hc⟩ | h2
  · rcases collapseGo_mem _ none l hl with h3 | h3
    · rcases List.mem_map.mp h3 with ⟨l0, hl0, hstrip⟩
      have hc0 : c ∈ l0 := stripSet_subset isTrimChar l0 c (by rw [hstrip]; exact hc)
      rcases slGo_mem cs [] l0 hl0 c hc0 with h | h
      · exact Or.inl h
      · cases h
    · rw [h3] at hc; cases hc
  · exact Or.inr h2

theorem collapse3Go_mem : ∀ (fuel : Nat) (cs : List Char) (c : Char),
    c ∈ collapse3Go fuel cs → c ∈ cs ∨ c = '\n' := by
  intro fuel
  induction fuel with
  | zero => intro cs c h; exact Or.inl h
  | succ n ih =>
      intro cs c h
      cases cs with
      | nil => cases h
      | cons d cs' =>
          simp only [collapse3Go] at h
          by_cases hd : d = '\n'
          · rw [if_pos hd] at h
            rcases List.mem_append.mp h with h1 | h1
            · by_cases h3 : 3 ≤ ((d :: cs').takeWhile (fun x => x = '\n')).length
              · rw [if_pos h3] at h1
                rcases List.mem_cons.mp h1 with h2 | h2
                · exact Or.inr h2
                · rcases List.mem_cons.mp h2 with h4 | h4
                  · exact Or.inr h4
                  · cases h4
              · rw [if_neg h3] at h1
                exact Or.inr (by
                  have := List.mem_takeWhile_imp h1
                  simpa using this)
            · rcases ih _ c h1 with h2 | h2
              · exact Or.inl ((List.dropWhile_suffix _).mem h2)
              · exact Or.inr h2
          · rw [if_neg hd] at h
            rcases List.mem_cons.mp h with h1 | h1
            · exact Or.inl (h1 ▸ List.mem_cons_self d cs')
            · rcases ih cs' c h1 with h2 | h2
              · exact Or.inl (List.mem_cons_of_mem d h2)
              · exact Or.inr h2

/-- On input free of `'<'`, `'>'` and `'&'`, every tag / placeholder /
entity step of `clean_html` is the identity and the asset-path steps only
delete characters: the pipeline reduces to line normalisation of some
subsequence-preserving `w`. -/
theorem cleanHtmlSteps_plain (x : List Char)
    (h1 : '<' ∉ x) (h2 : '>' ∉ x) (h3 : '&' ∉ x) :
    ∃ w : List Char, cleanHtmlSteps x = cleanLinesPart w ∧ (∀ c ∈ w, c ∈ x) := by
  have e1 : pyReplace "<br>".data "\n".data x = x :=
    replaceGo_id _ _ '<' (by decide) _ _ h1
  have e2 : pyReplace "<br/>".data "\n".data x = x :=
    replaceGo_id _ _ '<' (by decide) _ _ h1
  have e3 : pyReplace "<br />".data "\n".data x = x :=
    replaceGo_id _ _ '<' (by decide) _ _ h1
  have e4 : ∀ t r, scanSub t r x.length x = x := fun t r => scanSub_id t r _ x h1
  have e11 : pyReplace "<%basePath%>".data [] x = x :=
    replaceGo_id _ _ '<' (by decide) _ _ h1
  set w1 := scanPath "/batch/".data x.length x with hw1
  set w2 := scanPath "images/".data w1.length w1 with hw2
  have hw1s : ∀ c ∈ w1, c ∈ x := fun c hc => scanPath_subset _ _ _ c hc
  have hw2s : ∀ c ∈ w2, c ∈ x := fun c hc => hw1s c (scanPath_subset _ _ _ c hc)
  have e14 : pyReplace "\">".data [] w2 = w2 :=
    replaceGo_id _ _ '>' (by decide) _ _ (fun hm => h2 (hw2s _ hm))
  have e15 : unescapeGo w2.length w2 = w2 :=
    unescapeGo_id _ w2 (fun hm => h3 (hw2s _ hm))
  refine ⟨w2, ?_, hw2s⟩
  simp only [cleanHtmlSteps]
  rw [e1, e2, e3, e4, e4, e4, e4, e4, e4, e4, e11, ← hw1, ← hw2, e14, e15]

/-- On input additionally free of `'/'`, the asset-path steps are the
identity too: `clean_html` is exactly line normalisation. -/
theorem cleanHtmlSteps_id_plain (x : List Char)
    (h1 : '<' ∉ x) (h2 : '>' ∉ x) (h3 : '&' ∉ x) (h4 : '/' ∉ x) :
    cleanHtmlSteps x = cleanLinesPart x := by
  have e1 : pyReplace "<br>".data "\n".data x = x :=
    replaceGo_id _ _ '<' (by decide) _ _ h1
  have e2 : pyReplace "<br/>".data "\n".data x = x :=
    replaceGo_id _ _ '<' (by decide) _ _ h1
  have e3 : pyReplace "<br />".data "\n".data x = x :=
    replaceGo_id _ _ '<' (by decide) _ _ h1
  have e4 : ∀ t r, scanSub t r x.length x = x := fun t r => scanSub_id t r _ x h1
  have e11 : pyReplace "<%basePath%>".data [] x = x :=
    replaceGo_id _ _ '<' (by decide) _ _ h1
  have e12 : scanPath "/batch/".data x.length x = x :=
    scanPath_id _ '/' (by decide) _ x h4
  have e13 : scanPath "images/".data x.length x = x :=
    scanPath_id _ '/' (by decide) _ x h4
  have e14 : pyReplace "\">".data [] x = x :=
    replaceGo_id _ _ '>' (by decide) _ _ h2
  have e15 : unescapeGo x.length x = x := unescapeGo_id _ x h3
  simp only [cleanHtmlSteps]
  rw [e1, e2, e3, e4, e4, e4, e4, e4, e4, e4, e11, e12, e13, e14, e15]

/-- C4 counterexample: the claim quantifies over every input, but a lone
`'<'` survives the whole pipeline (the generic tag pattern needs a matching
`'>'`), so the output contains `'<'`. -/
theorem C4_counterexample_lone_angle_bracket :
    normalise_whitespace "<" = "<" ∧ '<' ∈ (normalise_whitespace "<").data := by
  decide

/-- C4 amended: for every input containing no `'<'`, `'>'` and `'&'`, the
sanitizer output contains no `'<'`, no `'>'`, and no occurrence of the
basepath placeholder `<%basePath%>`.  (Unmatched angle brackets pass
through the tag patterns, and entity decoding can re-introduce them — e.g.
from `&lt;` — which is what the excluded characters rule out.) -/
theorem C4_sanitizer_output_no_angle_or_placeholder (s : String)
    (h1 : '<' ∉ s.data) (h2 : '>' ∉ s.data) (h3 : '&' ∉ s.data) :
    '<' ∉ (normalise_whitespace s).data ∧
    '>' ∉ (normalise_whitespace s).data ∧
    ¬ ("<%basePath%>".data <:+: (normalise_whitespace s).data) := by
  have key : ∀ ch, ch ∈ (normalise_whitespace s).data → ch ∈ s.data ∨ ch = '\n' := by
    intro ch hch
    unfold normalise_whitespace at hch
    by_cases hs : s = ""
    · subst hs
      simp [clean_html, runCollapse3, collapse3Go] at hch
    · have hc : (clean_html (some s)).data = cleanHtmlSteps s.data := by
        simp only [clean_html]
        rw [if_neg hs]
      obtain ⟨w, hw, hws⟩ := cleanHtmlSteps_plain s.data h1 h2 h3
      rw [show (String.mk (runCollapse3 (clean_html (some s)).data)).data =
          runCollapse3 (clean_html (some s)).data from rfl, hc, hw] at hch
      rcases collapse3Go_mem _ _ ch hch with h | h
      · rcases cleanLinesPart_mem w ch h with h' | h'
        · exact Or.inl (hws ch h')
        · exact Or.inr h'
      · exact Or.inr h
  have k1 : '<' ∉ (normalise_whitespace s).data := by
    intro hm
    rcases key '<' hm with h | h
    · exact h1 h
    · exact absurd h (by decide)
  have k2 : '>' ∉ (normalise_whitespace s).data := by
    intro hm
    rcases key '>' hm with h | h
    · exact h2 h
    · exact absurd h (by decide)
  refine ⟨k1, k2, ?_⟩
  intro hinf
  exact k1 (hinf.mem (by decide))

/-- C4 witness: a concrete plain input. -/
theorem C4_sanitizer_output_no_angle_or_placeholder_witness :
    '<' ∉ (normalise_whitespace "hello  world\n\n\n\nbye").data ∧
    '>' ∉ (normalise_whitespace "hello  world\n\n\n\nbye").data ∧
    ¬ ("<%basePath%>".data <:+:
        (normalise_whitespace "hello  world\n\n\n\nbye").data) :=
  C4_sanitizer_output_no_angle_or_placeholder "hello  world\n\n\n\nbye"
    (by decide) (by decide) (by decide)

/-! ## Claim C3 -/

/-- Drops one trailing blank line, as the final `strip()` of `clean_html`
effectively does to the joined line list. -/
def dropTrailBlank (M : List (List Char)) : List (List Char) :=
  if M.getLast? = some ([] : List Char) then M.dropLast else M

/-- Tame characters: whitespace is limited to space, tab, newline and the
ideographic space, and the only line boundary is `'\n'`.  On tame input the
splitlines / strip steps interact in the simple way the idempotence proof
needs. -/
def tameChar (c : Char) : Bool :=
  (!(isPyWs c) || (c = ' ' || c = '\t' || c = '\n' || c = Char.ofNat 0x3000)) &&
  (!(isLineBoundary c) || c = '\n')

/-- No two adjacent blank lines. -/
def noAdjBlank : List (List Char) → Bool
  | [] => true
  | [_] => true
  | a :: b :: t => (!(a.isEmpty && b.isEmpty)) && noAdjBlank (b :: t)

/-- Whether a run of three newlines occurs anywhere. -/
def hasTriple : List Char → Bool
  | [] => false
  | c :: cs =>
      (decide (c = '\n') &&
        (match cs with
         | d :: e :: _ => decide (d = '\n') && decide (e = '\n')
         | _ => false)) || hasTriple cs

/-- Whether the string starts with two newlines. -/
def startsTwoNl : List Char → Bool
  | c :: d :: _ => decide (c = '\n') && decide (d = '\n')
  | _ => false

theorem edge_not_pyWs (c : Char) (ht : tameChar c = true)
    (hb : isLineBoundary c = false) (hs : isTrimChar c = false) :
    isPyWs c = false := by
  by_cases hws : isPyWs c = true
  · have h4 : c = ' ' ∨ c = '\t' ∨ c = '\n' ∨ c = Char.ofNat 0x3000 := by
      unfold tameChar at ht
      rw [hws] at ht
      simp at ht
      tauto
    rcases h4 with h | h | h | h
    · subst h; exact absurd hs (by decide)
    · subst h; exact absurd hs (by decide)
    · subst h; exact absurd hb (by decide)
    · subst h; exact absurd hs (by decide)
  · simpa using hws

theorem tame_boundary_eq_nl (c : Char) (ht : tameChar c = true)
    (hb : isLineBoundary c = true) : c = '\n' := by
  unfold tameChar at ht
  rw [hb] at ht
  simp at ht
  exact ht.2

theorem dropWhile_head_not (p : Char → Bool) (l : List Char) (c : Char)
    (h : (l.dropWhile p).head? = some c) : p c = false := by
  induction l with
  | nil => simp [List.dropWhile] at h
  | cons a l ih =>
      rw [List.dropWhile_cons] at h
      by_cases ha : p a
      · rw [if_pos ha] at h
        exact ih h
      · rw [if_neg ha] at h
        simp at h
        subst h
        simpa using ha

theorem dropWhile_eq_self_of_head (p : Char → Bool) (l : List Char)
    (h : ∀ c, l.head? = some c → p c = false) : l.dropWhile p = l := by
  cases l with
  | nil => rfl
  | cons a l =>
      rw [List.dropWhile_cons, if_neg (by simp [h a rfl])]

theorem stripSet_head_not (p : Char → Bool) (l : List Char) (c : Char)
    (h : (stripSet p l).head? = some c) : p c = false := by
  unfold stripSet at h
  set W := l.dropWhile p with hW
  have hpre : ((W.reverse.dropWhile p).reverse) <+: W := by
    have hsuf : W.reverse.dropWhile p <:+ W.reverse := List.dropWhile_suffix p
    have := hsuf.reverse
    rwa [List.reverse_reverse] at this
  obtain ⟨t, ht⟩ := hpre
  cases hz : (W.reverse.dropWhile p).reverse with
  | nil => rw [hz] at h; cases h
  | cons z zs =>
      rw [hz] at h ht
      simp at h
      have hW2 : W.head? = some c := by
        rw [← ht]
        simp [h]
      rw [hW] at hW2
      exact dropWhile_head_not p l c hW2

theorem stripSet_last_not (p : Char → Bool) (l : List Char) (c : Char)
    (h : (stripSet p l).getLast? = some c) : p c = false := by
  unfold stripSet at h
  rw [List.getLast?_eq_head?_reverse, List.reverse_reverse] at h
  exact dropWhile_head_not p _ c h

theorem stripSet_eq_self (p : Char → Bool) (l : List Char)
    (hh : ∀ c, l.head? = some c → p c = false)
    (hl : ∀ c, l.getLast? = some c → p c = false) : stripSet p l = l := by
  unfold stripSet
  rw [dropWhile_eq_self_of_head p l hh]
  rw [dropWhile_eq_self_of_head p l.reverse
    (fun c hc => hl c (by rwa [List.head?_reverse] at hc))]
  exact List.reverse_reverse l

theorem slGo_lines_no_boundary : ∀ (cs acc l : List Char),
    (∀ c ∈ acc, isLineBoundary c = false) → l ∈ slGo cs acc →
    ∀ c ∈ l, isLineBoundary c = false := by
  intro cs acc
  induction cs, acc using slGo.induct with
  | case1 acc ha =>
      intro l hacc hl c hc
      rw [slGo_nil] at hl
      simp [ha] at hl
  | case2 acc ha =>
      intro l hacc hl c hc
      rw [slGo_nil] at hl
      simp [ha] at hl
      subst hl
      exact hacc c (List.mem_reverse.mp hc)
  | case3 acc ih =>
      intro l hacc hl c hc
      rw [slGo_cr_nil] at hl
      simp at hl
      subst hl
      exact hacc c (List.mem_reverse.mp hc)
  | case4 acc cs2 ih =>
      intro l hacc hl c hc
      rw [slGo_crlf] at hl
      rcases List.mem_cons.mp hl with h1 | h1
      · subst h1
        exact hacc c (List.mem_reverse.mp hc)
      · exact ih l (by intro d hd; cases hd) h1 c hc
  | case5 acc d cs2 hd ih =>
      intro l hacc hl c hc
      rw [slGo_cr_other d cs2 acc hd] at hl
      rcases List.mem_cons.mp hl with h1 | h1
      · subst h1
        exact hacc c (List.mem_reverse.mp hc)
      · exact ih l (by intro e he; cases he) h1 c hc
  | case6 c0 cs0 acc hc0 hb ih =>
      intro l hacc hl c hc
      rw [slGo_boundary c0 cs0 acc hc0 hb] at hl
      rcases List.mem_cons.mp hl with h1 | h1
      · subst h1
        exact hacc c (List.mem_reverse.mp hc)
      · exact ih l (by intro e he; cases he) h1 c hc
  | case7 c0 cs0 acc hc0 hb ih =>
      intro l hacc hl c hc
      rw [slGo_plain c0 cs0 acc hc0 hb] at hl
      refine ih l ?_ hl c hc
      intro e he
      rcases List.mem_cons.mp he with h2 | h2
      · subst h2
        simpa using hb
      · exact hacc e h2

theorem slGo_append_nl (a : List Char) (ha : ∀ c ∈ a, isLineBoundary c = false) :
    ∀ (acc rest : List Char),
      slGo (a ++ '\n' :: rest) acc = (acc.reverse ++ a) :: slGo rest [] := by
  induction a with
  | nil =>
      intro acc rest
      rw [List.nil_append]
      rw [slGo_boundary '\n' rest acc (by decide) (by decide)]
      simp
  | cons c a ih =>
      intro acc rest
      have hcb : isLineBoundary c = false := ha c (List.mem_cons_self c a)
      have hcr : ¬ c = '\r' := by
        intro h
        subst h
        exact absurd hcb (by decide)
      have hcb' : ¬ isLineBoundary c = true := by simp [hcb]
      rw [List.cons_append, slGo_plain c _ acc hcr hcb']
      rw [ih (fun d hd => ha d (List.mem_cons_of_mem c hd)) (c :: acc) rest]
      simp

theorem slGo_no_boundary_whole (a : List Char)
    (ha : ∀ c ∈ a, isLineBoundary c = false) :
    ∀ acc : List Char, slGo a acc =
      if acc.isEmpty ∧ a = [] then [] else [acc.reverse ++ a] := by
  induction a with
  | nil =>
      intro acc
      rw [slGo_nil]
      by_cases h : acc.isEmpty
      · simp [h]
      · simp [h]
  | cons c a ih =>
      intro acc
      have hcb : isLineBoundary c = false := ha c (List.mem_cons_self c a)
      have hcr : ¬ c = '\r' := by
        intro h
        subst h
        exact absurd hcb (by decide)
      have hcb' : ¬ isLineBoundary c = true := by simp [hcb]
      rw [slGo_plain c a acc hcr hcb']
      rw [ih (fun d hd => ha d (List.mem_cons_of_mem c hd)) (c :: acc)]
      simp

theorem splitlines_joinNl (M : List (List Char))
    (hM : ∀ l ∈ M, ∀ c ∈ l, isLineBoundary c = false)
    (hlast : M.getLast? ≠ some ([] : List Char)) :
    splitlinesPy (joinNl M) = M := by
  induction M with
  | nil => rfl
  | cons a M ih =>
      cases M with
      | nil =>
          have hane : a ≠ [] := by
            intro h
            exact hlast (by simp [h])
          show slGo (joinNl [a]) [] = [a]
          have : joinNl [a] = a := rfl
          rw [this, slGo_no_boundary_whole a (hM a (List.mem_cons_self a [])) []]
          simp [hane]
      | cons m t =>
          show slGo (joinNl (a :: m :: t)) [] = a :: m :: t
          rw [joinNl_cons2]
          rw [slGo_append_nl a (hM a (List.mem_cons_self a _)) [] (joinNl (m :: t))]
          have ih2 := ih (fun l hl => hM l (List.mem_cons_of_mem a hl))
            (by rw [List.getLast?_cons_cons] at hlast; exact hlast)
          show ([].reverse ++ a) :: splitlinesPy (joinNl (m :: t)) = a :: m :: t
          rw [ih2]
          simp

theorem noAdjBlank_tail (a : List Char) (M : List (List Char))
    (h : noAdjBlank (a :: M) = true) : noAdjBlank M = true := by
  cases M with
  | nil => rfl
  | cons b t =>
      have he : noAdjBlank (a :: b :: t) =
          ((!(a.isEmpty && b.isEmpty)) && noAdjBlank (b :: t)) := rfl
      rw [he] at h
      simp only [Bool.and_eq_true] at h
      exact h.2

theorem noAdjBlank_cons (a b : List Char) (t : List (List Char))
    (hM : noAdjBlank (b :: t) = true)
    (h : a = [] → b ≠ []) :
    noAdjBlank (a :: b :: t) = true := by
  show ((!(a.isEmpty && b.isEmpty)) && noAdjBlank (b :: t)) = true
  rw [hM, Bool.and_true]
  cases a with
  | cons c ca => rfl
  | nil =>
      cases b with
      | nil => exact absurd rfl (h rfl)
      | cons c cb => rfl

theorem noAdjBlank_head (a b : List Char) (t : List (List Char))
    (h : noAdjBlank (a :: b :: t) = true) (ha : a = []) : b ≠ [] := by
  intro hb
  subst ha
  subst hb
  have h2 : noAdjBlank (([] : List Char) :: ([] : List Char) :: t) = false := rfl
  rw [h2] at h
  cases h

theorem collapseGo_nonblank (st : Option Bool) (c : Char) (cs : List Char)
    (ls : List (List Char)) :
    collapseGo st ((c :: cs) :: ls) = (c :: cs) :: collapseGo (some false) ls := rfl

theorem collapseGo_shape : ∀ (M : List (List Char)) (st : Option Bool),
    noAdjBlank (collapseGo st M) = true ∧
    ((collapseGo st M).head? = some ([] : List Char) → st = some false) := by
  intro M
  induction M with
  | nil =>
      intro st
      exact ⟨rfl, fun h => by cases h⟩
  | cons l ls ih =>
      intro st
      cases l with
      | nil =>
          cases st with
          | none =>
              have he : collapseGo none (([] : List Char) :: ls) =
                  collapseGo none ls := rfl
              rw [he]
              exact ⟨(ih none).1, fun h => absurd ((ih none).2 h) (by simp)⟩
          | some b =>
              cases b with
              | true =>
                  have he : collapseGo (some true) (([] : List Char) :: ls) =
                      collapseGo (some true) ls := rfl
                  rw [he]
                  exact ⟨(ih (some true)).1,
                    fun h => absurd ((ih (some true)).2 h) (by simp)⟩
              | false =>
                  have he : collapseGo (some false) (([] : List Char) :: ls) =
                      [] :: collapseGo (some true) ls := rfl
                  rw [he]
                  constructor
                  · cases hC : collapseGo (some true) ls with
                    | nil => rfl
                    | cons m t =>
                        refine noAdjBlank_cons [] m t ?_ ?_
                        · have h1 := (ih (some true)).1
                          rwa [hC] at h1
                        · intro _ hme
                          subst hme
                          have h2 := (ih (some true)).2
                          rw [hC] at h2
                          exact absurd (h2 rfl) (by simp)
                  · intro _
                    rfl
      | cons c cs =>
          rw [collapseGo_nonblank st c cs ls]
          constructor
          · cases hC : collapseGo (some false) ls with
            | nil => rfl
            | cons m t =>
                refine noAdjBlank_cons (c :: cs) m t ?_ ?_
                · have h1 := (ih (some false)).1
                  rwa [hC] at h1
                · intro h
                  exact absurd h (by simp)
          · intro h
            exact absurd (Option.some.inj h) (by simp)

theorem collapseGo_id : ∀ (M : List (List Char)) (st : Option Bool),
    noAdjBlank M = true → (M.head? = some ([] : List Char) → st = some false) →
    collapseGo st M = M := by
  intro M
  induction M with
  | nil => intro st _ _; rfl
  | cons l ls ih =>
      intro st hadj hhd
      cases l with
      | nil =>
          have hst : st = some false := hhd rfl
          subst hst
          have he : collapseGo (some false) (([] : List Char) :: ls) =
              [] :: collapseGo (some true) ls := rfl
          rw [he]
          congr 1
          refine ih (some true) (noAdjBlank_tail _ _ hadj) ?_
          intro h
          cases ls with
          | nil => cases h
          | cons m t =>
              have hm : m = [] := Option.some.inj h
              subst hm
              exact absurd rfl (noAdjBlank_head [] [] t hadj rfl)
      | cons c cs =>
          rw [collapseGo_nonblank st c cs ls]
          congr 1
          refine ih (some false) (noAdjBlank_tail _ _ hadj) ?_
          intro _
          rfl

theorem mem_of_head?_eq (l : List Char) (c : Char) (h : l.head? = some c) :
    c ∈ l := by
  cases l with
  | nil => cases h
  | cons a r =>
      have ha : a = c := Option.some.inj h
      subst ha
      exact List.mem_cons_self _ _

theorem mem_of_getLast?_eq (l : List Char) (c : Char) (h : l.getLast? = some c) :
    c ∈ l := by
  rw [← List.head?_reverse] at h
  exact List.mem_reverse.mp (mem_of_head?_eq l.reverse c h)

theorem exists_concat_of_ne_nil {α : Type} (M : List α) (h : M ≠ []) :
    ∃ N m, M = N ++ [m] := by
  cases hR : M.reverse with
  | nil =>
      exfalso
      apply h
      rw [← List.reverse_reverse M, hR]
      rfl
  | cons m t =>
      refine ⟨t.reverse, m, ?_⟩
      rw [← List.reverse_reverse M, hR]
      simp

theorem joinNl_head (l : List Char) (ls : List (List Char)) (hl : l ≠ []) :
    (joinNl (l :: ls)).head? = l.head? := by
  cases ls with
  | nil => rfl
  | cons m t =>
      rw [joinNl_cons2]
      cases l with
      | nil => exact absurd rfl hl
      | cons c cs => rfl

theorem joinNl_ne_nil (l : List Char) (ls : List (List Char)) (hl : l ≠ []) :
    joinNl (l :: ls) ≠ [] := by
  intro h
  have h2 := joinNl_head l ls hl
  rw [h] at h2
  cases l with
  | nil => exact hl rfl
  | cons c cs => cases h2

theorem joinNl_getLast : ∀ (M : List (List Char)) (m : List Char),
    M.getLast? = some m → m ≠ [] → (joinNl M).getLast? = m.getLast? := by
  intro M
  induction M with
  | nil => intro m h _; cases h
  | cons l ls ih =>
      intro m h hm
      cases ls with
      | nil =>
          have hb : l = m := by simpa using h
          subst hb
          rfl
      | cons b t =>
          rw [List.getLast?_cons_cons] at h
          have hA : (joinNl (b :: t)).getLast? = m.getLast? := ih m h hm
          have hne : joinNl (b :: t) ≠ [] := by
            cases t with
            | nil =>
                have hb : b = m := by simpa using h
                subst hb
                exact hm
            | cons u v =>
                rw [joinNl_cons2]
                simp
          rw [joinNl_cons2]
          cases hJ : joinNl (b :: t) with
          | nil => exact absurd hJ hne
          | cons u w =>
              rw [hJ] at hA
              rw [List.getLast?_append_of_ne_nil _ (by simp),
                List.getLast?_cons_cons]
              exact hA

theorem joinNl_append_blank : ∀ (M : List (List Char)), M ≠ [] →
    joinNl (M ++ [([] : List Char)]) = joinNl M ++ ['\n'] := by
  intro M
  induction M with
  | nil => intro h; exact absurd rfl h
  | cons l ls ih =>
      intro _
      cases ls with
      | nil =>
          show joinNl [l, []] = joinNl [l] ++ ['\n']
          rw [joinNl_cons2]
          rfl
      | cons b t =>
          rw [show (l :: b :: t) ++ [([] : List Char)] =
              l :: b :: (t ++ [[]]) by simp]
          rw [joinNl_cons2, joinNl_cons2]
          rw [show b :: (t ++ [([] : List Char)]) = (b :: t) ++ [[]] by simp]
          rw [ih (by simp)]
          simp

theorem noAdjBlank_append_blank : ∀ (N : List (List Char)),
    noAdjBlank (N ++ [([] : List Char)]) = true →
    N.getLast? ≠ some ([] : List Char) := by
  intro N
  induction N with
  | nil => intro _ h; cases h
  | cons a N2 ih =>
      intro h
      cases N2 with
      | nil =>
          intro hc
          have ha : a = [] := Option.some.inj hc
          subst ha
          exact absurd h (by decide)
      | cons b t =>
          have h2 : noAdjBlank ((b :: t) ++ [([] : List Char)]) = true := by
            have he : (a :: b :: t) ++ [([] : List Char)] =
                a :: ((b :: t) ++ [[]]) := rfl
            rw [he] at h
            exact noAdjBlank_tail _ _ h
          have h3 := ih h2
          rwa [List.getLast?_cons_cons]

theorem noAdjBlank_dropLast : ∀ (M : List (List Char)),
    noAdjBlank M = true → noAdjBlank M.dropLast = true := by
  intro M
  induction M with
  | nil => intro _; rfl
  | cons a M2 ih =>
      intro h
      cases M2 with
      | nil => rfl
      | cons b t =>
          have hd : (a :: b :: t).dropLast = a :: (b :: t).dropLast := rfl
          rw [hd]
          cases t with
          | nil => rfl
          | cons u v =>
              refine noAdjBlank_cons a b ((u :: v).dropLast) ?_ ?_
              · exact ih (noAdjBlank_tail _ _ h)
              · exact noAdjBlank_head a b (u :: v) h

theorem dropTrailBlank_head (M : List (List Char))
    (h : M.head? ≠ some ([] : List Char)) :
    (dropTrailBlank M).head? ≠ some ([] : List Char) := by
  unfold dropTrailBlank
  by_cases hl : M.getLast? = some ([] : List Char)
  · rw [if_pos hl]
    cases M with
    | nil => simp
    | cons a M2 =>
        cases M2 with
        | nil => simp
        | cons b t =>
            have hd : (a :: b :: t).dropLast = a :: (b :: t).dropLast := rfl
            rw [hd]
            exact h
  · rw [if_neg hl]
    exact h

theorem dropTrailBlank_getLast (M : List (List Char))
    (hadj : noAdjBlank M = true) :
    (dropTrailBlank M).getLast? ≠ some ([] : List Char) := by
  unfold dropTrailBlank
  by_cases hl : M.getLast? = some ([] : List Char)
  · rw [if_pos hl]
    have hne : M ≠ [] := by
      intro h
      rw [h] at hl
      cases hl
    obtain ⟨N, m, hNm⟩ := exists_concat_of_ne_nil M hne
    have hm : m = [] := by
      rw [hNm, List.getLast?_append_of_ne_nil _ (by simp)] at hl
      simpa using hl
    subst hm
    have hdrop : M.dropLast = N := by
      rw [hNm]
      simp
    rw [hdrop]
    exact noAdjBlank_append_blank N (by rwa [hNm] at hadj)
  · rw [if_neg hl]
    exact hl

theorem dropTrailBlank_noAdjBlank (M : List (List Char))
    (h : noAdjBlank M = true) : noAdjBlank (dropTrailBlank M) = true := by
  unfold dropTrailBlank
  by_cases hl : M.getLast? = some ([] : List Char)
  · rw [if_pos hl]
    exact noAdjBlank_dropLast M h
  · rw [if_neg hl]
    exact h

theorem dropTrailBlank_mem (M : List (List Char)) (l : List Char)
    (h : l ∈ dropTrailBlank M) : l ∈ M := by
  unfold dropTrailBlank at h
  by_cases hl : M.getLast? = some ([] : List Char)
  · rw [if_pos hl] at h
    exact (List.dropLast_sublist M).subset h
  · rw [if_neg hl] at h
    exact h

theorem hasTriple_cons_nl (r : List Char) :
    hasTriple ('\n' :: r) = (startsTwoNl r || hasTriple r) := by
  cases r with
  | nil => rfl
  | cons d r2 =>
      cases r2 with
      | nil => rfl
      | cons e r3 => rfl

theorem hasTriple_cons_other (c : Char) (r : List Char) (hc : c ≠ '\n') :
    hasTriple (c :: r) = hasTriple r := by
  cases r with
  | nil => simp [hasTriple, hc]
  | cons d r2 =>
      cases r2 with
      | nil => simp [hasTriple, hc]
      | cons e r3 => simp [hasTriple, hc]

theorem hasTriple_of_not_mem (l : List Char) (h : '\n' ∉ l) :
    hasTriple l = false := by
  induction l with
  | nil => rfl
  | cons c r ih =>
      have hc : c ≠ '\n' := by
        intro hce
        subst hce
        exact h (List.mem_cons_self _ _)
      rw [hasTriple_cons_other c r hc]
      exact ih (fun hm => h (List.mem_cons_of_mem c hm))

theorem hasTriple_tail (c : Char) (x : List Char)
    (h : hasTriple (c :: x) = false) : hasTriple x = false := by
  by_cases hc : c = '\n'
  · subst hc
    rw [hasTriple_cons_nl] at h
    simp at h
    exact h.2
  · rwa [hasTriple_cons_other c x hc] at h

theorem hasTriple_suffix : ∀ (t l1 : List Char),
    hasTriple (t ++ l1) = false → hasTriple l1 = false := by
  intro t
  induction t with
  | nil => intro l1 h; exact h
  | cons c t2 ih => intro l1 h; exact ih l1 (hasTriple_tail c _ h)

theorem hasTriple_append (l r : List Char) (hl : '\n' ∉ l) :
    hasTriple (l ++ r) = hasTriple r := by
  induction l with
  | nil => rfl
  | cons c l2 ih =>
      have hc : c ≠ '\n' := by
        intro hce
        subst hce
        exact hl (List.mem_cons_self _ _)
      rw [List.cons_append, hasTriple_cons_other c _ hc]
      exact ih (fun hm => hl (List.mem_cons_of_mem c hm))

theorem startsTwoNl_of_head (cs : List Char) (h : cs.head? ≠ some '\n') :
    startsTwoNl cs = false := by
  cases cs with
  | nil => rfl
  | cons c r =>
      cases r with
      | nil => rfl
      | cons d r2 =>
          have hc : c ≠ '\n' := by
            intro hce
            exact h (by rw [hce]; rfl)
          simp [startsTwoNl, hc]

theorem joinNl_noTriple : ∀ (M : List (List Char)),
    (∀ l ∈ M, '\n' ∉ l) → noAdjBlank M = true →
    hasTriple (joinNl M) = false ∧
    (M.head? ≠ some ([] : List Char) → (joinNl M).head? ≠ some '\n') ∧
    startsTwoNl (joinNl M) = false := by
  intro M
  induction M with
  | nil =>
      refine fun _ _ => ⟨rfl, ⟨?_, rfl⟩⟩
      intro _ h
      cases h
  | cons l ls ih =>
      intro hnl hadj
      have hlnl : '\n' ∉ l := hnl l (List.mem_cons_self _ _)
      cases ls with
      | nil =>
          refine ⟨hasTriple_of_not_mem l hlnl, ?_, ?_⟩
          · intro _ hh
            cases l with
            | nil => cases hh
            | cons c r =>
                have hc : c = '\n' := Option.some.inj hh
                subst hc
                exact hlnl (List.mem_cons_self _ _)
          · cases l with
            | nil => rfl
            | cons c r =>
                apply startsTwoNl_of_head
                intro hh
                have hc : c = '\n' := Option.some.inj hh
                subst hc
                exact hlnl (List.mem_cons_self _ _)
      | cons b t =>
          have hnl2 : ∀ l2 ∈ b :: t, '\n' ∉ l2 :=
            fun l2 h2 => hnl l2 (List.mem_cons_of_mem _ h2)
          have ih2 := ih hnl2 (noAdjBlank_tail _ _ hadj)
          rw [joinNl_cons2]
          have hTr : hasTriple (l ++ '\n' :: joinNl (b :: t)) = false := by
            rw [hasTriple_append l _ hlnl, hasTriple_cons_nl]
            rw [ih2.1, ih2.2.2]
            rfl
          refine ⟨hTr, ?_, ?_⟩
          · intro hhd hh
            cases l with
            | nil => exact hhd rfl
            | cons c r =>
                have hc : c = '\n' := Option.some.inj hh
                subst hc
                exact hlnl (List.mem_cons_self _ _)
          · cases l with
            | nil =>
                have hb : b ≠ [] := noAdjBlank_head [] b t hadj rfl
                have hJh : (joinNl (b :: t)).head? ≠ some '\n' :=
                  ih2.2.1 (by simp [hb])
                rw [List.nil_append]
                cases hJ : joinNl (b :: t) with
                | nil => rfl
                | cons d r2 =>
                    show startsTwoNl ('\n' :: d :: r2) = false
                    have hd : d ≠ '\n' := by
                      intro hde
                      exact hJh (by rw [hJ, hde]; rfl)
                    simp [startsTwoNl, hd]
            | cons c r =>
                apply startsTwoNl_of_head
                intro hh
                have hc : c = '\n' := Option.some.inj hh
                subst hc
                exact hlnl (List.mem_cons_self _ _)

theorem collapse3Go_nl (n : Nat) (r : List Char) :
    collapse3Go (n + 1) ('\n' :: r) =
      (if 3 ≤ (('\n' :: r).takeWhile (fun x => x = '\n')).length
       then ['\n', '\n']
       else ('\n' :: r).takeWhile (fun x => x = '\n')) ++
        collapse3Go n (('\n' :: r).dropWhile (fun x => x = '\n')) := by
  conv_lhs => unfold collapse3Go
  rw [if_pos rfl]

theorem collapse3Go_cons_ne (n : Nat) (c : Char) (r : List Char)
    (hc : ¬ c = '\n') :
    collapse3Go (n + 1) (c :: r) = c :: collapse3Go n r := by
  conv_lhs => unfold collapse3Go
  rw [if_neg hc]

theorem takeWhile_three_nl (r : List Char)
    (h3 : 3 ≤ (('\n' :: r).takeWhile (fun x => x = '\n')).length) :
    hasTriple ('\n' :: r) = true := by
  cases r with
  | nil => simp [List.takeWhile_cons] at h3
  | cons d r2 =>
      by_cases hd : d = '\n'
      · subst hd
        cases r2 with
        | nil => simp [List.takeWhile_cons] at h3
        | cons e r3 =>
            by_cases he : e = '\n'
            · subst he
              rw [hasTriple_cons_nl]
              simp [startsTwoNl]
            · exfalso
              have ht : ('\n' :: '\n' :: e :: r3).takeWhile (fun x => x = '\n') =
                  ['\n', '\n'] := by
                simp [List.takeWhile_cons, he]
              rw [ht] at h3
              simp at h3
      · exfalso
        have ht : ('\n' :: d :: r2).takeWhile (fun x => x = '\n') = ['\n'] := by
          simp [List.takeWhile_cons, hd]
        rw [ht] at h3
        simp at h3

theorem collapse3Go_id : ∀ (fuel : Nat) (cs : List Char),
    hasTriple cs = false → collapse3Go fuel cs = cs := by
  intro fuel
  induction fuel with
  | zero => intro cs _; rfl
  | succ n ih =>
      intro cs h
      cases cs with
      | nil => rfl
      | cons c r =>
          by_cases hc : c = '\n'
          · subst hc
            rw [collapse3Go_nl]
            have h3 : ¬ 3 ≤ (('\n' :: r).takeWhile (fun x => x = '\n')).length := by
              intro h3
              rw [takeWhile_three_nl r h3] at h
              cases h
            rw [if_neg h3]
            have hsuf : ('\n' :: r).dropWhile (fun x => x = '\n') <:+ ('\n' :: r) :=
              List.dropWhile_suffix _
            obtain ⟨t, ht⟩ := hsuf
            have hdw : hasTriple (('\n' :: r).dropWhile (fun x => x = '\n')) = false :=
              hasTriple_suffix t _ (by rw [ht]; exact h)
            rw [ih _ hdw]
            exact List.takeWhile_append_dropWhile _ _
          · rw [collapse3Go_cons_ne n c r hc, ih r (hasTriple_tail c r h)]

theorem runCollapse3_id (cs : List Char) (h : hasTriple cs = false) :
    runCollapse3 cs = cs := collapse3Go_id cs.length cs h

theorem stripSet_dropLast_nl (cs : List Char)
    (hh : ∀ c, cs.head? = some c → isPyWs c = false)
    (hl : ∀ c, cs.getLast? = some c → isPyWs c = false)
    (hne : cs ≠ []) :
    stripSet isPyWs (cs ++ ['\n']) = cs := by
  unfold stripSet
  have h1 : (cs ++ ['\n']).dropWhile isPyWs = cs ++ ['\n'] := by
    apply dropWhile_eq_self_of_head
    intro c hc
    cases cs with
    | nil => exact absurd rfl hne
    | cons a r =>
        have ha : a = c := Option.some.inj hc
        subst ha
        exact hh _ rfl
  rw [h1]
  have h2 : (cs ++ ['\n']).reverse = '\n' :: cs.reverse := by
    rw [List.reverse_append]
    rfl
  rw [h2]
  have h3 : ('\n' :: cs.reverse).dropWhile isPyWs = cs.reverse.dropWhile isPyWs := by
    rw [List.dropWhile_cons]
    rw [if_pos (by decide)]
  rw [h3]
  have h4 : cs.reverse.dropWhile isPyWs = cs.reverse := by
    apply dropWhile_eq_self_of_head
    intro c hc
    rw [List.head?_reverse] at hc
    exact hl c hc
  rw [h4, List.reverse_reverse]

theorem strip_joinNl (L : List (List Char))
    (hedge : ∀ l ∈ L, (∀ c, l.head? = some c → isPyWs c = false) ∧
      (∀ c, l.getLast? = some c → isPyWs c = false))
    (hadj : noAdjBlank L = true)
    (hhead : L.head? ≠ some ([] : List Char)) :
    stripSet isPyWs (joinNl L) = joinNl (dropTrailBlank L) := by
  by_cases hlast : L.getLast? = some ([] : List Char)
  case pos =>
    have hne : L ≠ [] := by
      intro h
      rw [h] at hlast
      cases hlast
    obtain ⟨N, m, hNm⟩ := exists_concat_of_ne_nil L hne
    have hm : m = [] := by
      rw [hNm, List.getLast?_append_of_ne_nil _ (by simp)] at hlast
      simpa using hlast
    subst hm
    have hNne : N ≠ [] := by
      intro h
      subst h
      rw [hNm] at hhead
      exact hhead rfl
    have hDT : dropTrailBlank L = N := by
      unfold dropTrailBlank
      rw [if_pos hlast, hNm]
      simp
    rw [hDT, hNm, joinNl_append_blank N hNne]
    obtain ⟨l0, ls0, hN0⟩ : ∃ l0 ls0, N = l0 :: ls0 := by
      cases N with
      | nil => exact absurd rfl hNne
      | cons a b => exact ⟨a, b, rfl⟩
    have hl0 : l0 ≠ [] := by
      intro he
      rw [hNm, hN0, he] at hhead
      exact hhead rfl
    apply stripSet_dropLast_nl
    · intro c hc
      rw [hN0, joinNl_head l0 ls0 hl0] at hc
      have hmem : l0 ∈ L := by
        rw [hNm, hN0]
        simp
      exact (hedge l0 hmem).1 c hc
    · intro c hc
      obtain ⟨N2, m2, hN2⟩ := exists_concat_of_ne_nil N hNne
      have hLm : N.getLast? = some m2 := by
        rw [hN2, List.getLast?_append_of_ne_nil _ (by simp)]
        simp
      have hm2ne : m2 ≠ [] := by
        have hadj2 : noAdjBlank (N ++ [([] : List Char)]) = true := by
          rwa [hNm] at hadj
        have hlb := noAdjBlank_append_blank N hadj2
        intro he
        rw [he] at hLm
        exact hlb hLm
      rw [joinNl_getLast N m2 hLm hm2ne] at hc
      have hmem : m2 ∈ L := by
        rw [hNm, hN2]
        simp
      exact (hedge m2 hmem).2 c hc
    · rw [hN0]
      exact joinNl_ne_nil l0 ls0 hl0
  case neg =>
    have hDT : dropTrailBlank L = L := by
      unfold dropTrailBlank
      rw [if_neg hlast]
    rw [hDT]
    cases L with
    | nil => rfl
    | cons l ls =>
        have hlne : l ≠ [] := fun he => hhead (by rw [he]; rfl)
        apply stripSet_eq_self
        · intro c hc
          rw [joinNl_head l ls hlne] at hc
          exact (hedge l (List.mem_cons_self _ _)).1 c hc
        · intro c hc
          obtain ⟨N, m, hNm⟩ := exists_concat_of_ne_nil (l :: ls) (by simp)
          have hLm : (l :: ls).getLast? = some m := by
            rw [hNm, List.getLast?_append_of_ne_nil _ (by simp)]
            simp
          have hmne : m ≠ [] := by
            intro he
            rw [he] at hLm
            exact hlast hLm
          rw [joinNl_getLast (l :: ls) m hLm hmne] at hc
          have hmem : m ∈ l :: ls := by
            rw [hNm]
            simp
          exact (hedge m hmem).2 c hc

theorem cleanLinesPart_normal (x : List Char)
    (htame : ∀ c ∈ x, tameChar c = true) :
    ∃ L : List (List Char),
      cleanLinesPart x = joinNl L ∧
      noAdjBlank L = true ∧
      L.head? ≠ some ([] : List Char) ∧
      L.getLast? ≠ some ([] : List Char) ∧
      (∀ l ∈ L, ∀ c ∈ l, c ∈ x ∧ isLineBoundary c = false) ∧
      (∀ l ∈ L, (∀ c, l.head? = some c → isTrimChar c = false) ∧
        (∀ c, l.getLast? = some c → isTrimChar c = false)) := by
  set L1 := (splitlinesPy x).map (stripSet isTrimChar) with hL1
  set L0 := collapseGo none L1 with hL0
  have hmemL0 : ∀ l ∈ L0, ∀ c ∈ l, c ∈ x ∧ isLineBoundary c = false := by
    intro l hl c hc
    rcases collapseGo_mem L1 none l hl with h1 | h1
    · rcases List.mem_map.mp h1 with ⟨l0, hl0, hstrip⟩
      have hc0 : c ∈ l0 := stripSet_subset isTrimChar l0 c (by rw [hstrip]; exact hc)
      constructor
      · rcases slGo_mem x [] l0 hl0 c hc0 with h | h
        · exact h
        · cases h
      · exact slGo_lines_no_boundary x [] l0 (by intro d hd; cases hd) hl0 c hc0
    · subst h1
      cases hc
  have hedgeL0 : ∀ l ∈ L0, (∀ c, l.head? = some c → isTrimChar c = false) ∧
      (∀ c, l.getLast? = some c → isTrimChar c = false) := by
    intro l hl
    rcases collapseGo_mem L1 none l hl with h1 | h1
    · rcases List.mem_map.mp h1 with ⟨l0, hl0, hstrip⟩
      subst hstrip
      exact ⟨fun c hc => stripSet_head_not isTrimChar l0 c hc,
        fun c hc => stripSet_last_not isTrimChar l0 c hc⟩
    · subst h1
      exact ⟨(fun c hc => by cases hc), (fun c hc => by cases hc)⟩
  have hshape := collapseGo_shape L1 none
  have hadj0 : noAdjBlank L0 = true := hshape.1
  have hhead0 : L0.head? ≠ some ([] : List Char) := by
    intro h
    exact absurd (hshape.2 h) (by simp)
  refine ⟨dropTrailBlank L0, ?_, dropTrailBlank_noAdjBlank L0 hadj0,
    dropTrailBlank_head L0 hhead0, dropTrailBlank_getLast L0 hadj0, ?_, ?_⟩
  · show stripSet isPyWs (joinNl L0) = joinNl (dropTrailBlank L0)
    apply strip_joinNl L0 ?_ hadj0 hhead0
    intro l hl
    refine ⟨?_, ?_⟩
    · intro c hc
      have hcm : c ∈ l := mem_of_head?_eq l c hc
      exact edge_not_pyWs c (htame c (hmemL0 l hl c hcm).1)
        (hmemL0 l hl c hcm).2 ((hedgeL0 l hl).1 c hc)
    · intro c hc
      have hcm : c ∈ l := mem_of_getLast?_eq l c hc
      exact edge_not_pyWs c (htame c (hmemL0 l hl c hcm).1)
        (hmemL0 l hl c hcm).2 ((hedgeL0 l hl).2 c hc)
  · intro l hl c hc
    exact hmemL0 l (dropTrailBlank_mem L0 l hl) c hc
  · intro l hl
    exact hedgeL0 l (dropTrailBlank_mem L0 l hl)

theorem cleanLinesPart_of_normal (L : List (List Char))
    (hadj : noAdjBlank L = true)
    (hhead : L.head? ≠ some ([] : List Char))
    (hlast : L.getLast? ≠ some ([] : List Char))
    (hbf : ∀ l ∈ L, ∀ c ∈ l, isLineBoundary c = false)
    (hedge : ∀ l ∈ L, (∀ c, l.head? = some c → isTrimChar c = false) ∧
      (∀ c, l.getLast? = some c → isTrimChar c = false))
    (htame : ∀ l ∈ L, ∀ c ∈ l, tameChar c = true) :
    cleanLinesPart (joinNl L) = joinNl L := by
  have h1 : splitlinesPy (joinNl L) = L := splitlines_joinNl L hbf hlast
  have h2 : L.map (stripSet isTrimChar) = L := by
    have hx : ∀ l ∈ L, stripSet isTrimChar l = l := by
      intro l hl
      exact stripSet_eq_self isTrimChar l (hedge l hl).1 (hedge l hl).2
    calc L.map (stripSet isTrimChar) = L.map id := List.map_congr_left hx
      _ = L := List.map_id L
  have h3 : collapseGo none L = L :=
    collapseGo_id L none hadj (fun h => absurd h hhead)
  have h4 : dropTrailBlank L = L := by
    unfold dropTrailBlank
    rw [if_neg hlast]
  have hpw : ∀ l ∈ L, (∀ c, l.head? = some c → isPyWs c = false) ∧
      (∀ c, l.getLast? = some c → isPyWs c = false) := by
    intro l hl
    refine ⟨?_, ?_⟩
    · intro c hc
      exact edge_not_pyWs c (htame l hl c (mem_of_head?_eq l c hc))
        (hbf l hl c (mem_of_head?_eq l c hc)) ((hedge l hl).1 c hc)
    · intro c hc
      exact edge_not_pyWs c (htame l hl c (mem_of_getLast?_eq l c hc))
        (hbf l hl c (mem_of_getLast?_eq l c hc)) ((hedge l hl).2 c hc)
  show stripSet isPyWs
      (joinNl (collapseGo none ((splitlinesPy (joinNl L)).map (stripSet isTrimChar)))) =
    joinNl L
  rw [h1, h2, h3, strip_joinNl L hpw hadj hhead, h4]

/-- Claim C3 counterexample: the sanitizer is not idempotent on arbitrary
HTML-bearing input.  The stray-quote cleanup removes every occurrence of
the two-character sequence quote-then-gt, but its output can contain a
fresh such occurrence assembled from the surviving characters: on the
four-character input quote-quote-gt-gt one pass returns quote-gt, and a
second pass returns the empty string. -/
theorem C3_counterexample_quote_gt :
    normalise_whitespace (normalise_whitespace "\"\">>") ≠
      normalise_whitespace "\"\">>" := by
  decide

/-- Claim C3 (amended): the sanitizer `normalise_whitespace` (clean_html
followed by the 3+-newline collapse) is idempotent on every input that
contains none of the characters lt, gt, ampersand and slash, and whose
whitespace is tame (ordinary space, tab, newline or ideographic space, with
newline the only line boundary).  On such input the tag, entity and path
substitutions are the identity, and the line-normalisation pass
(per-line strip, blank-line collapse, join, outer strip) is idempotent. -/
theorem C3_normalise_whitespace_idempotent_plain (s : String)
    (h1 : '<' ∉ s.data) (h2 : '>' ∉ s.data) (h3 : '&' ∉ s.data)
    (h4 : '/' ∉ s.data)
    (h5 : ∀ c ∈ s.data, tameChar c = true) :
    normalise_whitespace (normalise_whitespace s) = normalise_whitespace s := by
  by_cases hs : s = ""
  · subst hs
    have h0 : normalise_whitespace "" = "" := by decide
    rw [h0]
    exact h0
  · obtain ⟨L, hLeq, hadj, hhead, hlast, hmem, hedge⟩ :=
      cleanLinesPart_normal s.data h5
    have hnl : ∀ l ∈ L, '\n' ∉ l := by
      intro l hl hm
      exact absurd ((hmem l hl '\n' hm).2) (by decide)
    have hbf : ∀ l ∈ L, ∀ c ∈ l, isLineBoundary c = false :=
      fun l hl c hc => (hmem l hl c hc).2
    have htameL : ∀ l ∈ L, ∀ c ∈ l, tameChar c = true :=
      fun l hl c hc => h5 c (hmem l hl c hc).1
    have hT : hasTriple (joinNl L) = false := (joinNl_noTriple L hnl hadj).1
    have hcl : clean_html (some s) = String.mk (cleanLinesPart s.data) := by
      simp only [clean_html]
      rw [if_neg hs, cleanHtmlSteps_id_plain s.data h1 h2 h3 h4]
    have hNs : normalise_whitespace s = String.mk (joinNl L) := by
      unfold normalise_whitespace
      rw [hcl]
      show String.mk (runCollapse3 (cleanLinesPart s.data)) = String.mk (joinNl L)
      rw [hLeq, runCollapse3_id _ hT]
    rw [hNs]
    by_cases hJ : joinNl L = []
    · rw [hJ]
      decide
    · have hy : (String.mk (joinNl L) : String) ≠ "" := by
        intro he
        apply hJ
        show (String.mk (joinNl L)).data = []
        rw [he]
      have hc1 : '<' ∉ joinNl L := by
        intro hm
        rcases joinNl_mem L _ hm with ⟨l, hl, hc⟩ | hc
        · exact h1 (hmem l hl _ hc).1
        · exact absurd hc (by decide)
      have hc2 : '>' ∉ joinNl L := by
        intro hm
        rcases joinNl_mem L _ hm with ⟨l, hl, hc⟩ | hc
        · exact h2 (hmem l hl _ hc).1
        · exact absurd hc (by decide)
      have hc3 : '&' ∉ joinNl L := by
        intro hm
        rcases joinNl_mem L _ hm with ⟨l, hl, hc⟩ | hc
        · exact h3 (hmem l hl _ hc).1
        · exact absurd hc (by decide)
      have hc4 : '/' ∉ joinNl L := by
        intro hm
        rcases joinNl_mem L _ hm with ⟨l, hl, hc⟩ | hc
        · exact h4 (hmem l hl _ hc).1
        · exact absurd hc (by decide)
      have hcl2 : clean_html (some (String.mk (joinNl L))) =
          String.mk (cleanLinesPart (joinNl L)) := by
        simp only [clean_html]
        rw [if_neg hy]
        show String.mk (cleanHtmlSteps (joinNl L)) =
          String.mk (cleanLinesPart (joinNl L))
        rw [cleanHtmlSteps_id_plain (joinNl L) hc1 hc2 hc3 hc4]
      have hClean : cleanLinesPart (joinNl L) = joinNl L :=
        cleanLinesPart_of_normal L hadj hhead hlast hbf hedge htameL
      unfold normalise_whitespace
      rw [hcl2]
      show String.mk (runCollapse3 (cleanLinesPart (joinNl L))) =
        String.mk (joinNl L)
      rw [hClean, runCollapse3_id _ hT]

/-- Concrete instantiation of the amended C3 idempotence theorem. -/
theorem C3_normalise_whitespace_idempotent_plain_witness :
    ('<' ∉ ("  a \n\n\n\n b　" : String).data) ∧
    (∀ c ∈ ("  a \n\n\n\n b　" : String).data, tameChar c = true) ∧
    normalise_whitespace (normalise_whitespace "  a \n\n\n\n b　") =
      normalise_whitespace "  a \n\n\n\n b　" :=
  ⟨by decide, by decide,
    C3_normalise_whitespace_idempotent_plain "  a \n\n\n\n b　"
      (by decide) (by decide) (by decide) (by decide) (by decide)⟩

/-! ## Claim C8 -/

theorem char_toNat_ofNat (n : Nat) (h : n.isValidChar) : (Char.ofNat n).toNat = n := by
  rw [Char.ofNat, dif_pos h]
  rfl

theorem toLower_eq_of_lit (c k : Char) (hk : k.toNat < 97 ∨ 122 < k.toNat)
    (h : c.toLower = k) : c = k := by
  simp only [Char.toLower] at h
  by_cases hc : c.toNat ≥ 65 ∧ c.toNat ≤ 90
  · rw [if_pos hc] at h
    exfalso
    have hvalid : (c.toNat + 32).isValidChar := Or.inl (by omega)
    have hval := char_toNat_ofNat (c.toNat + 32) hvalid
    rw [h] at hval
    rcases hk with hk | hk
    · omega
    · omega
  · rw [if_neg hc] at h
    exact h

theorem matchLit_true_cons_inv (p : Char) (ps cs rest : List Char)
    (h : matchLit true (p :: ps) cs = some rest) :
    ∃ c cs2, cs = c :: cs2 ∧ p.toLower = c.toLower ∧
      matchLit true ps cs2 = some rest := by
  cases cs with
  | nil => simp [matchLit] at h
  | cons c cs2 =>
      simp only [matchLit, if_true] at h
      by_cases hp : p.toLower = c.toLower
      · rw [if_pos hp] at h
        exact ⟨c, cs2, rfl, hp, h⟩
      · rw [if_neg hp] at h
        cases h

theorem matchLit_src_inv (t r : List Char)
    (h : matchLit true "src=".data t = some r) :
    ∃ c1 c2 c3, t = c1 :: c2 :: c3 :: '=' :: r ∧
      's'.toLower = c1.toLower ∧ 'r'.toLower = c2.toLower ∧
      'c'.toLower = c3.toLower := by
  obtain ⟨c1, t1, ht1, hp1, h⟩ := matchLit_true_cons_inv _ _ _ _ h
  obtain ⟨c2, t2, ht2, hp2, h⟩ := matchLit_true_cons_inv _ _ _ _ h
  obtain ⟨c3, t3, ht3, hp3, h⟩ := matchLit_true_cons_inv _ _ _ _ h
  obtain ⟨c4, t4, ht4, hp4, h⟩ := matchLit_true_cons_inv _ _ _ _ h
  have hr : t4 = r := by simpa [matchLit] using h
  have hc4 : c4 = '=' := by
    refine toLower_eq_of_lit c4 '=' (Or.inl (by decide)) ?_
    rw [← hp4]
    decide
  refine ⟨c1, c2, c3, ?_, hp1, hp2, hp3⟩
  rw [ht1, ht2, ht3, ht4, hr, hc4]

theorem matchLit_alt_inv (t r : List Char)
    (h : matchLit true "alt=".data t = some r) :
    ∃ c1 c2 c3, t = c1 :: c2 :: c3 :: '=' :: r ∧
      'a'.toLower = c1.toLower ∧ 'l'.toLower = c2.toLower ∧
      't'.toLower = c3.toLower := by
  obtain ⟨c1, t1, ht1, hp1, h⟩ := matchLit_true_cons_inv _ _ _ _ h
  obtain ⟨c2, t2, ht2, hp2, h⟩ := matchLit_true_cons_inv _ _ _ _ h
  obtain ⟨c3, t3, ht3, hp3, h⟩ := matchLit_true_cons_inv _ _ _ _ h
  obtain ⟨c4, t4, ht4, hp4, h⟩ := matchLit_true_cons_inv _ _ _ _ h
  have hr : t4 = r := by simpa [matchLit] using h
  have hc4 : c4 = '=' := by
    refine toLower_eq_of_lit c4 '=' (Or.inl (by decide)) ?_
    rw [← hp4]
    decide
  refine ⟨c1, c2, c3, ?_, hp1, hp2, hp3⟩
  rw [ht1, ht2, ht3, ht4, hr, hc4]

theorem src_fail_head (c : Char) (tail : List Char)
    (hc : ¬ 's'.toLower = c.toLower) :
    matchLit true "src=".data (c :: tail) = none := by
  cases hm : matchLit true "src=".data (c :: tail) with
  | none => rfl
  | some r =>
      exfalso
      obtain ⟨c1, c2, c3, heq, hp1, hp2, hp3⟩ := matchLit_src_inv _ _ hm
      injection heq with h1 _
      rw [← h1] at hp1
      exact hc hp1

theorem src_fail_seg (seg : List Char) (k : Char) (tail : List Char)
    (hne : seg ≠ []) (hseg : '=' ∉ seg)
    (hk2 : ¬ 'r'.toLower = k.toLower) (hk3 : ¬ 'c'.toLower = k.toLower)
    (hk4 : k ≠ '=') :
    matchLit true "src=".data (seg ++ k :: tail) = none := by
  cases hm : matchLit true "src=".data (seg ++ k :: tail) with
  | none => rfl
  | some r =>
      exfalso
      obtain ⟨c1, c2, c3, heq, hp1, hp2, hp3⟩ := matchLit_src_inv _ _ hm
      cases seg with
      | nil => exact hne rfl
      | cons d1 s1 =>
          cases s1 with
          | nil =>
              injection heq with e1 heq
              injection heq with e2 heq
              rw [← e2] at hp2
              exact hk2 hp2
          | cons d2 s2 =>
              cases s2 with
              | nil =>
                  injection heq with e1 heq
                  injection heq with e2 heq
                  injection heq with e3 heq
                  rw [← e3] at hp3
                  exact hk3 hp3
              | cons d3 s3 =>
                  cases s3 with
                  | nil =>
                      injection heq with e1 heq
                      injection heq with e2 heq
                      injection heq with e3 heq
                      injection heq with e4 heq
                      exact hk4 e4
                  | cons d4 s4 =>
                      injection heq with e1 heq
                      injection heq with e2 heq
                      injection heq with e3 heq
                      injection heq with e4 heq
                      apply hseg
                      rw [← e4]
                      simp

theorem alt_fail_head (c : Char) (tail : List Char)
    (hc : ¬ 'a'.toLower = c.toLower) :
    matchLit true "alt=".data (c :: tail) = none := by
  cases hm : matchLit true "alt=".data (c :: tail) with
  | none => rfl
  | some r =>
      exfalso
      obtain ⟨c1, c2, c3, heq, hp1, hp2, hp3⟩ := matchLit_alt_inv _ _ hm
      injection heq with h1 _
      rw [← h1] at hp1
      exact hc hp1

theorem alt_fail_seg (seg : List Char) (k : Char) (tail : List Char)
    (hne : seg ≠ []) (hseg : '=' ∉ seg)
    (hk2 : ¬ 'l'.toLower = k.toLower) (hk3 : ¬ 't'.toLower = k.toLower)
    (hk4 : k ≠ '=') :
    matchLit true "alt=".data (seg ++ k :: tail) = none := by
  cases hm : matchLit true "alt=".data (seg ++ k :: tail) with
  | none => rfl
  | some r =>
      exfalso
      obtain ⟨c1, c2, c3, heq, hp1, hp2, hp3⟩ := matchLit_alt_inv _ _ hm
      cases seg with
      | nil => exact hne rfl
      | cons d1 s1 =>
          cases s1 with
          | nil =>
              injection heq with e1 heq
              injection heq with e2 heq
              rw [← e2] at hp2
              exact hk2 hp2
          | cons d2 s2 =>
              cases s2 with
              | nil =>
                  injection heq with e1 heq
                  injection heq with e2 heq
                  injection heq with e3 heq
                  rw [← e3] at hp3
                  exact hk3 hp3
              | cons d3 s3 =>
                  cases s3 with
                  | nil =>
                      injection heq with e1 heq
                      injection heq with e2 heq
                      injection heq with e3 heq
                      injection heq with e4 heq
                      exact hk4 e4
                  | cons d4 s4 =>
                      injection heq with e1 heq
                      injection heq with e2 heq
                      injection heq with e3 heq
                      injection heq with e4 heq
                      apply hseg
                      rw [← e4]
                      simp

theorem imgSrcTailTry_of_matchLit_none (cs : List Char)
    (h : matchLit true "src=".data cs = none) : imgSrcTailTry cs = none := by
  unfold imgSrcTailTry
  rw [h]

theorem imgSrcFullTry_of_matchLit_none (cs : List Char)
    (h : matchLit true "src=".data cs = none) : imgSrcFullTry cs = none := by
  unfold imgSrcFullTry
  rw [imgSrcTailTry_of_matchLit_none cs h]

theorem altTailTry_of_matchLit_none (cs : List Char)
    (h : matchLit true "alt=".data cs = none) : altTailTry cs = none := by
  unfold altTailTry
  rw [h]

theorem suffix_append_cases {α : Type} (t x y : List α) (h : t <:+ x ++ y) :
    t <:+ y ∨ ∃ x2, x2 <:+ x ∧ x2 ≠ [] ∧ t = x2 ++ y := by
  obtain ⟨p, hp⟩ := h
  rw [List.append_eq_append_iff] at hp
  rcases hp with ⟨a2, hx, ht⟩ | ⟨c2, hp2, hy⟩
  · cases a2 with
    | nil =>
        left
        rw [ht, List.nil_append]
    | cons b bs =>
        right
        exact ⟨b :: bs, ⟨p, hx.symm⟩, by simp, ht⟩
  · left
    exact ⟨c2, hy.symm⟩

theorem first_mem_split (l : List Char) (x : Char) (h : x ∈ l) :
    ∃ s t, l = s ++ x :: t ∧ x ∉ s := by
  induction l with
  | nil => cases h
  | cons c l2 ih =>
      by_cases hc : c = x
      · exact ⟨[], l2, by rw [hc, List.nil_append], by simp⟩
      · rcases List.mem_cons.mp h with h1 | h1
        · exact absurd h1.symm hc
        · obtain ⟨s, t, hst, hxs⟩ := ih h1
          refine ⟨c :: s, t, by rw [hst]; rfl, ?_⟩
          intro hm
          rcases List.mem_cons.mp hm with h2 | h2
          · exact hc h2.symm
          · exact hxs h2

theorem findSrcGreedy_gt (cs : List Char) :
    findSrcGreedy ('>' :: cs) = imgSrcFullTry ('>' :: cs) := by
  conv_lhs => unfold findSrcGreedy
  rw [if_pos rfl]

theorem findSrcGreedy_ne_none (c : Char) (cs : List Char) (hc : ¬ c = '>')
    (h : findSrcGreedy cs = none) :
    findSrcGreedy (c :: cs) = imgSrcFullTry (c :: cs) := by
  conv_lhs => unfold findSrcGreedy
  rw [if_neg hc, h]

theorem findSrcGreedy_ne_some (c : Char) (cs r1 : List Char) (r2 : List Char)
    (hc : ¬ c = '>') (h : findSrcGreedy cs = some (r1, r2)) :
    findSrcGreedy (c :: cs) = some (r1, r2) := by
  conv_lhs => unfold findSrcGreedy
  rw [if_neg hc, h]

theorem findSrcGreedy_zone : ∀ (z w : List Char), '>' ∉ z →
    (∀ z2, z2 <:+ z → imgSrcFullTry (z2 ++ '>' :: w) = none) →
    findSrcGreedy (z ++ '>' :: w) = none := by
  intro z
  induction z with
  | nil =>
      intro w _ h
      rw [List.nil_append, findSrcGreedy_gt]
      exact h [] List.nil_suffix
  | cons c z2 ih =>
      intro w hz h
      have hc : ¬ c = '>' := by
        intro he
        subst he
        exact hz (List.mem_cons_self _ _)
      rw [List.cons_append]
      rw [findSrcGreedy_ne_none c _ hc
        (ih w (fun hm => hz (List.mem_cons_of_mem c hm))
          (fun z3 h3 => h z3 (h3.trans (List.suffix_cons c z2))))]
      exact h (c :: z2) (List.suffix_refl _)

theorem searchAlt_cons_none (c : Char) (cs : List Char)
    (h : altTailTry (c :: cs) = none) : searchAlt (c :: cs) = searchAlt cs := by
  conv_lhs => unfold searchAlt
  rw [h]

theorem searchAlt_cons_some (c : Char) (cs r : List Char)
    (h : altTailTry (c :: cs) = some r) : searchAlt (c :: cs) = some r := by
  conv_lhs => unfold searchAlt
  rw [h]

theorem searchAlt_skip : ∀ (x y : List Char),
    (∀ x2, x2 <:+ x → x2 ≠ [] → altTailTry (x2 ++ y) = none) →
    searchAlt (x ++ y) = searchAlt y := by
  intro x
  induction x with
  | nil => intro y _; rw [List.nil_append]
  | cons c x2 ih =>
      intro y h
      rw [List.cons_append]
      rw [searchAlt_cons_none c _ ?hfail]
      case hfail =>
        have h2 := h (c :: x2) (List.suffix_refl _) (by simp)
        rwa [List.cons_append] at h2
      exact ih y (fun x3 h3 hne => h x3 (h3.trans (List.suffix_cons c x2)) hne)

theorem takeWhile_all_append (p : Char → Bool) (l : List Char) (q : Char)
    (r : List Char) (hl : ∀ c ∈ l, p c = true) (hq : p q = false) :
    (l ++ q :: r).takeWhile p = l := by
  induction l with
  | nil =>
      rw [List.nil_append, List.takeWhile_cons, hq]
      rfl
  | cons c l2 ih =>
      rw [List.cons_append, List.takeWhile_cons, hl c (List.mem_cons_self _ _)]
      rw [if_pos rfl]
      rw [ih (fun d hd => hl d (List.mem_cons_of_mem c hd))]

theorem dropWhile_all_append (p : Char → Bool) (l : List Char) (q : Char)
    (r : List Char) (hl : ∀ c ∈ l, p c = true) (hq : p q = false) :
    (l ++ q :: r).dropWhile p = q :: r := by
  induction l with
  | nil =>
      rw [List.nil_append, List.dropWhile_cons, hq]
      rfl
  | cons c l2 ih =>
      rw [List.cons_append, List.dropWhile_cons, hl c (List.mem_cons_self _ _)]
      rw [if_pos rfl]
      exact ih (fun d hd => hl d (List.mem_cons_of_mem c hd))

theorem dropThrough_eval (x w : List Char) (hx : '>' ∉ x) :
    dropThrough (x ++ '>' :: w) = some w := by
  have hall : ∀ c ∈ x, decide (¬ c = '>') = true := by
    intro c hc
    have hcne : ¬ c = '>' := by
      intro he
      subst he
      exact hx hc
    simp [hcne]
  unfold dropThrough
  rw [dropWhile_all_append _ x '>' w hall (by simp)]
  rfl

theorem matchLit_src_run (R : List Char) :
    matchLit true ['s', 'r', 'c', '='] ('s' :: 'r' :: 'c' :: '=' :: R) = some R := rfl

theorem matchLit_alt_run (R : List Char) :
    matchLit true ['a', 'l', 't', '='] ('a' :: 'l' :: 't' :: '=' :: R) = some R := rfl

theorem matchLit_img_run (R : List Char) :
    matchLit true ['i', 'm', 'g'] ('i' :: 'm' :: 'g' :: R) = some R := rfl

theorem boundaryOK_space (X : List Char) : boundaryOK (' ' :: X) = true := rfl

theorem take_append_cancel {α : Type} (x w : List α) :
    (x ++ w).take ((x ++ w).length - w.length) = x := by
  rw [List.length_append]
  have h : x.length + w.length - w.length = x.length := by omega
  rw [h]
  exact List.take_left _ _

theorem imgSrcTailTry_eval (d0 : Char) (u0 T4 : List Char)
    (huq : ∀ c ∈ d0 :: u0, isQuote c = false) :
    imgSrcTailTry ('s' :: 'r' :: 'c' :: '=' :: '"' :: ((d0 :: u0) ++ '"' :: T4)) =
      some (d0 :: u0, T4) := by
  have htw : ((d0 :: u0) ++ '"' :: T4).takeWhile (fun c => !isQuote c) = d0 :: u0 := by
    refine takeWhile_all_append _ _ _ _ ?_ (by decide)
    intro c hc
    simp [huq c hc]
  have hdr : ((d0 :: u0) ++ '"' :: T4).drop (d0 :: u0).length = '"' :: T4 :=
    List.drop_left _ _
  have hqt : isQuote '"' = true := by decide
  simp only [imgSrcTailTry, matchLit_src_run, htw, hdr, hqt, if_true]

theorem imgSrcFullTry_eval (d0 : Char) (u0 x w : List Char)
    (huq : ∀ c ∈ d0 :: u0, isQuote c = false)
    (hx : '>' ∉ x) :
    imgSrcFullTry ('s' :: 'r' :: 'c' :: '=' :: '"' ::
        ((d0 :: u0) ++ '"' :: (x ++ '>' :: w))) =
      some (d0 :: u0, w) := by
  simp only [imgSrcFullTry, imgSrcTailTry_eval d0 u0 (x ++ '>' :: w) huq,
    dropThrough_eval x w hx]

theorem altTailTry_eval (a : List Char) (haq : ∀ c ∈ a, isQuote c = false) :
    altTailTry ('a' :: 'l' :: 't' :: '=' :: '"' :: (a ++ '"' :: ['>'])) = some a := by
  have htw : (a ++ '"' :: ['>']).takeWhile (fun c => !isQuote c) = a := by
    refine takeWhile_all_append _ _ _ _ ?_ (by decide)
    intro c hc
    simp [haq c hc]
  have hdr : (a ++ '"' :: ['>']).drop a.length = '"' :: ['>'] :=
    List.drop_left _ _
  have hqt : isQuote '"' = true := by decide
  simp only [altTailTry, matchLit_alt_run, htw, hdr, hqt, if_true]

theorem src_zone_case1 (u a w : List Char)
    (hu_eq : '=' ∉ u) (ha_eq : '=' ∉ a) :
    ∀ z2, z2 <:+ ('r' :: 'c' :: '=' :: '"' ::
        (u ++ '"' :: ' ' :: 'a' :: 'l' :: 't' :: '=' :: '"' :: (a ++ ['"']))) →
      imgSrcFullTry (z2 ++ '>' :: w) = none := by
  intro z2 hz2
  apply imgSrcFullTry_of_matchLit_none
  rcases List.suffix_cons_iff.mp hz2 with he | hz2
  · rw [he, List.cons_append]
    exact src_fail_head _ _ (by decide)
  rcases List.suffix_cons_iff.mp hz2 with he | hz2
  · rw [he, List.cons_append]
    exact src_fail_head _ _ (by decide)
  rcases List.suffix_cons_iff.mp hz2 with he | hz2
  · rw [he, List.cons_append]
    exact src_fail_head _ _ (by decide)
  rcases List.suffix_cons_iff.mp hz2 with he | hz2
  · rw [he, List.cons_append]
    exact src_fail_head _ _ (by decide)
  rcases suffix_append_cases _ _ _ hz2 with hz2 | ⟨u2, hu2, hne, he⟩
  rotate_left
  · rw [he, List.append_assoc, List.cons_append]
    refine src_fail_seg u2 '"' _ hne ?_ (by decide) (by decide) (by decide)
    exact fun hm => hu_eq (hu2.subset hm)
  rcases List.suffix_cons_iff.mp hz2 with he | hz2
  · rw [he, List.cons_append]
    exact src_fail_head _ _ (by decide)
  rcases List.suffix_cons_iff.mp hz2 with he | hz2
  · rw [he, List.cons_append]
    exact src_fail_head _ _ (by decide)
  rcases List.suffix_cons_iff.mp hz2 with he | hz2
  · rw [he, List.cons_append]
    exact src_fail_head _ _ (by decide)
  rcases List.suffix_cons_iff.mp hz2 with he | hz2
  · rw [he, List.cons_append]
    exact src_fail_head _ _ (by decide)
  rcases List.suffix_cons_iff.mp hz2 with he | hz2
  · rw [he, List.cons_append]
    exact src_fail_head _ _ (by decide)
  rcases List.suffix_cons_iff.mp hz2 with he | hz2
  · rw [he, List.cons_append]
    exact src_fail_head _ _ (by decide)
  rcases List.suffix_cons_iff.mp hz2 with he | hz2
  · rw [he, List.cons_append]
    exact src_fail_head _ _ (by decide)
  rcases suffix_append_cases _ _ _ hz2 with hz2 | ⟨a2, ha2, hne, he⟩
  rotate_left
  · rw [he, List.append_assoc, List.cons_append, List.nil_append]
    refine src_fail_seg a2 '"' _ hne ?_ (by decide) (by decide) (by decide)
    exact fun hm => ha_eq (ha2.subset hm)
  rcases List.suffix_cons_iff.mp hz2 with he | hz2
  · rw [he, List.cons_append]
    exact src_fail_head _ _ (by decide)
  rw [List.suffix_nil.mp hz2, List.nil_append]
  exact src_fail_head _ _ (by decide)

theorem src_zone_case1N (u w : List Char) (hu_eq : '=' ∉ u) :
    ∀ z2, z2 <:+ ('r' :: 'c' :: '=' :: '"' :: (u ++ ['"'])) →
      imgSrcFullTry (z2 ++ '>' :: w) = none := by
  intro z2 hz2
  apply imgSrcFullTry_of_matchLit_none
  rcases List.suffix_cons_iff.mp hz2 with he | hz2
  · rw [he, List.cons_append]
    exact src_fail_head _ _ (by decide)
  rcases List.suffix_cons_iff.mp hz2 with he | hz2
  · rw [he, List.cons_append]
    exact src_fail_head _ _ (by decide)
  rcases List.suffix_cons_iff.mp hz2 with he | hz2
  · rw [he, List.cons_append]
    exact src_fail_head _ _ (by decide)
  rcases List.suffix_cons_iff.mp hz2 with he | hz2
  · rw [he, List.cons_append]
    exact src_fail_head _ _ (by decide)
  rcases suffix_append_cases _ _ _ hz2 with hz2 | ⟨u2, hu2, hne, he⟩
  rotate_left
  · rw [he, List.append_assoc, List.cons_append, List.nil_append]
    refine src_fail_seg u2 '"' _ hne ?_ (by decide) (by decide) (by decide)
    exact fun hm => hu_eq (hu2.subset hm)
  rcases List.suffix_cons_iff.mp hz2 with he | hz2
  · rw [he, List.cons_append]
    exact src_fail_head _ _ (by decide)
  rw [List.suffix_nil.mp hz2, List.nil_append]
  exact src_fail_head _ _ (by decide)

theorem src_zone_case2 (u1 w1 : List Char) (hu_eq : '=' ∉ u1) :
    ∀ z2, z2 <:+ ('r' :: 'c' :: '=' :: '"' :: u1) →
      imgSrcFullTry (z2 ++ '>' :: w1) = none := by
  intro z2 hz2
  apply imgSrcFullTry_of_matchLit_none
  rcases List.suffix_cons_iff.mp hz2 with he | hz2
  · rw [he, List.cons_append]
    exact src_fail_head _ _ (by decide)
  rcases List.suffix_cons_iff.mp hz2 with he | hz2
  · rw [he, List.cons_append]
    exact src_fail_head _ _ (by decide)
  rcases List.suffix_cons_iff.mp hz2 with he | hz2
  · rw [he, List.cons_append]
    exact src_fail_head _ _ (by decide)
  rcases List.suffix_cons_iff.mp hz2 with he | hz2
  · rw [he, List.cons_append]
    exact src_fail_head _ _ (by decide)
  cases hze : z2 with
  | nil =>
      rw [List.nil_append]
      exact src_fail_head _ _ (by decide)
  | cons d1 z3 =>
      rw [List.cons_append]
      have hseg : '=' ∉ d1 :: z3 := by
        intro hm
        apply hu_eq
        rw [hze] at hz2
        exact hz2.subset hm
      have h2 := src_fail_seg (d1 :: z3) '>' w1 (by simp) hseg
        (by decide) (by decide) (by decide)
      rwa [List.cons_append] at h2

theorem alt_skip_bash (u y : List Char) (hu_eq : '=' ∉ u) :
    ∀ x2, x2 <:+ ('<' :: 'i' :: 'm' :: 'g' :: ' ' :: 's' :: 'r' :: 'c' :: '=' :: '"' ::
        (u ++ ['"', ' '])) → x2 ≠ [] → altTailTry (x2 ++ y) = none := by
  intro x2 hx2 hne2
  apply altTailTry_of_matchLit_none
  rcases List.suffix_cons_iff.mp hx2 with he | hx2
  · rw [he, List.cons_append]
    exact alt_fail_head _ _ (by decide)
  rcases List.suffix_cons_iff.mp hx2 with he | hx2
  · rw [he, List.cons_append]
    exact alt_fail_head _ _ (by decide)
  rcases List.suffix_cons_iff.mp hx2 with he | hx2
  · rw [he, List.cons_append]
    exact alt_fail_head _ _ (by decide)
  rcases List.suffix_cons_iff.mp hx2 with he | hx2
  · rw [he, List.cons_append]
    exact alt_fail_head _ _ (by decide)
  rcases List.suffix_cons_iff.mp hx2 with he | hx2
  · rw [he, List.cons_append]
    exact alt_fail_head _ _ (by decide)
  rcases List.suffix_cons_iff.mp hx2 with he | hx2
  · rw [he, List.cons_append]
    exact alt_fail_head _ _ (by decide)
  rcases List.suffix_cons_iff.mp hx2 with he | hx2
  · rw [he, List.cons_append]
    exact alt_fail_head _ _ (by decide)
  rcases List.suffix_cons_iff.mp hx2 with he | hx2
  · rw [he, List.cons_append]
    exact alt_fail_head _ _ (by decide)
  rcases List.suffix_cons_iff.mp hx2 with he | hx2
  · rw [he, List.cons_append]
    exact alt_fail_head _ _ (by decide)
  rcases List.suffix_cons_iff.mp hx2 with he | hx2
  · rw [he, List.cons_append]
    exact alt_fail_head _ _ (by decide)
  rcases suffix_append_cases _ _ _ hx2 with hx2 | ⟨u2, hu2, hne, he⟩
  rotate_left
  · rw [he, List.append_assoc, List.cons_append]
    refine alt_fail_seg u2 '"' _ hne ?_ (by decide) (by decide) (by decide)
    exact fun hm => hu_eq (hu2.subset hm)
  rcases List.suffix_cons_iff.mp hx2 with he | hx2
  · rw [he, List.cons_append]
    exact alt_fail_head _ _ (by decide)
  rcases List.suffix_cons_iff.mp hx2 with he | hx2
  · rw [he, List.cons_append]
    exact alt_fail_head _ _ (by decide)
  exact absurd (List.suffix_nil.mp hx2) hne2

theorem alt_full_bashN (u : List Char) (hu_eq : '=' ∉ u) :
    ∀ t, t <:+ ('<' :: 'i' :: 'm' :: 'g' :: ' ' :: 's' :: 'r' :: 'c' :: '=' :: '"' ::
        (u ++ ['"', '>'])) → t ≠ [] → altTailTry t = none := by
  intro t ht hnet
  apply altTailTry_of_matchLit_none
  rcases List.suffix_cons_iff.mp ht with he | ht
  · rw [he]
    exact alt_fail_head _ _ (by decide)
  rcases List.suffix_cons_iff.mp ht with he | ht
  · rw [he]
    exact alt_fail_head _ _ (by decide)
  rcases List.suffix_cons_iff.mp ht with he | ht
  · rw [he]
    exact alt_fail_head _ _ (by decide)
  rcases List.suffix_cons_iff.mp ht with he | ht
  · rw [he]
    exact alt_fail_head _ _ (by decide)
  rcases List.suffix_cons_iff.mp ht with he | ht
  · rw [he]
    exact alt_fail_head _ _ (by decide)
  rcases List.suffix_cons_iff.mp ht with he | ht
  · rw [he]
    exact alt_fail_head _ _ (by decide)
  rcases List.suffix_cons_iff.mp ht with he | ht
  · rw [he]
    exact alt_fail_head _ _ (by decide)
  rcases List.suffix_cons_iff.mp ht with he | ht
  · rw [he]
    exact alt_fail_head _ _ (by decide)
  rcases List.suffix_cons_iff.mp ht with he | ht
  · rw [he]
    exact alt_fail_head _ _ (by decide)
  rcases List.suffix_cons_iff.mp ht with he | ht
  · rw [he]
    exact alt_fail_head _ _ (by decide)
  rcases suffix_append_cases _ _ _ ht with ht | ⟨u2, hu2, hne, he⟩
  rotate_left
  · rw [he]
    refine alt_fail_seg u2 '"' _ hne ?_ (by decide) (by decide) (by decide)
    exact fun hm => hu_eq (hu2.subset hm)
  rcases List.suffix_cons_iff.mp ht with he | ht
  · rw [he]
    exact alt_fail_head _ _ (by decide)
  rcases List.suffix_cons_iff.mp ht with he | ht
  · rw [he]
    exact alt_fail_head _ _ (by decide)
  exact absurd (List.suffix_nil.mp ht) hnet

theorem searchAlt_none : ∀ (cs : List Char),
    (∀ t, t <:+ cs → t ≠ [] → altTailTry t = none) → searchAlt cs = none := by
  intro cs
  induction cs with
  | nil => intro _; rfl
  | cons c cs2 ih =>
      intro h
      rw [searchAlt_cons_none c cs2 (h (c :: cs2) (List.suffix_refl _) (by simp))]
      exact ih (fun t ht hne => h t (ht.trans (List.suffix_cons c cs2)) hne)

/-- The document text of one image tag carrying both a quoted `src` and a
quoted `alt` attribute. -/
def imgTagA (u a : List Char) : List Char :=
  '<' :: 'i' :: 'm' :: 'g' :: ' ' :: 's' :: 'r' :: 'c' :: '=' :: '"' ::
    (u ++ '"' :: ' ' :: 'a' :: 'l' :: 't' :: '=' :: '"' :: (a ++ ['"', '>']))

/-- The document text of one image tag carrying a quoted `src` and no
`alt` attribute. -/
def imgTagN (u : List Char) : List Char :=
  '<' :: 'i' :: 'm' :: 'g' :: ' ' :: 's' :: 'r' :: 'c' :: '=' :: '"' ::
    (u ++ ['"', '>'])

theorem searchAlt_tagA (u a : List Char) (hu_eq : '=' ∉ u)
    (haq : ∀ c ∈ a, isQuote c = false) :
    searchAlt (imgTagA u a) = some a := by
  have hshape : imgTagA u a =
      ('<' :: 'i' :: 'm' :: 'g' :: ' ' :: 's' :: 'r' :: 'c' :: '=' :: '"' ::
        (u ++ ['"', ' '])) ++
      ('a' :: 'l' :: 't' :: '=' :: '"' :: (a ++ ['"', '>'])) := by
    simp [imgTagA]
  rw [hshape, searchAlt_skip _ _ (alt_skip_bash u _ hu_eq)]
  exact searchAlt_cons_some _ _ a (altTailTry_eval a haq)

theorem searchAlt_tagN (u : List Char) (hu_eq : '=' ∉ u) :
    searchAlt (imgTagN u) = none := by
  apply searchAlt_none
  intro t ht hnet
  exact alt_full_bashN u hu_eq t ht hnet

theorem findSrcGreedy_evalA (d0 : Char) (u0 a w : List Char)
    (huq : ∀ c ∈ d0 :: u0, isQuote c = false) (hu_eq : '=' ∉ d0 :: u0)
    (haq : ∀ c ∈ a, isQuote c = false) (ha_eq : '=' ∉ a) (hag : '>' ∉ a) :
    findSrcGreedy (' ' :: 's' :: 'r' :: 'c' :: '=' :: '"' ::
        ((d0 :: u0) ++ '"' :: ' ' :: 'a' :: 'l' :: 't' :: '=' :: '"' ::
          (a ++ '"' :: '>' :: w))) =
      some (d0 :: u0, w) := by
  have hfull : imgSrcFullTry ('s' :: 'r' :: 'c' :: '=' :: '"' ::
      ((d0 :: u0) ++ '"' :: ' ' :: 'a' :: 'l' :: 't' :: '=' :: '"' ::
        (a ++ '"' :: '>' :: w))) = some (d0 :: u0, w) := by
    have hx : (' ' :: 'a' :: 'l' :: 't' :: '=' :: '"' :: (a ++ ['"'])) ++ '>' :: w =
        ' ' :: 'a' :: 'l' :: 't' :: '=' :: '"' :: (a ++ '"' :: '>' :: w) := by
      simp
    rw [← hx]
    refine imgSrcFullTry_eval d0 u0 _ w huq ?_
    intro hm
    rcases List.mem_cons.mp hm with h | hm
    · exact absurd h (by decide)
    rcases List.mem_cons.mp hm with h | hm
    · exact absurd h (by decide)
    rcases List.mem_cons.mp hm with h | hm
    · exact absurd h (by decide)
    rcases List.mem_cons.mp hm with h | hm
    · exact absurd h (by decide)
    rcases List.mem_cons.mp hm with h | hm
    · exact absurd h (by decide)
    rcases List.mem_cons.mp hm with h | hm
    · exact absurd h (by decide)
    rcases List.mem_append.mp hm with hm | hm
    · exact hag hm
    exact absurd hm (by decide)
  have hz1 : findSrcGreedy ('r' :: 'c' :: '=' :: '"' ::
      ((d0 :: u0) ++ '"' :: ' ' :: 'a' :: 'l' :: 't' :: '=' :: '"' ::
        (a ++ '"' :: '>' :: w))) = none := by
    by_cases hgu : '>' ∈ d0 :: u0
    · obtain ⟨u1, u2, hsplit, hu1⟩ := first_mem_split _ '>' hgu
      have hsh : 'r' :: 'c' :: '=' :: '"' ::
          ((d0 :: u0) ++ '"' :: ' ' :: 'a' :: 'l' :: 't' :: '=' :: '"' ::
            (a ++ '"' :: '>' :: w)) =
          ('r' :: 'c' :: '=' :: '"' :: u1) ++ '>' ::
            (u2 ++ '"' :: ' ' :: 'a' :: 'l' :: 't' :: '=' :: '"' ::
              (a ++ '"' :: '>' :: w)) := by
        rw [hsplit]
        simp
      rw [hsh]
      refine findSrcGreedy_zone _ _ ?_ (src_zone_case2 u1 _ ?_)
      · intro hm
        rcases List.mem_cons.mp hm with h | hm
        · exact absurd h (by decide)
        rcases List.mem_cons.mp hm with h | hm
        · exact absurd h (by decide)
        rcases List.mem_cons.mp hm with h | hm
        · exact absurd h (by decide)
        rcases List.mem_cons.mp hm with h | hm
        · exact absurd h (by decide)
        exact hu1 hm
      · intro hm
        apply hu_eq
        rw [hsplit]
        exact List.mem_append.mpr (Or.inl hm)
    · have hsh : 'r' :: 'c' :: '=' :: '"' ::
          ((d0 :: u0) ++ '"' :: ' ' :: 'a' :: 'l' :: 't' :: '=' :: '"' ::
            (a ++ '"' :: '>' :: w)) =
          ('r' :: 'c' :: '=' :: '"' ::
            ((d0 :: u0) ++ '"' :: ' ' :: 'a' :: 'l' :: 't' :: '=' :: '"' ::
              (a ++ ['"']))) ++ '>' :: w := by
        simp
      rw [hsh]
      refine findSrcGreedy_zone _ _ ?_ (src_zone_case1 (d0 :: u0) a w hu_eq ha_eq)
      intro hm
      rcases List.mem_cons.mp hm with h | hm
      · exact absurd h (by decide)
      rcases List.mem_cons.mp hm with h | hm
      · exact absurd h (by decide)
      rcases List.mem_cons.mp hm with h | hm
      · exact absurd h (by decide)
      rcases List.mem_cons.mp hm with h | hm
      · exact absurd h (by decide)
      rcases List.mem_append.mp hm with hm | hm
      · exact hgu hm
      rcases List.mem_cons.mp hm with h | hm
      · exact absurd h (by decide)
      rcases List.mem_cons.mp hm with h | hm
      · exact absurd h (by decide)
      rcases List.mem_cons.mp hm with h | hm
      · exact absurd h (by decide)
      rcases List.mem_cons.mp hm with h | hm
      · exact absurd h (by decide)
      rcases List.mem_cons.mp hm with h | hm
      · exact absurd h (by decide)
      rcases List.mem_cons.mp hm with h | hm
      · exact absurd h (by decide)
      rcases List.mem_cons.mp hm with h | hm
      · exact absurd h (by decide)
      rcases List.mem_append.mp hm with hm | hm
      · exact hag hm
      exact absurd hm (by decide)
  have h2 : findSrcGreedy ('s' :: 'r' :: 'c' :: '=' :: '"' ::
      ((d0 :: u0) ++ '"' :: ' ' :: 'a' :: 'l' :: 't' :: '=' :: '"' ::
        (a ++ '"' :: '>' :: w))) = some (d0 :: u0, w) := by
    rw [findSrcGreedy_ne_none 's' _ (by decide) hz1]
    exact hfull
  exact findSrcGreedy_ne_some ' ' _ _ _ (by decide) h2

theorem findSrcGreedy_evalN (d0 : Char) (u0 w : List Char)
    (huq : ∀ c ∈ d0 :: u0, isQuote c = false) (hu_eq : '=' ∉ d0 :: u0) :
    findSrcGreedy (' ' :: 's' :: 'r' :: 'c' :: '=' :: '"' ::
        ((d0 :: u0) ++ '"' :: '>' :: w)) =
      some (d0 :: u0, w) := by
  have hfull : imgSrcFullTry ('s' :: 'r' :: 'c' :: '=' :: '"' ::
      ((d0 :: u0) ++ '"' :: '>' :: w)) = some (d0 :: u0, w) := by
    have h0 := imgSrcFullTry_eval d0 u0 [] w huq (by simp)
    rwa [List.nil_append] at h0
  have hz1 : findSrcGreedy ('r' :: 'c' :: '=' :: '"' ::
      ((d0 :: u0) ++ '"' :: '>' :: w)) = none := by
    by_cases hgu : '>' ∈ d0 :: u0
    · obtain ⟨u1, u2, hsplit, hu1⟩ := first_mem_split _ '>' hgu
      have hsh : 'r' :: 'c' :: '=' :: '"' :: ((d0 :: u0) ++ '"' :: '>' :: w) =
          ('r' :: 'c' :: '=' :: '"' :: u1) ++ '>' ::
            (u2 ++ '"' :: '>' :: w) := by
        rw [hsplit]
        simp
      rw [hsh]
      refine findSrcGreedy_zone _ _ ?_ (src_zone_case2 u1 _ ?_)
      · intro hm
        rcases List.mem_cons.mp hm with h | hm
        · exact absurd h (by decide)
        rcases List.mem_cons.mp hm with h | hm
        · exact absurd h (by decide)
        rcases List.mem_cons.mp hm with h | hm
        · exact absurd h (by decide)
        rcases List.mem_cons.mp hm with h | hm
        · exact absurd h (by decide)
        exact hu1 hm
      · intro hm
        apply hu_eq
        rw [hsplit]
        exact List.mem_append.mpr (Or.inl hm)
    · have hsh : 'r' :: 'c' :: '=' :: '"' :: ((d0 :: u0) ++ '"' :: '>' :: w) =
          ('r' :: 'c' :: '=' :: '"' :: ((d0 :: u0) ++ ['"'])) ++ '>' :: w := by
        simp
      rw [hsh]
      refine findSrcGreedy_zone _ _ ?_ (src_zone_case1N (d0 :: u0) w hu_eq)
      intro hm
      rcases List.mem_cons.mp hm with h | hm
      · exact absurd h (by decide)
      rcases List.mem_cons.mp hm with h | hm
      · exact absurd h (by decide)
      rcases List.mem_cons.mp hm with h | hm
      · exact absurd h (by decide)
      rcases List.mem_cons.mp hm with h | hm
      · exact absurd h (by decide)
      rcases List.mem_append.mp hm with hm | hm
      · exact hgu hm
      exact absurd hm (by decide)
  have h2 : findSrcGreedy ('s' :: 'r' :: 'c' :: '=' :: '"' ::
      ((d0 :: u0) ++ '"' :: '>' :: w)) = some (d0 :: u0, w) := by
    rw [findSrcGreedy_ne_none 's' _ (by decide) hz1]
    exact hfull
  exact findSrcGreedy_ne_some ' ' _ _ _ (by decide) h2

theorem imgMatchAt_evalA (d0 : Char) (u0 a w : List Char)
    (huq : ∀ c ∈ d0 :: u0, isQuote c = false) (hu_eq : '=' ∉ d0 :: u0)
    (haq : ∀ c ∈ a, isQuote c = false) (ha_eq : '=' ∉ a) (hag : '>' ∉ a) :
    imgMatchAt (imgTagA (d0 :: u0) a ++ w) = some (d0 :: u0, some a, w) := by
  have hcs : imgTagA (d0 :: u0) a ++ w =
      '<' :: 'i' :: 'm' :: 'g' :: (' ' :: 's' :: 'r' :: 'c' :: '=' :: '"' ::
        ((d0 :: u0) ++ '"' :: ' ' :: 'a' :: 'l' :: 't' :: '=' :: '"' ::
          (a ++ '"' :: '>' :: w))) := by
    simp [imgTagA]
  rw [hcs]
  simp only [imgMatchAt, matchLit_img_run, boundaryOK_space, if_true,
    findSrcGreedy_evalA d0 u0 a w huq hu_eq haq ha_eq hag]
  rw [← hcs, take_append_cancel]
  rw [searchAlt_tagA (d0 :: u0) a hu_eq haq]

theorem imgMatchAt_evalN (d0 : Char) (u0 w : List Char)
    (huq : ∀ c ∈ d0 :: u0, isQuote c = false) (hu_eq : '=' ∉ d0 :: u0) :
    imgMatchAt (imgTagN (d0 :: u0) ++ w) = some (d0 :: u0, none, w) := by
  have hcs : imgTagN (d0 :: u0) ++ w =
      '<' :: 'i' :: 'm' :: 'g' :: (' ' :: 's' :: 'r' :: 'c' :: '=' :: '"' ::
        ((d0 :: u0) ++ '"' :: '>' :: w)) := by
    simp [imgTagN]
  rw [hcs]
  simp only [imgMatchAt, matchLit_img_run, boundaryOK_space, if_true,
    findSrcGreedy_evalN d0 u0 w huq hu_eq]
  rw [← hcs, take_append_cancel]
  rw [searchAlt_tagN (d0 :: u0) hu_eq]

theorem extractGo_cons_ne (f : Nat) (c : Char) (cs : List Char) (hc : ¬ c = '<') :
    extractGo (f + 1) (c :: cs) = extractGo f cs := by
  conv_lhs => unfold extractGo
  rw [if_neg hc]

theorem extractGo_hit (f : Nat) (cs : List Char) (url : List Char)
    (alt : Option (List Char)) (rest : List Char)
    (h : imgMatchAt ('<' :: cs) = some (url, alt, rest)) :
    extractGo (f + 1) ('<' :: cs) = mkImageEntry url alt :: extractGo f rest := by
  conv_lhs => unfold extractGo
  rw [if_pos rfl]
  simp only [h]

theorem extractGo_no_lt : ∀ (fuel : Nat) (cs : List Char), '<' ∉ cs →
    extractGo fuel cs = [] := by
  intro fuel
  induction fuel with
  | zero => intro cs _; rfl
  | succ n ih =>
      intro cs h
      cases cs with
      | nil => rfl
      | cons c cs2 =>
          have hc : ¬ c = '<' := by
            intro he
            subst he
            exact h (List.mem_cons_self _ _)
          rw [extractGo_cons_ne n c cs2 hc]
          exact ih cs2 (fun hm => h (List.mem_cons_of_mem c hm))

theorem extractGo_skip : ∀ (sep : List Char), '<' ∉ sep →
    ∀ (f : Nat) (X : List Char),
      extractGo (sep.length + f) (sep ++ X) = extractGo f X := by
  intro sep
  induction sep with
  | nil =>
      intro _ f X
      rw [List.length_nil, Nat.zero_add, List.nil_append]
  | cons c s2 ih =>
      intro h f X
      have hc : ¬ c = '<' := by
        intro he
        subst he
        exact h (List.mem_cons_self _ _)
      have hlen : (c :: s2).length + f = (s2.length + f) + 1 := by
        rw [List.length_cons]
        omega
      rw [hlen, List.cons_append, extractGo_cons_ne _ c _ hc]
      exact ih (fun hm => h (List.mem_cons_of_mem c hm)) f X

/-- The tag text of one structured image item: `src` always present,
`alt` optional. -/
def imgItemTag (it : List Char × List Char × Option (List Char)) : List Char :=
  match it.2.2 with
  | some a => imgTagA it.2.1 a
  | none => imgTagN it.2.1

/-- A document made of separator text before each image tag. -/
def imgDocGo : List (List Char × List Char × Option (List Char)) → List Char
  | [] => []
  | it :: items => it.1 ++ (imgItemTag it ++ imgDocGo items)

/-- A structured document: image items followed by trailing text. -/
def imgDoc (items : List (List Char × List Char × Option (List Char)))
    (trailer : List Char) : List Char :=
  imgDocGo items ++ trailer

theorem extractGo_imgDoc :
    ∀ (items : List (List Char × List Char × Option (List Char)))
      (trailer : List Char),
      (∀ it ∈ items, '<' ∉ it.1) →
      (∀ it ∈ items, it.2.1 ≠ [] ∧ ∀ c ∈ it.2.1, isQuote c = false ∧ c ≠ '=') →
      (∀ it ∈ items,
        match it.2.2 with
        | some a => ∀ c ∈ a, isQuote c = false ∧ c ≠ '=' ∧ c ≠ '>'
        | none => True) →
      '<' ∉ trailer →
      ∀ fuel, (imgDoc items trailer).length ≤ fuel →
      extractGo fuel (imgDoc items trailer) =
        items.map (fun it => mkImageEntry it.2.1 it.2.2) := by
  intro items
  induction items with
  | nil =>
      intro trailer _ _ _ htr fuel _
      simp only [imgDoc, imgDocGo, List.nil_append, List.map_nil]
      exact extractGo_no_lt fuel trailer htr
  | cons it items ih =>
      intro trailer hsep hurl halt htr fuel hf
      obtain ⟨sep, u, altO⟩ := it
      have hsep1 : '<' ∉ sep := hsep _ (List.mem_cons_self _ _)
      obtain ⟨hune, huc⟩ := hurl _ (List.mem_cons_self _ _)
      have halt1 := halt _ (List.mem_cons_self _ _)
      obtain ⟨d0, u0, hu⟩ : ∃ d0 u0, u = d0 :: u0 := by
        cases u with
        | nil => exact absurd rfl hune
        | cons d0 u0 => exact ⟨d0, u0, rfl⟩
      subst hu
      have huq : ∀ c ∈ d0 :: u0, isQuote c = false := fun c hc => (huc c hc).1
      have hu_eq : '=' ∉ d0 :: u0 := fun hm => (huc '=' hm).2 rfl
      have hihsep := fun it2 h2 => hsep it2 (List.mem_cons_of_mem _ h2)
      have hihurl := fun it2 h2 => hurl it2 (List.mem_cons_of_mem _ h2)
      have hihalt := fun it2 h2 => halt it2 (List.mem_cons_of_mem _ h2)
      cases altO with
      | some a =>
          have haP : ∀ c ∈ a, isQuote c = false ∧ c ≠ '=' ∧ c ≠ '>' := halt1
          have haq : ∀ c ∈ a, isQuote c = false := fun c hc => (haP c hc).1
          have ha_eq : '=' ∉ a := fun hm => (haP '=' hm).2.1 rfl
          have hag : '>' ∉ a := fun hm => (haP '>' hm).2.2 rfl
          have hdoc : imgDoc ((sep, d0 :: u0, some a) :: items) trailer =
              sep ++ (imgTagA (d0 :: u0) a ++ imgDoc items trailer) := by
            simp [imgDoc, imgDocGo, imgItemTag]
          rw [hdoc] at hf ⊢
          rw [List.length_append, List.length_append] at hf
          have hlt : 0 < (imgTagA (d0 :: u0) a).length := by
            simp [imgTagA]
          have hfe : fuel = sep.length + ((fuel - sep.length - 1) + 1) := by omega
          rw [hfe, extractGo_skip sep hsep1 _ _]
          have hm := imgMatchAt_evalA d0 u0 a (imgDoc items trailer)
            huq hu_eq haq ha_eq hag
          have hcs2 : imgTagA (d0 :: u0) a ++ imgDoc items trailer =
              '<' :: ('i' :: 'm' :: 'g' :: ' ' :: 's' :: 'r' :: 'c' :: '=' :: '"' ::
                ((d0 :: u0) ++ '"' :: ' ' :: 'a' :: 'l' :: 't' :: '=' :: '"' ::
                  (a ++ '"' :: '>' :: imgDoc items trailer))) := by
            simp [imgTagA]
          rw [hcs2]
          rw [extractGo_hit _ _ (d0 :: u0) (some a) (imgDoc items trailer)
            (by rw [← hcs2]; exact hm)]
          rw [ih trailer hihsep hihurl hihalt htr (fuel - sep.length - 1) (by omega)]
          rfl
      | none =>
          have hdoc : imgDoc ((sep, d0 :: u0, none) :: items) trailer =
              sep ++ (imgTagN (d0 :: u0) ++ imgDoc items trailer) := by
            simp [imgDoc, imgDocGo, imgItemTag]
          rw [hdoc] at hf ⊢
          rw [List.length_append, List.length_append] at hf
          have hlt : 0 < (imgTagN (d0 :: u0)).length := by
            simp [imgTagN]
          have hfe : fuel = sep.length + ((fuel - sep.length - 1) + 1) := by omega
          rw [hfe, extractGo_skip sep hsep1 _ _]
          have hm := imgMatchAt_evalN d0 u0 (imgDoc items trailer) huq hu_eq
          have hcs2 : imgTagN (d0 :: u0) ++ imgDoc items trailer =
              '<' :: ('i' :: 'm' :: 'g' :: ' ' :: 's' :: 'r' :: 'c' :: '=' :: '"' ::
                ((d0 :: u0) ++ '"' :: '>' :: imgDoc items trailer)) := by
            simp [imgTagN]
          rw [hcs2]
          rw [extractGo_hit _ _ (d0 :: u0) none (imgDoc items trailer)
            (by rw [← hcs2]; exact hm)]
          rw [ih trailer hihsep hihurl hihalt htr (fuel - sep.length - 1) (by omega)]
          rfl

/-- Spec-side model of a well-formed image element for the tag count: a
complete, properly closed tag with the img name at a word boundary,
regardless of whether a `src` attribute is present.  Scans the document
and counts such elements. -/
def specImgTagCountGo : Nat → List Char → Nat
  | 0, _ => 0
  | _ + 1, [] => 0
  | fuel + 1, c :: cs =>
      if c = '<' then
        match openTagTry "img".data cs with
        | some rest => 1 + specImgTagCountGo fuel rest
        | none => specImgTagCountGo fuel cs
      else specImgTagCountGo fuel cs

/-- Number of well-formed image elements in a document, following the
claim's wording. -/
def specImgTagCount (s : String) : Nat :=
  specImgTagCountGo s.data.length s.data

/-- Claim C8 counterexample: an input with exactly one well-formed image
tag yields zero entries, because the scanner only reports tags whose text
carries a quoted nonempty `src` attribute.  So the claimed "exactly N
entries for an input containing N well-formed image tags" fails. -/
theorem C8_counterexample_img_without_src :
    specImgTagCount "<img>" = 1 ∧ extract_images (some "<img>") = [] := by
  decide

/-- Claim C8 (amended): `extract_images` on a structured document — image
tags with quoted `src` (url nonempty, quote-free and free of the equals
sign) and optionally quoted `alt` (quote-free, free of equals and of the
closing angle bracket), separated by text without an opening angle
bracket — returns exactly one entry per tag, in document order, each
entry built from that tag's url and alt by the source's entry builder
(basepath placeholder rewritten to the absolute base URL, alt
entity-decoded when present and empty otherwise, both stripped).  Null
and empty input yield the empty list. -/
theorem C8_extract_images_structured_doc
    (items : List (List Char × List Char × Option (List Char)))
    (trailer : List Char)
    (hsep : ∀ it ∈ items, '<' ∉ it.1)
    (hurl : ∀ it ∈ items, it.2.1 ≠ [] ∧ ∀ c ∈ it.2.1, isQuote c = false ∧ c ≠ '=')
    (halt : ∀ it ∈ items, ∀ c ∈ it.2.2.getD [],
      isQuote c = false ∧ c ≠ '=' ∧ c ≠ '>')
    (htr : '<' ∉ trailer) :
    extract_images none = [] ∧
    extract_images (some "") = [] ∧
    extract_images (some (String.mk (imgDoc items trailer))) =
      items.map (fun it => mkImageEntry it.2.1 it.2.2) := by
  refine ⟨rfl, rfl, ?_⟩
  have hmatch : ∀ it ∈ items,
      (match it.2.2 with
       | some a => ∀ c ∈ a, isQuote c = false ∧ c ≠ '=' ∧ c ≠ '>'
       | none => True) := by
    intro it hit
    have h2 := halt it hit
    cases hoo : it.2.2 with
    | some a =>
        rw [hoo] at h2
        exact h2
    | none => exact trivial
  by_cases hd : imgDoc items trailer = []
  · have hit : items = [] := by
      cases items with
      | nil => rfl
      | cons it its =>
          exfalso
          obtain ⟨sep, u, altO⟩ := it
          simp only [imgDoc, imgDocGo] at hd
          rcases List.append_eq_nil.mp hd with ⟨h1, _⟩
          rcases List.append_eq_nil.mp h1 with ⟨_, h2⟩
          rcases List.append_eq_nil.mp h2 with ⟨h3, _⟩
          cases altO with
          | some a => exact absurd h3 (by simp [imgItemTag, imgTagA])
          | none => exact absurd h3 (by simp [imgItemTag, imgTagN])
    subst hit
    rw [hd]
    decide
  · have hne : String.mk (imgDoc items trailer) ≠ "" := by
      intro he
      apply hd
      show (String.mk (imgDoc items trailer)).data = []
      rw [he]
    show (if String.mk (imgDoc items trailer) = "" then []
        else extractGo (String.mk (imgDoc items trailer)).data.length
          (String.mk (imgDoc items trailer)).data) =
      items.map (fun it => mkImageEntry it.2.1 it.2.2)
    rw [if_neg hne]
    exact extractGo_imgDoc items trailer hsep hurl hmatch htr _ (Nat.le_refl _)

/-- Concrete structured document for the amended C8 theorem: two image
tags, the first with a basepath-placeholder url and an entity-bearing alt,
the second without an alt attribute. -/
def c8Items : List (List Char × List Char × Option (List Char)) :=
  [("Intro text ".data, "<%basePath%>/images/p1.png".data,
      some " Fig &amp; one ".data),
   (" middle text ".data, "x.png".data, none)]

/-- Concrete instantiation of the amended C8 theorem. -/
theorem C8_extract_images_structured_doc_witness :
    (∀ it ∈ c8Items, '<' ∉ it.1) ∧
    (extract_images none = [] ∧
     extract_images (some "") = [] ∧
     extract_images (some (String.mk (imgDoc c8Items " end.".data))) =
       c8Items.map (fun it => mkImageEntry it.2.1 it.2.2)) :=
  ⟨by decide,
   C8_extract_images_structured_doc c8Items " end.".data
     (by decide) (by decide) (by decide) (by decide)⟩
